import Mathlib

/-!
Verification of the `DualMiniFASNetDetector` anti-spoofing core
(`backend/models/dual_minifasnet_detector.py`).

Shallow embedding conventions:
* Python floats are modelled as exact rationals (`ℚ`); `int(x)` truncation
  toward zero is `pyInt`; Python `//` on machine integers (always with the
  positive divisor 2 here) is `Int.ediv`, which agrees with Python floor
  division for positive divisors.
* Images are modelled by their dimensions where only geometry matters
  (crop extraction, scale separation) and by a pixel function where pixel
  content matters (preprocessing).
* The ONNX runtime, the temporal-consistency analyzer, the adaptive
  threshold manager and the SHA1 hash are external collaborators; they are
  modelled as function parameters ("oracles"), possibly returning
  `Except.error` to model a raised Python exception.
* Python dicts holding verdicts are modelled as structures with `Option`
  fields for keys that are only sometimes present.
-/

/-- Python `int(q)` on a float: truncation toward zero. -/
def pyInt (q : ℚ) : ℤ :=
  if 0 ≤ q then ⌊q⌋ else ⌈q⌉

/-- A caller-supplied bounding box: a dict with numeric entries, a list of
numbers, or some other (truthy, unparseable) object.  A dict is modelled by
its association list of numeric fields so that `.get(k, 0)` defaults are
faithful. -/
inductive PyBBox where
  | bdict (entries : List (String × ℚ))
  | blist (xs : List ℚ)
  | other
  deriving DecidableEq

/-- `d.get(k, 0)` on a numeric bbox dict. -/
def dGet : List (String × ℚ) → String → ℚ
  | [], _ => 0
  | (k', v) :: es, k => if k' = k then v else dGet es k

/-- `d.copy()` followed by `d[k] = v`: replace the (unique) existing
occurrence in place, else append — Python dicts keep insertion order and
append new keys at the end. -/
def dSet : List (String × ℚ) → String → ℚ → List (String × ℚ)
  | [], k, v => [(k, v)]
  | (k0, v0) :: es, k, v =>
      if k0 = k then (k, v) :: es else (k0, v0) :: dSet es k v

/-- Python truthiness of the bbox slot (`if not bbox`): `None`, `{}` and
`[]` are falsy; any other object is truthy. -/
def bboxTruthy : Option PyBBox → Bool
  | none => false
  | some (.bdict es) => !es.isEmpty
  | some (.blist xs) => !xs.isEmpty
  | some .other => true

/-- Parse a bbox the way `_extract_face_crop` does: dict fields with
default 0, or the first four entries of a list of length ≥ 4; anything
else is an invalid format (the code logs and returns `None`). -/
def bboxParse : PyBBox → Option (ℚ × ℚ × ℚ × ℚ)
  | .bdict es => some (dGet es "x", dGet es "y", dGet es "width", dGet es "height")
  | .blist (x :: y :: w :: h :: _) => some (x, y, w, h)
  | .blist _ => none
  | .other => none

/-- Image dimensions (rows `h`, columns `w`); pixel content is irrelevant
to the crop geometry. -/
structure ImgDims where
  h : ℕ
  w : ℕ
  deriving DecidableEq

/-- The geometry of an extracted face crop: its dimensions and the
reflection padding that was applied on each side of the source image. -/
structure CropG where
  h : ℕ
  w : ℕ
  padLeft : ℕ
  padTop : ℕ
  padRight : ℕ
  padBottom : ℕ
  deriving DecidableEq

/-- Embedding of `_extract_face_crop`.

Follows the source line by line: parse the bbox; reject faces below
32 px; truncate width/height/scale products with `int()`; centre the
scaled rectangle on the integer bbox centre; compute the per-side overflow
`pad_* = max(0, ...)`; if any padding is needed, reflection-pad
(`BORDER_REFLECT_101`) and shift the rectangle into the padded image.
In both branches the numpy slice `[lty:rby+1, ltx:rbx+1]` stays inside the
(padded) image, so the crop has `rby - lty + 1` rows and `rbx - ltx + 1`
columns (clamped at 0 for an empty slice, which the code maps to `None`
via the `size == 0` check).  Crops below 32×32 are rejected. -/
def extractFaceCrop (img : ImgDims) (bbox : PyBBox)
    (scale shiftX shiftY : ℚ) : Option CropG :=
  match bboxParse bbox with
  | none => none
  | some (x, y, bw, bh) =>
    if bw < 32 ∨ bh < 32 then none
    else
      let boxW : ℤ := pyInt bw
      let boxH : ℤ := pyInt bh
      let shiftXpx : ℤ := pyInt ((boxW : ℚ) * shiftX)
      let shiftYpx : ℤ := pyInt ((boxH : ℚ) * shiftY)
      let newW : ℤ := pyInt ((boxW : ℚ) * scale)
      let newH : ℤ := pyInt ((boxH : ℚ) * scale)
      let centerX : ℤ := boxW.ediv 2 + pyInt x
      let centerY : ℤ := boxH.ediv 2 + pyInt y
      let ltx : ℤ := centerX - newW.ediv 2 + shiftXpx
      let lty : ℤ := centerY - newH.ediv 2 + shiftYpx
      let rbx : ℤ := centerX + newW.ediv 2 + shiftXpx
      let rby : ℤ := centerY + newH.ediv 2 + shiftYpx
      let padL : ℤ := max 0 (-ltx)
      let padT : ℤ := max 0 (-lty)
      let padR : ℤ := max 0 (rbx - (img.w : ℤ) + 1)
      let padB : ℤ := max 0 (rby - (img.h : ℤ) + 1)
      let cropH : ℕ := (rby - lty + 1).toNat
      let cropW : ℕ := (rbx - ltx + 1).toNat
      if cropH = 0 ∨ cropW = 0 then none
      else if cropH < 32 ∨ cropW < 32 then none
      else some ⟨cropH, cropW, padL.toNat, padT.toNat, padR.toNat, padB.toNat⟩

/-- A caller-supplied face detection: the bbox may sit under the `"bbox"`
or the legacy `"box"` key; `payload` stands for the arbitrary additional
caller metadata carried through unmodified (its internal structure is
irrelevant at this value-semantics layer; aliasing is treated separately
in the heap model below). -/
structure Face where
  bbox : Option PyBBox
  box : Option PyBBox
  payload : ℕ
  deriving DecidableEq

/-- `face.get('bbox', face.get('box', {}))` as used by
`_ensure_scale_separation`. -/
def ssBBoxOf (f : Face) : PyBBox :=
  match f.bbox with
  | some b => b
  | none => f.box.getD (.bdict [])

/-- The largest of a bbox's width/height, or `none` when the bbox has a
format the scan skips (`continue`). -/
def ssFaceDim : PyBBox → Option ℚ
  | .bdict es => some (max (dGet es "width") (dGet es "height"))
  | .blist (_ :: _ :: w :: h :: _) => some (max w h)
  | .blist _ => none
  | .other => none

/-- The `max_face_dim` scan of `_ensure_scale_separation`: start at 0 and
take each face's dimension when strictly larger. -/
def maxFaceDim (faces : List Face) : ℚ :=
  faces.foldl
    (fun acc f =>
      match ssFaceDim (ssBBoxOf f) with
      | some d => if acc < d then d else acc
      | none => acc)
    0

/-- Rescale one detection's bbox by `sf`, as in the downsampling branch of
`_ensure_scale_separation`: dict bboxes get their `x`/`y`/`width`/`height`
fields multiplied in place (other fields kept); list bboxes are replaced by
the four scaled coordinates; malformed bboxes are left untouched.  In all
cases the (possibly new) bbox is stored under the `"bbox"` key. -/
def scaleFace (sf : ℚ) (f : Face) : Face :=
  match ssBBoxOf f with
  | .bdict es =>
      { f with bbox := some (.bdict
          (dSet (dSet (dSet (dSet es "x" (dGet es "x" * sf))
            "y" (dGet es "y" * sf))
            "width" (dGet es "width" * sf))
            "height" (dGet es "height" * sf))) }
  | .blist (x :: y :: w :: h :: _) =>
      { f with bbox := some (.blist [x * sf, y * sf, w * sf, h * sf]) }
  | _ => f

/-- Embedding of `_ensure_scale_separation`.  (An image with a zero
dimension would raise `ZeroDivisionError` in Python; the theorems below
therefore assume a positive shorter side.) -/
def ensureScaleSeparation (img : ImgDims) (faces : List Face) :
    ImgDims × List Face :=
  let maxDim := maxFaceDim faces
  if maxDim = 0 then (img, faces)
  else
    let minDim : ℚ := min (img.h : ℚ) (img.w : ℚ)
    let curFrac := maxDim / minDim
    if 1/5 < curFrac then
      let sf := (1/5) / curFrac
      let newW := pyInt ((img.w : ℚ) * sf)
      let newH := pyInt ((img.h : ℚ) * sf)
      if newW < 240 ∨ newH < 180 then (img, faces)
      else (⟨newH.toNat, newW.toNat⟩, faces.map (scaleFace sf))
    else (img, faces)

/-- A pixel image: `pix i j c` is the value of channel `c` (BGR order:
0 = blue, 1 = green, 2 = red) at row `i`, column `j`.  Values are floats
in their native `[0, 255]` range. -/
structure Img where
  h : ℕ
  w : ℕ
  pix : ℕ → ℕ → ℕ → ℚ

/-- A 4-axis tensor `(n, c, h, w)` as produced by preprocessing. -/
structure Tensor4 where
  n : ℕ
  c : ℕ
  th : ℕ
  tw : ℕ
  val : ℕ → ℕ → ℕ → ℕ → ℚ

/-- Embedding of `_preprocess_single_face`, parameterised by the external
`cv2.resize` (treated as an opaque collaborator; `resize img tw th`
requests a `tw`-wide, `th`-high output as `cv2.resize(img, (tw, th))`
does).  Steps, as in the source: reject an empty image; resize to
`input_size`; convert BGR to RGB (channel `c` of the RGB image is channel
`2 - c` of the BGR image); `astype(float32)` keeps the raw `[0, 255]`
values (no division by 255); transpose HWC→CHW and add a batch axis;
finally check the shape against `(1, 3, input_size[1], input_size[0])`
and raise on mismatch. -/
def preprocTensor (resize : Img → ℕ → ℕ → Img)
    (inputSize : ℕ × ℕ) (img : Img) : Tensor4 :=
  let resized := resize img inputSize.1 inputSize.2
  { n := 1, c := 3, th := resized.h, tw := resized.w,
    val := fun b c i j =>
      if b = 0 ∧ c < 3 then resized.pix i j (2 - c) else 0 }

/-- The guarded entry: reject an empty input, build the tensor, check its
shape against `(1, 3, input_size[1], input_size[0])` and raise on
mismatch. -/
def preprocessSingleFace (resize : Img → ℕ → ℕ → Img)
    (inputSize : ℕ × ℕ) (img : Img) : Except String Tensor4 :=
  if img.h = 0 ∨ img.w = 0 then .error "Invalid face image"
  else
    let t := preprocTensor resize inputSize img
    if t.n = 1 ∧ t.c = 3 ∧ t.th = inputSize.2 ∧ t.tw = inputSize.1 then .ok t
    else .error "Unexpected tensor shape"

/-- The entries of the spec's crop-geometry scenario bbox:
`{x:100, y:100, width:200, height:200}`. -/
def scenarioBBoxEntries : List (String × ℚ) :=
  [("x", 100), ("y", 100), ("width", 200), ("height", 200)]

/-- The concrete bbox of the spec's crop-geometry scenario. -/
def scenarioBBox : PyBBox := .bdict scenarioBBoxEntries

/-- The concrete 640×480 image of the spec's crop-geometry scenario. -/
def scenarioImg : ImgDims := ⟨480, 640⟩

/-- The downscale factor computed in the downsampling branch of
`_ensure_scale_separation`: `target_ratio / current_ratio`. -/
def ssScaleFactor (img : ImgDims) (faces : List Face) : ℚ :=
  (1/5) / (maxFaceDim faces / min (img.h : ℚ) (img.w : ℚ))

/-- Concrete 1×1 image used by witnesses. -/
def witImg : Img := ⟨1, 1, fun _ _ _ => 3⟩

/-- Concrete resize oracle used by witnesses: returns a constant-7 image
of the requested size. -/
def witResize : Img → ℕ → ℕ → Img := fun _ tw th => ⟨th, tw, fun _ _ _ => 7⟩

/-- Concrete single-face list for the C9 witness. -/
def witFaces : List Face :=
  [⟨some (.bdict [("x", 40), ("y", 40), ("width", 200), ("height", 200)]), none, 0⟩]

/-- Numerically-stable softmax over 3-class logits
`(2D-spoof, live, 3D-spoof)`: subtract the row max before applying the
exponential `expO` (the embedding of `np.exp`, an external numeric
routine), then normalise. -/
def stableSoftmax3 (expO : ℚ → ℚ) (l : ℚ × ℚ × ℚ) : ℚ × ℚ × ℚ :=
  let m := max l.1 (max l.2.1 l.2.2)
  let e0 := expO (l.1 - m)
  let e1 := expO (l.2.1 - m)
  let e2 := expO (l.2.2 - m)
  let s := e0 + e1 + e2
  (e0 / s, e1 / s, e2 / s)

/-- Textbook softmax without the stabilising max subtraction, for
comparison. -/
def plainSoftmax3 (expO : ℚ → ℚ) (l : ℚ × ℚ × ℚ) : ℚ × ℚ × ℚ :=
  let e0 := expO l.1
  let e1 := expO l.2.1
  let e2 := expO l.2.2
  let s := e0 + e1 + e2
  (e0 / s, e1 / s, e2 / s)

/-- One model's prediction dict:
`{real_score, fake_score, confidence, spoof_2d_score, spoof_3d_score,
spoof_type, is_binary, error?}` (the constant `is_binary: True` field is
omitted). -/
structure PredOut where
  real_score : ℚ
  fake_score : ℚ
  confidence : ℚ
  spoof_2d_score : ℚ
  spoof_3d_score : ℚ
  spoof_type : String
  error : Option String
  deriving DecidableEq

/-- Per-row postprocessing shared by `_predict_single_model` and
`_predict_single_model_batch`: softmax, class mapping
(index 0 = 2D spoof, 1 = live, 2 = 3D spoof), `fake = spoof2d + spoof3d`,
`confidence = max(real, fake)`. -/
def rowResult (expO : ℚ → ℚ) (l : ℚ × ℚ × ℚ) : PredOut :=
  let p := stableSoftmax3 expO l
  let spoof2d := p.1
  let real := p.2.1
  let spoof3d := p.2.2
  let fake := spoof2d + spoof3d
  { real_score := real
    fake_score := fake
    confidence := max real fake
    spoof_2d_score := spoof2d
    spoof_3d_score := spoof3d
    spoof_type :=
      if spoof3d < spoof2d then "2D" else if 0 < spoof3d then "3D" else "none"
    error := none }

/-- The neutral `{0.5, 0.5, 0.5}` result returned on any inference
failure, tagged with the error marker. -/
def neutralPred (e : String) : PredOut :=
  { real_score := 1/2
    fake_score := 1/2
    confidence := 1/2
    spoof_2d_score := 1/4
    spoof_3d_score := 1/4
    spoof_type := "error"
    error := some e }

/-- Embedding of `_predict_single_model`: the ONNX session is the oracle
`run`, which either raises or returns the rows of `outputs[0]`; the first
row is postprocessed (an empty output makes `outputs[0][0]` raise
`IndexError`, which the same handler catches).  The function is total:
no exception escapes this boundary. -/
def predictSingleModel {α : Type} (expO : ℚ → ℚ)
    (run : α → Except String (List (ℚ × ℚ × ℚ))) (input : α) : PredOut :=
  match run input with
  | .error e => neutralPred e
  | .ok [] => neutralPred "list index out of range"
  | .ok (l :: _) => rowResult expO l

/-- Embedding of `_predict_single_model_batch`: one oracle call on the
stacked inputs; on success every returned row is postprocessed (the
result count follows the oracle's output, a contract violation the batch
orchestrator must detect); on failure one fresh neutral result per input
is returned. -/
def predictSingleModelBatch {α : Type} (expO : ℚ → ℚ)
    (run : List α → Except String (List (ℚ × ℚ × ℚ))) (inputs : List α) :
    List PredOut :=
  match run inputs with
  | .error e => inputs.map (fun _ => neutralPred e)
  | .ok rows => rows.map (rowResult expO)

/-- Threshold-adjustment info returned by the (external) adaptive
threshold manager: `{adjusted_threshold, total_boost, explanation}`. -/
structure TInfo where
  adjusted_threshold : ℚ
  total_boost : ℚ
  explanation : String
  deriving DecidableEq

/-- An antispoofing verdict dict.  Keys that are only sometimes present
are `Option` fields (`none` = key absent); `temporal_analysis` carries the
analyzer's diagnostic blob, modelled by its `decision_reason` string. -/
structure AntiRec where
  status : String
  label : String
  message : String
  is_real : Bool
  confidence : ℚ
  real_score : ℚ
  fake_score : ℚ
  threshold : ℚ
  adjusted_threshold : Option ℚ
  processing_time : Option ℚ
  cached : Option Bool
  model_type : Option String
  v2_real_score : Option ℚ
  v2_fake_score : Option ℚ
  v1se_real_score : Option ℚ
  v1se_fake_score : Option ℚ
  ensemble_method : Option String
  temporal_verdict : Option String
  temporal_confidence : Option ℚ
  temporal_analysis : Option String
  threshold_info : Option TInfo
  quality_score : Option ℚ
  error : Option String
  deriving DecidableEq

/-- One cache slot: `{timestamp, antispoofing}`. -/
structure CacheEntry where
  timestamp : ℚ
  antispoofing : AntiRec
  deriving DecidableEq

/-- The `_cache` dict, as an insertion-ordered association list with
unique keys. -/
abbrev CacheMap := List (String × CacheEntry)

/-- `dict.get`. -/
def cLookup : CacheMap → String → Option CacheEntry
  | [], _ => none
  | (k0, e) :: rest, k => if k0 = k then some e else cLookup rest k

/-- `dict.pop(k, None)`. -/
def cErase : CacheMap → String → CacheMap
  | [], _ => []
  | (k0, e) :: rest, k => if k0 = k then rest else (k0, e) :: cErase rest k

/-- `dict[k] = v`: replace in place, else append. -/
def cInsert : CacheMap → String → CacheEntry → CacheMap
  | [], k, e => [(k, e)]
  | (k0, e0) :: rest, k, e =>
      if k0 = k then (k, e) :: rest else (k0, e0) :: cInsert rest k e

/-- Embedding of `_make_cache_key`: `None` when caching is disabled
(`cache_duration <= 0`), before any hashing work; otherwise the SHA1 of
the two crops' bytes, the 16-bin brightness histogram of the first crop
and the 1-second time bucket `int(time.time() / 1.0)` — the hash and
histogram are an opaque collaborator `hashO` here, fed the crops and the
time bucket. -/
def makeCacheKey (cacheDuration : ℚ) (hashO : CropG → CropG → ℤ → String)
    (c1 c2 : CropG) (now : ℚ) : Option String :=
  if cacheDuration ≤ 0 then none
  else some (hashO c1 c2 (pyInt (now / 1)))

/-- Embedding of `_get_cached_result`.  Returns the (deep-copied) verdict
plus the possibly-mutated cache.  `if not cache_key` also treats an empty
string as missing.  Order of checks follows the source: disabled, lookup,
expiry (evicting the entry), status exclusion, confidence floor for
"real" verdicts; the returned copy gets `cached = True` and
`setdefault`ed `processing_time` / `model_type`. -/
def getCachedResult (cacheDuration floor : ℚ) (cache : CacheMap)
    (key : Option String) (now : ℚ) : Option AntiRec × CacheMap :=
  match key with
  | none => (none, cache)
  | some k =>
    if k = "" ∨ cacheDuration ≤ 0 then (none, cache)
    else
      match cLookup cache k with
      | none => (none, cache)
      | some entry =>
        if cacheDuration < now - entry.timestamp then (none, cErase cache k)
        else
          let cached := entry.antispoofing
          if cached.status = "processing_failed" ∨ cached.status = "error" then
            (none, cache)
          else if cached.is_real ∧ cached.confidence < floor then (none, cache)
          else
            (some { cached with
                      cached := some true
                      processing_time := some (cached.processing_time.getD 0)
                      model_type := some (cached.model_type.getD "dual_minifasnet") },
             cache)

/-- The store-side sanitisation: drop the transient `processing_time`
and `cached` keys. -/
def sanitizeForStore (r : AntiRec) : AntiRec :=
  { r with processing_time := none, cached := none }

/-- Embedding of `_store_cache_entry`: no-op when disabled or the key is
missing/empty; refuse `processing_failed`/`error` verdicts and "real"
verdicts below the confidence floor; otherwise store the sanitised copy
with the current timestamp. -/
def storeCacheEntry (cacheDuration floor : ℚ) (cache : CacheMap)
    (key : Option String) (r : AntiRec) (now : ℚ) : CacheMap :=
  match key with
  | none => cache
  | some k =>
    if k = "" ∨ cacheDuration ≤ 0 then cache
    else
      let sanitized := sanitizeForStore r
      if sanitized.status = "processing_failed" ∨ sanitized.status = "error" then
        cache
      else if sanitized.is_real ∧ sanitized.confidence < floor then cache
      else cInsert cache k ⟨now, sanitized⟩

/-- The constructor default `cache_confidence_floor = 0.98`. -/
def defaultCacheConfidenceFloor : ℚ := 98/100

/-- A concrete stored verdict for the cache witness. -/
def witAnti : AntiRec :=
  { status := "fake", label := "Spoof Detected", message := "msg"
    is_real := false, confidence := 9/10, real_score := 1/10
    fake_score := 9/10, threshold := 13/20
    adjusted_threshold := none, processing_time := none, cached := none
    model_type := none, v2_real_score := none, v2_fake_score := none
    v1se_real_score := none, v1se_fake_score := none, ensemble_method := none
    temporal_verdict := none, temporal_confidence := none
    temporal_analysis := none, threshold_info := none, quality_score := none
    error := none }

/-- A concrete one-entry cache whose entry (timestamp 90) is expired at
time 100 under a 5-second duration. -/
def witCache : CacheMap := [("kold", ⟨90, witAnti⟩)]

/-- Detector configuration relevant to the ensemble and batch paths.
Weights are the constructor-normalised `v2_weight`/`v1se_weight`
(summing to 1); `max_batch_size` is used through `max 1 _`, as the
constructor's `max(1, int(...))` does. -/
structure DetCfg where
  threshold : ℚ
  v2_weight : ℚ
  v1se_weight : ℚ
  max_batch_size : ℕ
  cache_duration : ℚ
  cache_confidence_floor : ℚ
  enable_temporal_analysis : Bool
  enable_adaptive_threshold : Bool

/-- The temporal-consistency analyzer (stateful, state type `S`) and the
adaptive threshold manager, as oracles with the interfaces the spec
declares for these external collaborators (their implementations,
`utils.temporal_analyzer` / `utils.adaptive_threshold`, are outside the
embedded source); any call may raise.  `analyze` returns
`(verdict, confidence, decision_reason)`. -/
structure Collab (S : Type) where
  extractTexture : S → CropG → ℚ
  updateHistory : S → ℤ → ℚ → ℚ → Option ℚ → Except String S
  analyze : S → ℤ → ℚ → ℚ → Except String (String × ℚ × String)
  getStability : S → ℤ → Except String (Option ℚ)
  adapt : ℚ → ℚ → Option ℚ → Option ℚ → String → ℚ → Except String TInfo

/-- The three-field per-model score dict copies
(`v2_copy` / `v1se_copy`) handed to the ensemble by the batch path. -/
structure ModelScore where
  real_score : ℚ
  fake_score : ℚ
  confidence : ℚ
  deriving DecidableEq

/-- The `except` branch of `_ensemble_prediction`: fail closed with
`is_real = False`, zero confidence, status `"error"`. -/
def ensembleErrorResult (cfg : DetCfg) (msg : String) : AntiRec :=
  { status := "error", label := "Error", message := msg
    is_real := false, confidence := 0, real_score := 0, fake_score := 1
    threshold := cfg.threshold, adjusted_threshold := some cfg.threshold
    processing_time := none, cached := none, model_type := none
    v2_real_score := none, v2_fake_score := none
    v1se_real_score := none, v1se_fake_score := none
    ensemble_method := some "rank1_error"
    temporal_verdict := none, temporal_confidence := none
    temporal_analysis := none, threshold_info := none, quality_score := none
    error := some msg }

/-- The early-return temporal-override result: forced SPOOF with the
temporal confidence, static threshold, method
`"rank1_temporal_override"`. -/
def temporalOverrideResult (cfg : DetCfg) (realS fakeS : ℚ)
    (v2 v1se : ModelScore) (tv : String) (tc : ℚ) (blob : String) : AntiRec :=
  { status := "fake", label := "Spoof Detected (Temporal)", message := blob
    is_real := false, confidence := tc, real_score := realS
    fake_score := fakeS, threshold := cfg.threshold
    adjusted_threshold := some cfg.threshold
    processing_time := none, cached := none, model_type := none
    v2_real_score := some v2.real_score, v2_fake_score := some v2.fake_score
    v1se_real_score := some v1se.real_score
    v1se_fake_score := some v1se.fake_score
    ensemble_method := some "rank1_temporal_override"
    temporal_verdict := some tv, temporal_confidence := some tc
    temporal_analysis := some blob, threshold_info := none
    quality_score := none, error := none }

/-- The normal-path ensemble result: decide with
`is_real = ensemble_real_score > adjusted_threshold`; temporal fields are
attached only when the verdict is not `"UNCERTAIN"`, `threshold_info`
only when adaptive thresholding produced one, `quality_score` only when
supplied. -/
def ensembleNormalResult (cfg : DetCfg) (realS fakeS adjT : ℚ)
    (v2 v1se : ModelScore) (tv : String) (tc : ℚ) (blob : Option String)
    (tinfo : Option TInfo) (quality : Option ℚ) : AntiRec :=
  let isReal : Bool := adjT < realS
  { status := if isReal then "real" else "fake"
    label := if isReal then "Live Face" else "Spoof Detected"
    message :=
      if isReal then "Live face verified by RANK 1 ensemble."
      else "Spoof attempt detected by RANK 1 ensemble."
    is_real := isReal
    confidence := if isReal then realS else fakeS
    real_score := realS, fake_score := fakeS
    threshold := cfg.threshold, adjusted_threshold := some adjT
    processing_time := none, cached := none, model_type := none
    v2_real_score := some v2.real_score, v2_fake_score := some v2.fake_score
    v1se_real_score := some v1se.real_score
    v1se_fake_score := some v1se.fake_score
    ensemble_method := some "rank1_adaptive_temporal"
    temporal_verdict := if tv = "UNCERTAIN" then none else some tv
    temporal_confidence := if tv = "UNCERTAIN" then none else some tc
    temporal_analysis := if tv = "UNCERTAIN" then none else blob
    threshold_info := tinfo
    quality_score := quality
    error := none }

/-- The adaptive-threshold half of `_ensemble_prediction` (everything
after the temporal-override check): look up the track stability only when
temporal analysis is active on a track, consult the adaptive threshold
manager when enabled (any oracle failure falls into the `except` branch),
then decide against the adjusted threshold. -/
def ensembleTail {S : Type} (cfg : DetCfg) (C : Collab S) (s : S)
    (v2 v1se : ModelScore) (trackId : Option ℤ) (quality : Option ℚ)
    (realS fakeS : ℚ) (tv : String) (tc : ℚ) (blob : Option String) :
    AntiRec × S :=
  if cfg.enable_adaptive_threshold then
    match trackId, cfg.enable_temporal_analysis with
    | some tid, true =>
      match C.getStability s tid with
      | .error e => (ensembleErrorResult cfg e, s)
      | .ok stab =>
        match C.adapt v2.real_score v1se.real_score quality stab tv tc with
        | .error e => (ensembleErrorResult cfg e, s)
        | .ok ti =>
          (ensembleNormalResult cfg realS fakeS ti.adjusted_threshold
            v2 v1se tv tc blob (some ti) quality, s)
    | _, _ =>
      match C.adapt v2.real_score v1se.real_score quality none tv tc with
      | .error e => (ensembleErrorResult cfg e, s)
      | .ok ti =>
        (ensembleNormalResult cfg realS fakeS ti.adjusted_threshold
          v2 v1se tv tc blob (some ti) quality, s)
  else
    (ensembleNormalResult cfg realS fakeS cfg.threshold v2 v1se tv tc blob
      none quality, s)

/-- The weighted ensemble real score. -/
def weightedReal (cfg : DetCfg) (v2 v1se : ModelScore) : ℚ :=
  v2.real_score * cfg.v2_weight + v1se.real_score * cfg.v1se_weight

/-- The weighted ensemble fake score. -/
def weightedFake (cfg : DetCfg) (v2 v1se : ModelScore) : ℚ :=
  v2.fake_score * cfg.v2_weight + v1se.fake_score * cfg.v1se_weight

/-- Embedding of `_ensemble_prediction`.  With temporal analysis enabled
and a track id: extract texture features from the V2 crop if present,
update the analyzer's history, analyze the pattern, and override to
SPOOF only when the verdict is `"SPOOF"` with confidence ≥ 0.90 and the
ensemble is borderline (`real < 0.7` and `fake > 0.6`); otherwise (and
always when untracked or disabled, with verdict `"UNCERTAIN"` and
confidence 0.5) fall through to the adaptive-threshold decision.  Any
oracle failure is caught and becomes the fail-closed error result; a
failure after `update_history` keeps the mutated analyzer state, as the
Python state mutation does. -/
def ensemblePrediction {S : Type} (cfg : DetCfg) (C : Collab S) (s : S)
    (v2 v1se : ModelScore) (trackId : Option ℤ) (quality : Option ℚ)
    (cropV2 : Option CropG) : AntiRec × S :=
  let realS := weightedReal cfg v2 v1se
  let fakeS := weightedFake cfg v2 v1se
  match trackId, cfg.enable_temporal_analysis with
  | some tid, true =>
    let tex := cropV2.map (C.extractTexture s)
    match C.updateHistory s tid realS fakeS tex with
    | .error e => (ensembleErrorResult cfg e, s)
    | .ok s1 =>
      match C.analyze s1 tid realS fakeS with
      | .error e => (ensembleErrorResult cfg e, s1)
      | .ok (tv, tc, blob) =>
        if tv = "SPOOF" ∧ 9/10 ≤ tc ∧ realS < 7/10 ∧ 6/10 < fakeS then
          (temporalOverrideResult cfg realS fakeS v2 v1se tv tc blob, s1)
        else
          ensembleTail cfg C s1 v2 v1se (some tid) quality realS fakeS
            tv tc (some blob)
  | _, _ =>
    ensembleTail cfg C s v2 v1se trackId quality realS fakeS
      "UNCERTAIN" (1/2) none

/-- Narrow a full per-model prediction to the three-field copy the batch
path hands the ensemble. -/
def toModelScore (p : PredOut) : ModelScore :=
  { real_score := p.real_score, fake_score := p.fake_score
    confidence := p.confidence }

/-- The zip-and-ensemble loop of `_process_faces_batch`, threading the
analyzer state (the batch path always passes `track_id = None` and
`quality_score = None` — the call site omits both arguments). -/
def zipEnsemble {S : Type} (cfg : DetCfg) (C : Collab S) :
    S → List (PredOut × PredOut) → List AntiRec × S
  | s, [] => ([], s)
  | s, (p2, p1se) :: rest =>
    let (r, s') :=
      ensemblePrediction cfg C s (toModelScore p2) (toModelScore p1se)
        none none none
    let (rs, s'') := zipEnsemble cfg C s' rest
    (r :: rs, s'')

/-- Embedding of `_process_faces_batch`: empty input short-circuits;
otherwise both models run one batched call each (preprocessing is total
on the non-empty crops that reach this point, so the sequential-fallback
`except` branch is unreachable), and `zip` pairs the two result lists
(truncating to the shorter one). -/
def processFacesBatch {S : Type} (cfg : DetCfg) (C : Collab S) (expO : ℚ → ℚ)
    (runV2 runV1se : List CropG → Except String (List (ℚ × ℚ × ℚ)))
    (s : S) (cropsV2 cropsV1se : List CropG) : List AntiRec × S :=
  if cropsV2.isEmpty ∨ cropsV1se.isEmpty then ([], s)
  else
    let v2res := predictSingleModelBatch expO runV2 cropsV2
    let v1res := predictSingleModelBatch expO runV1se cropsV1se
    zipEnsemble cfg C s (v2res.zip v1res)

/-- The isolated per-face copy built in the emission loop of
`detect_faces_batch`: a fixed set of scalar fields with defaults, plus
the error marker when present.  Note it carries no
temporal/quality/threshold-info fields. -/
def isolateResult (cfg : DetCfg) (r : AntiRec) : AntiRec :=
  { status := r.status, label := r.label, message := r.message
    is_real := r.is_real, confidence := r.confidence
    real_score := r.real_score, fake_score := r.fake_score
    threshold := cfg.threshold
    adjusted_threshold := none, processing_time := none
    cached := some false, model_type := some "dual_minifasnet"
    v2_real_score := some (r.v2_real_score.getD 0)
    v2_fake_score := some (r.v2_fake_score.getD 0)
    v1se_real_score := some (r.v1se_real_score.getD 0)
    v1se_fake_score := some (r.v1se_fake_score.getD 0)
    ensemble_method := some (r.ensemble_method.getD "weighted_average_apk_replica")
    temporal_verdict := none, temporal_confidence := none
    temporal_analysis := none, threshold_info := none, quality_score := none
    error := r.error }

/-- `_build_error_result`'s antispoofing payload. -/
def buildErrorAnti (cfg : DetCfg) (status msg label : String) : AntiRec :=
  { status := status, label := label, message := msg
    is_real := false, confidence := 0, real_score := 0, fake_score := 1
    threshold := cfg.threshold
    adjusted_threshold := none, processing_time := some 0
    cached := some false, model_type := some "dual_minifasnet"
    v2_real_score := none, v2_fake_score := none
    v1se_real_score := none, v1se_fake_score := none, ensemble_method := none
    temporal_verdict := none, temporal_confidence := none
    temporal_analysis := none, threshold_info := none, quality_score := none
    error := none }

/-- A formatted output: `_format_result` attaches `face_id`, the cloned
bbox and the deep-copied antispoofing dict, then deep-copies the
remaining caller fields — at this value-semantics layer the copies are
the values themselves (aliasing is the heap model's concern below). -/
structure Formatted where
  face_id : ℕ
  bbox : Option PyBBox
  anti : AntiRec
  face : Face
  deriving DecidableEq

/-- `face.get("bbox", face.get("box"))` as used by `detect_faces_batch`. -/
def faceGetBBox (f : Face) : Option PyBBox :=
  match f.bbox with
  | some b => some b
  | none => f.box

/-- Width/height extraction in the validation step: dict fields with
default 0, or `bbox[2]`/`bbox[3]` of a list of length ≥ 4; `none` means
the unrecognized-format rejection. -/
def faceWH : PyBBox → Option (ℚ × ℚ)
  | .bdict es => some (dGet es "width", dGet es "height")
  | .blist (_ :: _ :: w :: h :: _) => some (w, h)
  | _ => none

/-- One pending-inference entry. -/
structure PendEntry where
  index : ℕ
  face : Face
  bbox : PyBBox
  cropV2 : CropG
  cropV1se : CropG
  cacheKey : Option String
  deriving DecidableEq

/-- Per-face outcome of the validation/crop/cache phase: either an
already-formatted result (rejection or cache hit) or a pending entry. -/
inductive FaceOutcome where
  | fin (r : Formatted)
  | pend (p : PendEntry)
  deriving DecidableEq

/-- The raw clamped fallback crop: `int()`-truncate the bbox, clamp to
the image, fail on an inverted or empty region.  Returns the formatted
`processing_failed` rejection or the crop. -/
def fallbackCrop (img : ImgDims) (b : PyBBox) : Except String CropG :=
  match b with
  | .other => .error "Unable to compute fallback crop."
  | .bdict es =>
    fallbackFromInts img (pyInt (dGet es "x")) (pyInt (dGet es "y"))
      (pyInt (dGet es "width")) (pyInt (dGet es "height"))
  | .blist (x :: y :: w :: h :: _) =>
    fallbackFromInts img (pyInt x) (pyInt y) (pyInt w) (pyInt h)
  | .blist _ => .error "Unable to compute fallback crop."
where
  fallbackFromInts (img : ImgDims) (x y w h : ℤ) : Except String CropG :=
    let x1 := max 0 x
    let y1 := max 0 y
    let x2 := min (img.w : ℤ) (x + w)
    let y2 := min (img.h : ℤ) (y + h)
    if x2 ≤ x1 ∨ y2 ≤ y1 then
      .error "Invalid crop region after boundary clamp."
    else if (y2 - y1).toNat = 0 ∨ (x2 - x1).toNat = 0 then
      .error "Empty fallback crop produced."
    else .ok ⟨(y2 - y1).toNat, (x2 - x1).toNat, 0, 0, 0, 0⟩

/-- The per-detection validation / crop-extraction / cache-lookup phase
of `detect_faces_batch` (loop body over `scaled_faces`): reject a
missing/falsy bbox (`invalid_bbox`), an unrecognized format
(`invalid_bbox`), or a face below the 24 px floor (`too_small`); extract
the 2.7× and 4.0× crops, falling back to the raw clamped crop for
whichever failed (`processing_failed` if even that fails); then compute
the cache key, answer from the cache when possible, and otherwise queue
the entry for batched inference. -/
def processOneFace (cfg : DetCfg) (hashO : CropG → CropG → ℤ → String)
    (now : ℚ) (img : ImgDims) (cache : CacheMap) (i : ℕ) (f : Face) :
    FaceOutcome × CacheMap :=
  match faceGetBBox f with
  | none =>
    (.fin ⟨i, none, buildErrorAnti cfg "invalid_bbox"
      "Missing bounding box for face detection." "Spoof Suspected", f⟩, cache)
  | some b =>
    if bboxTruthy (some b) = false then
      (.fin ⟨i, some b, buildErrorAnti cfg "invalid_bbox"
        "Missing bounding box for face detection." "Spoof Suspected", f⟩, cache)
    else
      match faceWH b with
      | none =>
        (.fin ⟨i, some b, buildErrorAnti cfg "invalid_bbox"
          "Unrecognized bounding box format." "Spoof Suspected", f⟩, cache)
      | some (wq, hq) =>
        if wq < 24 ∨ hq < 24 then
          (.fin ⟨i, some b, buildErrorAnti cfg "too_small"
            "Face too small." "Move Closer", f⟩, cache)
        else
          let cV2 := extractFaceCrop img b (27/10) 0 0
          let cV1 := extractFaceCrop img b 4 0 0
          match cV2, cV1 with
          | some crop2, some crop1 =>
            afterCrops cfg hashO now cache i f b crop2 crop1
          | _, _ =>
            match fallbackCrop img b with
            | .error msg =>
              (.fin ⟨i, some b, buildErrorAnti cfg "processing_failed"
                msg "Spoof Suspected", f⟩, cache)
            | .ok fb =>
              afterCrops cfg hashO now cache i f b (cV2.getD fb) (cV1.getD fb)
where
  afterCrops (cfg : DetCfg) (hashO : CropG → CropG → ℤ → String) (now : ℚ)
      (cache : CacheMap) (i : ℕ) (f : Face) (b : PyBBox)
      (crop2 crop1 : CropG) : FaceOutcome × CacheMap :=
    let key := makeCacheKey cfg.cache_duration hashO crop2 crop1 now
    match getCachedResult cfg.cache_duration cfg.cache_confidence_floor
        cache key now with
    | (some cr, cache') => (.fin ⟨i, some b, cr, f⟩, cache')
    | (none, cache') => (.pend ⟨i, f, b, crop2, crop1, key⟩, cache')

/-- Run the validation phase over all (scaled) faces with their indices,
threading the cache. -/
def phase1 (cfg : DetCfg) (hashO : CropG → CropG → ℤ → String) (now : ℚ)
    (img : ImgDims) : ℕ → CacheMap → List Face →
    List FaceOutcome × CacheMap
  | _, cache, [] => ([], cache)
  | i, cache, f :: rest =>
    let oc := processOneFace cfg hashO now img cache i f
    let rest' := phase1 cfg hashO now img (i + 1) oc.2 rest
    (oc.1 :: rest'.1, rest'.2)

/-- Pending projection. -/
def pendOf : FaceOutcome → Option PendEntry
  | .pend p => some p
  | .fin _ => none

/-- Split the pending list into chunks of `max(1, max_batch_size)`
(`range(0, len(pending), self.max_batch_size)`). -/
def chunkList {α : Type} (B : ℕ) : List α → List (List α)
  | [] => []
  | x :: xs =>
    (x :: xs).take (max 1 B) :: chunkList B ((x :: xs).drop (max 1 B))
termination_by l => l.length
decreasing_by
  simp only [List.length_drop, List.length_cons]
  have : 1 ≤ max 1 B := le_max_left 1 B
  omega

/-- The per-chunk emission loop: isolate each ensemble result, write it
at the entry's index, and store the cache copy (the `cached` flag
popped before storing). -/
def applyChunkWrites (cfg : DetCfg) (now : ℚ) :
    List (PendEntry × AntiRec) → List (Option Formatted) → CacheMap →
    List (Option Formatted) × CacheMap
  | [], results, cache => (results, cache)
  | (p, a) :: rest, results, cache =>
    let iso := isolateResult cfg a
    let results' :=
      results.set p.index (some ⟨p.index, some p.bbox, iso, p.face⟩)
    let cache' := storeCacheEntry cfg.cache_duration
      cfg.cache_confidence_floor cache p.cacheKey { iso with cached := none }
      now
    applyChunkWrites cfg now rest results' cache'

/-- One chunk: a single dual-model batched call; on a count mismatch the
whole chunk is skipped (left unwritten) rather than aligned by
guessing. -/
def runChunk {S : Type} (cfg : DetCfg) (C : Collab S) (expO : ℚ → ℚ)
    (runV2 runV1se : List CropG → Except String (List (ℚ × ℚ × ℚ)))
    (now : ℚ) (s : S) (cache : CacheMap)
    (results : List (Option Formatted)) (chunk : List PendEntry) :
    List (Option Formatted) × CacheMap × S :=
  let pr := processFacesBatch cfg C expO runV2 runV1se s
    (chunk.map (·.cropV2)) (chunk.map (·.cropV1se))
  if pr.1.length ≠ chunk.length then (results, cache, pr.2)
  else
    let wr := applyChunkWrites cfg now (chunk.zip pr.1) results cache
    (wr.1, wr.2, pr.2)

/-- Drain all chunks. -/
def phase2 {S : Type} (cfg : DetCfg) (C : Collab S) (expO : ℚ → ℚ)
    (runV2 runV1se : List CropG → Except String (List (ℚ × ℚ × ℚ)))
    (now : ℚ) : S → CacheMap → List (Option Formatted) →
    List (List PendEntry) → List (Option Formatted) × CacheMap × S
  | s, cache, results, [] => (results, cache, s)
  | s, cache, results, chunk :: more =>
    let rc := runChunk cfg C expO runV2 runV1se now s cache results chunk
    phase2 cfg C expO runV2 runV1se now rc.2.2 rc.2.1 rc.1 more

/-- The final fail-closed sweep: any slot still unfilled is emitted as
`processing_failed` with `is_real = False`. -/
def finalizeResults (cfg : DetCfg) (scaled : List Face) :
    ℕ → List (Option Formatted) → List Formatted
  | _, [] => []
  | i, none :: rest =>
    let f := scaled.getD i ⟨none, none, 0⟩
    ⟨i, faceGetBBox f, buildErrorAnti cfg "processing_failed"
      "Anti-spoofing result missing; marked as spoof for safety."
      "Spoof Suspected", f⟩ :: finalizeResults cfg scaled (i + 1) rest
  | i, some r :: rest => r :: finalizeResults cfg scaled (i + 1) rest

/-- Embedding of `detect_faces_batch`: the empty input short-circuits;
otherwise apply the scale-separation guard, run the validation phase,
chunk the pending entries, run the batched inference phase, and emit one
result per input with the fail-closed sweep. -/
def detectFacesBatch {S : Type} (cfg : DetCfg) (C : Collab S) (expO : ℚ → ℚ)
    (runV2 runV1se : List CropG → Except String (List (ℚ × ℚ × ℚ)))
    (hashO : CropG → CropG → ℤ → String) (now : ℚ)
    (s : S) (cache : CacheMap) (img : ImgDims) (faces : List Face) :
    List Formatted × CacheMap × S :=
  if faces.isEmpty then ([], cache, s)
  else
    let scaledPair := ensureScaleSeparation img faces
    let ph1 := phase1 cfg hashO now scaledPair.1 0 cache scaledPair.2
    let results0 := ph1.1.map (fun o =>
      match o with
      | .fin r => some r
      | .pend _ => none)
    let pending := ph1.1.filterMap pendOf
    let chunks := chunkList cfg.max_batch_size pending
    let ph2 := phase2 cfg C expO runV2 runV1se now s ph1.2 results0 chunks
    (finalizeResults cfg scaledPair.2 0 ph2.1, ph2.2.1, ph2.2.2)

/-- A concrete collaborator for the ensemble witnesses: the analyzer
reports a confident SPOOF and the threshold manager returns the base
threshold. -/
def witCollab : Collab Unit :=
  { extractTexture := fun _ _ => 0
    updateHistory := fun _ _ _ _ _ => .ok ()
    analyze := fun _ _ _ _ => .ok ("SPOOF", 95/100, "static pattern")
    getStability := fun _ _ => .ok none
    adapt := fun _ _ _ _ _ _ => .ok ⟨13/20, 0, "base"⟩ }

/-- A concrete configuration with all subsystems enabled and normalised
0.6/0.4 weights. -/
def witCfg : DetCfg :=
  { threshold := 13/20, v2_weight := 3/5, v1se_weight := 2/5
    max_batch_size := 8, cache_duration := 0
    cache_confidence_floor := 98/100
    enable_temporal_analysis := true, enable_adaptive_threshold := true }

/-- A concrete borderline model score: real 0.1, fake 0.9. -/
def witScore : ModelScore := ⟨1/10, 9/10, 9/10⟩

/-- Index carried by an outcome. -/
def outcomeIdx : FaceOutcome → ℕ
  | .fin r => r.face_id
  | .pend p => p.index

/-- Face carried by an outcome. -/
def outcomeFace : FaceOutcome → Face
  | .fin r => r.face
  | .pend p => p.face

/-- The fail-closed/no-temporal shape every emitted verdict satisfies:
either a decided status (`real`/`fake`) or a fail-closed rejection
(`is_real = false` with one of the four error statuses); never any
temporal or quality field; never the temporal-override tag. -/
def AntiOK (r : AntiRec) : Prop :=
  (r.status = "real" ∨ r.status = "fake" ∨
    (r.is_real = false ∧
      (r.status = "invalid_bbox" ∨ r.status = "too_small" ∨
       r.status = "processing_failed" ∨ r.status = "error"))) ∧
  r.temporal_verdict = none ∧ r.temporal_confidence = none ∧
  r.quality_score = none ∧
  r.ensemble_method ≠ some "rank1_temporal_override"

/-- The shape of every ensemble result produced on the batch path
(`track_id = None`): a decided or error status, and one of the two
non-override method tags. -/
def EnsOK (r : AntiRec) : Prop :=
  (r.status = "real" ∨ r.status = "fake" ∨
    (r.status = "error" ∧ r.is_real = false)) ∧
  (r.ensemble_method = some "rank1_error" ∨
   r.ensemble_method = some "rank1_adaptive_temporal")

/-- Well-formedness of the verdict cache: every entry was stored by the
emission loop, so its status is decided (`real`/`fake`), it carries no
temporal/quality fields, and it is not an override result. -/
def CacheWF (m : CacheMap) : Prop :=
  ∀ p ∈ m,
    (p.2.antispoofing.status = "real" ∨ p.2.antispoofing.status = "fake") ∧
    p.2.antispoofing.temporal_verdict = none ∧
    p.2.antispoofing.temporal_confidence = none ∧
    p.2.antispoofing.quality_score = none ∧
    p.2.antispoofing.ensemble_method ≠ some "rank1_temporal_override"

/-- The number of results a chunk's dual-model batch call yields (the
`zip` of the two model result lists), which does not depend on the
analyzer state. -/
def batchResultCount (expO : ℚ → ℚ)
    (runV2 runV1se : List CropG → Except String (List (ℚ × ℚ × ℚ)))
    (cropsV2 cropsV1se : List CropG) : ℕ :=
  if cropsV2.isEmpty ∨ cropsV1se.isEmpty then 0
  else min (predictSingleModelBatch expO runV2 cropsV2).length
    (predictSingleModelBatch expO runV1se cropsV1se).length

/-- The non-empty branch of `detect_faces_batch`, over an already-scaled
face list: validation phase, chunked batched inference, fail-closed
sweep. -/
def detectAfterScale {S : Type} (cfg : DetCfg) (C : Collab S) (expO : ℚ → ℚ)
    (runV2 runV1se : List CropG → Except String (List (ℚ × ℚ × ℚ)))
    (hashO : CropG → CropG → ℤ → String) (now : ℚ) (s : S)
    (cache : CacheMap) (simg : ImgDims) (scaled : List Face) :
    List Formatted × CacheMap × S :=
  let ph1 := phase1 cfg hashO now simg 0 cache scaled
  let results0 := ph1.1.map (fun o =>
    match o with
    | .fin r => some r
    | .pend _ => none)
  let pending := ph1.1.filterMap pendOf
  let chunks := chunkList cfg.max_batch_size pending
  let ph2 := phase2 cfg C expO runV2 runV1se now s ph1.2 results0 chunks
  (finalizeResults cfg scaled 0 ph2.1, ph2.2.1, ph2.2.2)

/-- The pending queue a `detect_faces_batch` call hands to the chunked
inference phase (entries that survived validation and missed the
cache). -/
def detectPending (cfg : DetCfg) (hashO : CropG → CropG → ℤ → String)
    (now : ℚ) (cache : CacheMap) (img : ImgDims) (faces : List Face) :
    List PendEntry :=
  (phase1 cfg hashO now (ensureScaleSeparation img faces).1 0 cache
    (ensureScaleSeparation img faces).2).1.filterMap pendOf

/-- A constant exp-oracle for concrete witnesses. -/
def witExp : ℚ → ℚ := fun _ => 1

/-- A model session oracle returning one logit row per crop. -/
def witRun : List CropG → Except String (List (ℚ × ℚ × ℚ)) :=
  fun crops => .ok (crops.map (fun _ => (1, 2, 3)))

/-- A constant hashing oracle. -/
def witHash : CropG → CropG → ℤ → String := fun _ _ _ => "k"

/-- A concrete 200×200 detection at (100, 100) with a dict bbox. -/
def witFaceB : Face :=
  ⟨some (.bdict [("x", 100), ("y", 100), ("width", 200), ("height", 200)]),
    none, 0⟩

/-- A collaborator agreeing with `witCollab` on the threshold manager
but failing everywhere else. -/
def witCollabB : Collab Unit :=
  { extractTexture := fun _ _ => 7
    updateHistory := fun _ _ _ _ _ => .error "down"
    analyze := fun _ _ _ _ => .error "down"
    getStability := fun _ _ => .error "down"
    adapt := fun _ _ _ _ _ _ => .ok ⟨13/20, 0, "base"⟩ }

/-- A Python runtime value for the aliasing analysis: immutable scalars,
`None`, or a reference to a heap-allocated mutable object. -/
inductive HVal where
  | num (q : ℚ)
  | str (s : String)
  | nil
  | bool (b : Bool)
  | ref (a : ℕ)
  deriving DecidableEq

/-- A heap object: a dict or a list (the two mutable containers the
result-formatting layer handles). -/
inductive HObj where
  | dict (es : List (String × HVal))
  | arr (xs : List HVal)
  deriving DecidableEq

/-- A heap: an association list from addresses to objects plus the next
fresh address. -/
structure Heap where
  objs : List (ℕ × HObj)
  next : ℕ
  deriving DecidableEq

/-- First-match address lookup. -/
def hFind : List (ℕ × HObj) → ℕ → Option HObj
  | [], _ => none
  | (b, o) :: rest, a => if b = a then some o else hFind rest a

/-- Dereference an address. -/
def hGet (h : Heap) (a : ℕ) : Option HObj := hFind h.objs a

/-- Allocate a fresh object; returns the new heap and the address. -/
def hAlloc (h : Heap) (o : HObj) : Heap × ℕ :=
  (⟨(h.next, o) :: h.objs, h.next + 1⟩, h.next)

/-- Replace the first binding of an address. -/
def hPut : List (ℕ × HObj) → ℕ → HObj → List (ℕ × HObj)
  | [], _, _ => []
  | (b, o) :: rest, a, o' =>
    if b = a then (b, o') :: rest else (b, o) :: hPut rest a o'

/-- In-place mutation of the object at an address. -/
def hSet (h : Heap) (a : ℕ) (o : HObj) : Heap := ⟨hPut h.objs a o, h.next⟩

/-- First-match key lookup in dict entries. -/
def eLookup : List (String × HVal) → String → Option HVal
  | [], _ => none
  | (k, v) :: rest, key => if k = key then some v else eLookup rest key

/-- Read `h[a][key]` when `a` holds a dict. -/
def hReadKey (h : Heap) (a : ℕ) (key : String) : Option HVal :=
  match hGet h a with
  | some (.dict es) => eLookup es key
  | _ => none

/-- The addresses directly referenced by an object's values. -/
def objRefs : HObj → List ℕ
  | .dict es => es.filterMap (fun kv =>
      match kv.2 with
      | HVal.ref a => some a
      | _ => none)
  | .arr xs => xs.filterMap (fun v =>
      match v with
      | HVal.ref a => some a
      | _ => none)

/-- Copy each value of a dict's entry list with a given value-copier,
threading the heap. -/
def copyEntriesWith (f : Heap → HVal → Option (Heap × HVal)) :
    Heap → List (String × HVal) → Option (Heap × List (String × HVal))
  | h, [] => some (h, [])
  | h, (k, v) :: rest =>
    match f h v with
    | none => none
    | some (h', v') =>
      match copyEntriesWith f h' rest with
      | none => none
      | some (h'', rest') => some (h'', (k, v') :: rest')

/-- Copy each item of a list with a given value-copier, threading the
heap. -/
def copyItemsWith (f : Heap → HVal → Option (Heap × HVal)) :
    Heap → List HVal → Option (Heap × List HVal)
  | h, [] => some (h, [])
  | h, v :: rest =>
    match f h v with
    | none => none
    | some (h', v') =>
      match copyItemsWith f h' rest with
      | none => none
      | some (h'', rest') => some (h'', v' :: rest')

/-- `copy.deepcopy` of a value, with fuel bounding the copied depth
(the memoisation of substructure shared within a single call is not
modelled; it affects only sharing inside one result, not sharing
between results). -/
def deepCopyV : ℕ → Heap → HVal → Option (Heap × HVal)
  | _, h, .num q => some (h, .num q)
  | _, h, .str s => some (h, .str s)
  | _, h, .nil => some (h, .nil)
  | _, h, .bool b => some (h, .bool b)
  | 0, _, .ref _ => none
  | fuel + 1, h, .ref a =>
    match hGet h a with
    | none => none
    | some (.dict es) =>
      match copyEntriesWith (fun h2 v2 => deepCopyV fuel h2 v2) h es with
      | none => none
      | some (h', es') =>
        let al := hAlloc h' (.dict es')
        some (al.1, .ref al.2)
    | some (.arr xs) =>
      match copyItemsWith (fun h2 v2 => deepCopyV fuel h2 v2) h xs with
      | none => none
      | some (h', xs') =>
        let al := hAlloc h' (.arr xs')
        some (al.1, .ref al.2)
termination_by structural fuel _ _ => fuel

/-- Deep-copy each value of a dict's entries. -/
def deepCopyEntries (fuel : ℕ) (h : Heap) (es : List (String × HVal)) :
    Option (Heap × List (String × HVal)) :=
  copyEntriesWith (fun h2 v2 => deepCopyV fuel h2 v2) h es

/-- Deep-copy each item of a list. -/
def deepCopyItems (fuel : ℕ) (h : Heap) (xs : List HVal) :
    Option (Heap × List HVal) :=
  copyItemsWith (fun h2 v2 => deepCopyV fuel h2 v2) h xs

/-- `_clone_bbox`: `None` passes through; a dict or list gets a fresh
top-level object with the same (uncopied) values; anything else is
returned as is. -/
def cloneBBox (h : Heap) (bbox : Option HVal) : Heap × Option HVal :=
  match bbox with
  | none => (h, none)
  | some v =>
    match v with
    | .ref a =>
      match hGet h a with
      | some (.dict es) =>
        let al := hAlloc h (.dict es)
        (al.1, some (.ref al.2))
      | some (.arr xs) =>
        let al := hAlloc h (.arr xs)
        (al.1, some (.ref al.2))
      | none => (h, some v)
    | _ => (h, some v)

/-- The metadata loop of `_format_result`: for each `(key, value)` of the
face dict, if the key is not yet in the result, append a deep copy of the
value. -/
def addMeta (fuel : ℕ) : Heap → List (String × HVal) →
    List (String × HVal) → Option (Heap × List (String × HVal))
  | h, acc, [] => some (h, acc)
  | h, acc, (k, v) :: rest =>
    if (acc.map Prod.fst).contains k then addMeta fuel h acc rest
    else
      match deepCopyV fuel h v with
      | none => none
      | some (h', v') => addMeta fuel h' (acc ++ [(k, v')]) rest

/-- `_format_result` over the heap: build the result dict with
`face_id`, the top-level bbox clone, a deep copy of the antispoofing
dict, and deep copies of the remaining face entries; returns the new
heap and the result dict's address. -/
def formatResultH (fuel : ℕ) (h : Heap) (i : ℕ)
    (faceEs : List (String × HVal)) (bbox : Option HVal)
    (antiEs : List (String × HVal)) : Option (Heap × ℕ) :=
  let cb := cloneBBox h bbox
  match deepCopyEntries fuel cb.1 antiEs with
  | none => none
  | some (h1, antiEs') =>
    let alAnti := hAlloc h1 (.dict antiEs')
    match addMeta fuel alAnti.1
        [("face_id", HVal.num (i : ℚ)), ("bbox", cb.2.getD HVal.nil),
         ("antispoofing", HVal.ref alAnti.2)] faceEs with
    | none => none
    | some (h3, es) =>
      let alr := hAlloc h3 (.dict es)
      some (alr.1, alr.2)

/-- One batch input to the result-formatting layer: the face index, the
face dict's entries, its bbox, and the antispoofing dict's entries (all
emission paths of `detect_faces_batch` — batch chunks, cache hits and
error results — construct their output through `_format_result`). -/
structure FmtIn where
  idx : ℕ
  faceEs : List (String × HVal)
  bbox : Option HVal
  antiEs : List (String × HVal)
  deriving DecidableEq

/-- Format a batch of inputs sequentially, collecting the result
addresses. -/
def formatBatchH (fuel : ℕ) : Heap → List FmtIn → Option (Heap × List ℕ)
  | h, [] => some (h, [])
  | h, inp :: rest =>
    match formatResultH fuel h inp.idx inp.faceEs inp.bbox inp.antiEs with
    | none => none
    | some (h1, r) =>
      match formatBatchH fuel h1 rest with
      | none => none
      | some (h', rs) => some (h', r :: rs)

/-- Heap reachability: the addresses of the mutable objects reachable
from (and including) a given address. -/
inductive Reach (h : Heap) (a : ℕ) : ℕ → Prop where
  | refl : Reach h a a
  | step (b c : ℕ) (o : HObj) : Reach h a b → hGet h b = some o →
      c ∈ objRefs o → Reach h a c

/-- A bounded heap: every allocated address and every address referenced
by an allocated object lies below `next`. -/
def HeapBounded (h : Heap) : Prop :=
  ∀ p ∈ h.objs, p.1 < h.next ∧ ∀ c ∈ objRefs p.2, c < h.next

/-- A flat bbox: absent, a scalar, or a live dict/list containing no
references to further mutable objects. -/
def flatBBoxB (h : Heap) : Option HVal → Bool
  | none => true
  | some v =>
    match v with
    | .ref a =>
      match hGet h a with
      | some o => objRefs o = ([] : List ℕ)
      | none => false
    | _ => true

/-- Heap extension by a copying operation: the frontier only advances,
boundedness is preserved, and every pre-existing address still
dereferences to the same object. -/
def CopyExtends (h h' : Heap) : Prop :=
  h.next ≤ h'.next ∧ HeapBounded h' ∧
  ∀ b, b < h.next → hGet h' b = hGet h b

/-- A freshly produced value: if it is a reference, everything reachable
from it (itself included) was allocated at or after the old frontier. -/
def FreshReach (h h' : Heap) (v : HVal) : Prop :=
  ∀ a, v = HVal.ref a →
    h.next ≤ a ∧ ∀ c, Reach h' a c → h.next ≤ c ∧ c < h'.next

/-- The specification of a deep copy at a given fuel: the heap extends
and the produced value is entirely fresh. -/
def VSpec (fuel : ℕ) : Prop :=
  ∀ h v h' v', deepCopyV fuel h v = some (h', v') → HeapBounded h →
    CopyExtends h h' ∧ FreshReach h h' v'

/-- Results laid out in consecutive fresh segments of the heap: each
result's reachable set fits in its own address window. -/
def SegsOK (h' : Heap) : ℕ → ℕ → List ℕ → Prop
  | lo, hi, [] => lo ≤ hi
  | lo, hi, r :: rest =>
    ∃ mid, lo ≤ mid ∧
      (∀ c, Reach h' r c → lo ≤ c ∧ c < mid) ∧ SegsOK h' mid hi rest

/-- A starting heap for the amended-claim witness: a shared landmarks
list and one flat bbox dict used by all three detections. -/
def c10wHeap : Heap :=
  ⟨[(0, HObj.arr [HVal.num 1, HVal.num 2]),
    (1, HObj.dict [("x", HVal.num 100), ("y", HVal.num 100),
                   ("width", HVal.num 200), ("height", HVal.num 200)])], 2⟩

/-- Shared face metadata: the bbox, a shared mutable landmarks list and
a scalar. -/
def c10wFaceEs : List (String × HVal) :=
  [("bbox", HVal.ref 1), ("landmarks", HVal.ref 0), ("name", HVal.str "f")]

/-- A small antispoofing payload. -/
def c10wAntiEs : List (String × HVal) :=
  [("status", HVal.str "real"), ("is_real", HVal.bool true)]

/-- Three detections sharing structurally identical (indeed physically
shared) metadata and the same flat bbox object. -/
def c10wInputs : List FmtIn :=
  [⟨0, c10wFaceEs, some (HVal.ref 1), c10wAntiEs⟩,
   ⟨1, c10wFaceEs, some (HVal.ref 1), c10wAntiEs⟩,
   ⟨2, c10wFaceEs, some (HVal.ref 1), c10wAntiEs⟩]

/-- The heap and result addresses of formatting that batch. -/
def c10wOut : Heap × List ℕ :=
  (formatBatchH 8 c10wHeap c10wInputs).getD (⟨[], 0⟩, [])

/-- A heap with two bbox dicts sharing one nested corners list. -/
def cxHeap : Heap :=
  ⟨[(0, HObj.arr [HVal.num 5, HVal.num 6]),
    (1, HObj.dict [("x", HVal.num 1), ("corners", HVal.ref 0)]),
    (2, HObj.dict [("x", HVal.num 2), ("corners", HVal.ref 0)])], 3⟩

/-- Two detections whose bbox dicts share the nested corners list. -/
def cxInputs : List FmtIn :=
  [⟨0, [], some (HVal.ref 1), []⟩, ⟨1, [], some (HVal.ref 2), []⟩]

/-- The heap and result addresses of formatting that batch. -/
def cxOut : Heap × List ℕ :=
  (formatBatchH 8 cxHeap cxInputs).getD (⟨[], 0⟩, [])

/-- Helper: `dGet` values on the scenario bbox entries. -/
theorem scenario_dGet :
    dGet scenarioBBoxEntries "x" = 100 ∧ dGet scenarioBBoxEntries "y" = 100 ∧
    dGet scenarioBBoxEntries "width" = 200 ∧ dGet scenarioBBoxEntries "height" = 200 := by
  refine ⟨?_, ?_, ?_, ?_⟩ <;> simp [dGet, scenarioBBoxEntries]

/-- Helper: concrete evaluation of the crop extractor on the scenario at
scale 2.7. -/
theorem scenario_crop_27 :
    extractFaceCrop scenarioImg scenarioBBox (27/10) 0 0 =
      some ⟨541, 541, 70, 70, 0, 0⟩ := by
  rw [extractFaceCrop, scenarioBBox, bboxParse, scenario_dGet.1, scenario_dGet.2.1,
    scenario_dGet.2.2.1, scenario_dGet.2.2.2]
  norm_num [pyInt, scenarioImg]
  decide

/-- Helper: concrete evaluation of the crop extractor on the scenario at
scale 4.0. -/
theorem scenario_crop_40 :
    extractFaceCrop scenarioImg scenarioBBox 4 0 0 =
      some ⟨801, 801, 200, 200, 0, 121⟩ := by
  rw [extractFaceCrop, scenarioBBox, bboxParse, scenario_dGet.1, scenario_dGet.2.1,
    scenario_dGet.2.2.1, scenario_dGet.2.2.2]
  norm_num [pyInt, scenarioImg]
  decide

/-- C6 (counterexample): on the spec's own scenario the crop extractor
returns a 541×541 crop at scale 2.7 and an 801×801 crop at scale 4.0, not
the 540×540 / 800×800 the claim states: the slice `[lty:rby+1]` includes
both endpoints, so an even scaled width `new_width` yields
`new_width + 1` pixels. -/
theorem c6_counterexample :
    ((extractFaceCrop scenarioImg scenarioBBox (27/10) 0 0).map
      (fun c => (c.h, c.w)) ≠ some (540, 540)) ∧
    ((extractFaceCrop scenarioImg scenarioBBox 4 0 0).map
      (fun c => (c.h, c.w)) ≠ some (800, 800)) := by
  rw [scenario_crop_27, scenario_crop_40]
  decide

/-- C6 (amended): for the 640×480 image and bbox
`{x:100, y:100, width:200, height:200}`, scale 2.7 returns a non-null
541×541 crop (the inclusive slice adds one pixel to the scaled size 540),
reflection-padded by exactly the overflow amount on each side
(70 left, 70 top, none right or bottom), and scale 4.0 returns a non-null
801×801 crop padded by 200 left, 200 top, 0 right and 121 bottom —
each pad equal to exactly the rectangle's overflow past the image. -/
theorem c6_amended :
    extractFaceCrop scenarioImg scenarioBBox (27/10) 0 0 =
      some ⟨541, 541, 70, 70, 0, 0⟩ ∧
    extractFaceCrop scenarioImg scenarioBBox 4 0 0 =
      some ⟨801, 801, 200, 200, 0, 121⟩ :=
  ⟨scenario_crop_27, scenario_crop_40⟩

/-- `dGet` of the key just written by `dSet`. -/
theorem dGet_dSet_same (es : List (String × ℚ)) (k : String) (v : ℚ) :
    dGet (dSet es k v) k = v := by
  induction es with
  | nil => simp [dGet, dSet]
  | cons p es ih =>
    obtain ⟨k0, v0⟩ := p
    by_cases hk : k0 = k
    · simp [dGet, dSet, hk]
    · simp [dGet, dSet, hk, ih]

/-- `dGet` of a key other than the one written by `dSet`. -/
theorem dGet_dSet_other (es : List (String × ℚ)) (k k' : String) (v : ℚ)
    (hne : k' ≠ k) :
    dGet (dSet es k' v) k = dGet es k := by
  induction es with
  | nil => simp [dGet, dSet, hne]
  | cons p es ih =>
    obtain ⟨k0, v0⟩ := p
    by_cases hk : k0 = k'
    · subst hk
      simp [dGet, dSet, hne]
    · simp [dGet, dSet, hk, ih]

/-- Rescaling a face with a parseable bbox multiplies all four parsed
coordinates by the factor. -/
theorem bboxParse_scaleFace (sf : ℚ) (f : Face) (x y w h : ℚ)
    (hp : bboxParse (ssBBoxOf f) = some (x, y, w, h)) :
    bboxParse (ssBBoxOf (scaleFace sf f)) = some (x * sf, y * sf, w * sf, h * sf) := by
  cases hb : ssBBoxOf f with
  | bdict es =>
    rw [hb] at hp
    simp only [bboxParse, Option.some_inj, Prod.mk.injEq] at hp
    obtain ⟨hx, hy, hw, hh⟩ := hp
    have hsf : scaleFace sf f = { f with bbox := some (.bdict
        (dSet (dSet (dSet (dSet es "x" (dGet es "x" * sf))
          "y" (dGet es "y" * sf))
          "width" (dGet es "width" * sf))
          "height" (dGet es "height" * sf))) } := by
      unfold scaleFace
      rw [hb]
    rw [hsf]
    simp only [ssBBoxOf, bboxParse, Option.some_inj, Prod.mk.injEq]
    refine ⟨?_, ?_, ?_, ?_⟩ <;>
      simp [dGet_dSet_same, dGet_dSet_other, hx, hy, hw, hh]
  | blist xs =>
    rw [hb] at hp
    match xs with
    | x0 :: y0 :: w0 :: h0 :: rest =>
      simp only [bboxParse, Option.some_inj, Prod.mk.injEq] at hp
      obtain ⟨hx, hy, hw, hh⟩ := hp
      have hsf : scaleFace sf f =
          { f with bbox := some (.blist [x0 * sf, y0 * sf, w0 * sf, h0 * sf]) } := by
        unfold scaleFace
        rw [hb]
      rw [hsf]
      simp [ssBBoxOf, bboxParse, hx, hy, hw, hh]
    | [] => simp [bboxParse] at hp
    | [_] => simp [bboxParse] at hp
    | [_, _] => simp [bboxParse] at hp
    | [_, _, _] => simp [bboxParse] at hp
  | other =>
    rw [hb] at hp
    simp [bboxParse] at hp

/-- C9: scale-separation guard.  With a positive shorter image side
`minDim`: (1) when no face dimension exceeds 20% of `minDim` the input is
returned unchanged; (2) when the largest face dimension `maxDim` exceeds
20% of `minDim`, the computed factor `sf` brings it to exactly 20%
(`maxDim * sf = minDim / 5`); if the downscaled image would fall below
240×180 the input is returned unchanged, and otherwise the image is
downscaled to `(int(w*sf), int(h*sf))` with every detection's bbox
rescaled by the same `sf` (the final conjunct: a parseable bbox's four
coordinates are each multiplied by `sf`). -/
theorem c9_scale_separation_guard (img : ImgDims) (faces : List Face)
    (hmin : 0 < min (img.h : ℚ) (img.w : ℚ)) :
    (maxFaceDim faces ≤ min (img.h : ℚ) (img.w : ℚ) / 5 →
      ensureScaleSeparation img faces = (img, faces)) ∧
    (min (img.h : ℚ) (img.w : ℚ) / 5 < maxFaceDim faces →
      (maxFaceDim faces * ssScaleFactor img faces = min (img.h : ℚ) (img.w : ℚ) / 5) ∧
      ((pyInt ((img.w : ℚ) * ssScaleFactor img faces) < 240 ∨
          pyInt ((img.h : ℚ) * ssScaleFactor img faces) < 180) →
        ensureScaleSeparation img faces = (img, faces)) ∧
      (240 ≤ pyInt ((img.w : ℚ) * ssScaleFactor img faces) →
        180 ≤ pyInt ((img.h : ℚ) * ssScaleFactor img faces) →
        ensureScaleSeparation img faces =
          (⟨(pyInt ((img.h : ℚ) * ssScaleFactor img faces)).toNat,
            (pyInt ((img.w : ℚ) * ssScaleFactor img faces)).toNat⟩,
           faces.map (scaleFace (ssScaleFactor img faces))))) ∧
    (∀ (sf : ℚ) (f : Face) (x y w h : ℚ),
      bboxParse (ssBBoxOf f) = some (x, y, w, h) →
      bboxParse (ssBBoxOf (scaleFace sf f)) =
        some (x * sf, y * sf, w * sf, h * sf)) := by
  have hmd : min (img.h : ℚ) (img.w : ℚ) ≠ 0 := ne_of_gt hmin
  have hunfold : ensureScaleSeparation img faces =
      (if maxFaceDim faces = 0 then (img, faces)
       else if 1/5 < maxFaceDim faces / min (img.h : ℚ) (img.w : ℚ) then
         (if pyInt ((img.w : ℚ) * ssScaleFactor img faces) < 240 ∨
             pyInt ((img.h : ℚ) * ssScaleFactor img faces) < 180 then (img, faces)
          else (⟨(pyInt ((img.h : ℚ) * ssScaleFactor img faces)).toNat,
                (pyInt ((img.w : ℚ) * ssScaleFactor img faces)).toNat⟩,
                faces.map (scaleFace (ssScaleFactor img faces))))
       else (img, faces)) := rfl
  refine ⟨?_, ?_, fun sf f x y w h hp => bboxParse_scaleFace sf f x y w h hp⟩
  · intro hle
    by_cases h0 : maxFaceDim faces = 0
    · rw [hunfold, if_pos h0]
    · have hfrac : ¬ (1/5 : ℚ) < maxFaceDim faces / min (img.h : ℚ) (img.w : ℚ) := by
        rw [not_lt, div_le_iff₀ hmin]
        calc maxFaceDim faces ≤ min (img.h : ℚ) (img.w : ℚ) / 5 := hle
        _ = 1/5 * min (img.h : ℚ) (img.w : ℚ) := by ring
      rw [hunfold, if_neg h0, if_neg hfrac]
  · intro hgt
    have hpos : 0 < maxFaceDim faces :=
      lt_trans (by positivity) hgt
    have h0 : maxFaceDim faces ≠ 0 := ne_of_gt hpos
    have hfrac : (1/5 : ℚ) < maxFaceDim faces / min (img.h : ℚ) (img.w : ℚ) := by
      rw [lt_div_iff₀ hmin]
      calc (1/5 : ℚ) * min (img.h : ℚ) (img.w : ℚ)
          = min (img.h : ℚ) (img.w : ℚ) / 5 := by ring
      _ < maxFaceDim faces := hgt
    refine ⟨?_, ?_, ?_⟩
    · unfold ssScaleFactor
      field_simp
      ring
    · intro hsmall
      rw [hunfold, if_neg h0, if_pos hfrac, if_pos hsmall]
    · intro hw180 hh180
      have hnot : ¬ (pyInt ((img.w : ℚ) * ssScaleFactor img faces) < 240 ∨
          pyInt ((img.h : ℚ) * ssScaleFactor img faces) < 180) := by
        push_neg
        exact ⟨hw180, hh180⟩
      rw [hunfold, if_neg h0, if_pos hfrac, if_neg hnot]

/-- C7: preprocessing parity.  For a non-empty face crop, with `resize`
returning the requested `input_size` (as `cv2.resize` does), preprocessing
succeeds and yields a `(1, 3, input_size[1], input_size[0])` tensor whose
entries are exactly the resized image's pixel values with channels
reversed from BGR to RGB and no `[0,1]` normalisation: every tensor value
equals the raw resized pixel value in `[0, 255]`. -/
theorem c7_preprocessing_parity (resize : Img → ℕ → ℕ → Img)
    (inputSize : ℕ × ℕ) (img : Img)
    (hne : ¬ (img.h = 0 ∨ img.w = 0))
    (hh : (resize img inputSize.1 inputSize.2).h = inputSize.2)
    (hw : (resize img inputSize.1 inputSize.2).w = inputSize.1) :
    ∃ t, preprocessSingleFace resize inputSize img = .ok t ∧
      t.n = 1 ∧ t.c = 3 ∧ t.th = inputSize.2 ∧ t.tw = inputSize.1 ∧
      ∀ c i j, c < 3 →
        t.val 0 c i j = (resize img inputSize.1 inputSize.2).pix i j (2 - c) := by
  have hmain : preprocessSingleFace resize inputSize img =
      .ok (preprocTensor resize inputSize img) := by
    unfold preprocessSingleFace
    rw [if_neg hne]
    exact if_pos ⟨rfl, rfl, hh, hw⟩
  exact ⟨preprocTensor resize inputSize img, hmain, rfl, rfl, hh, hw,
    fun c i j hc => by simp [preprocTensor, hc]⟩

/-- C7 witness: preprocessing the concrete 1×1 image at the default
80×80 input size yields an 80×80 tensor passing through the resized
pixel value 7 unchanged. -/
theorem c7_preprocessing_parity_witness :
    ∃ t, preprocessSingleFace witResize (80, 80) witImg = .ok t ∧
      t.th = 80 ∧ t.tw = 80 ∧ t.val 0 0 5 5 = 7 := by
  obtain ⟨t, hok, hn, hc, hth, htw, hv⟩ :=
    c7_preprocessing_parity witResize (80, 80) witImg
      (by simp [witImg]) rfl rfl
  exact ⟨t, hok, hth, htw, (hv 0 5 5 (by norm_num)).trans rfl⟩

/-- C9 witness: a 640×480 image with a 200×200 face (200 > 20% of 480)
is downscaled: the factor 12/25 brings the face dimension to exactly
96 = 480/5, the image becomes 307×230 (above the 240×180 floor), and the
face's bbox is rescaled by 12/25. -/
theorem c9_scale_separation_guard_witness :
    ensureScaleSeparation ⟨480, 640⟩ witFaces =
      (⟨230, 307⟩, witFaces.map (scaleFace (ssScaleFactor ⟨480, 640⟩ witFaces))) ∧
    maxFaceDim witFaces * ssScaleFactor ⟨480, 640⟩ witFaces = 96 := by
  have hmax : maxFaceDim witFaces = 200 := by
    simp [maxFaceDim, witFaces, ssBBoxOf, ssFaceDim, dGet]
  have hmin : (0:ℚ) < min ((480:ℕ) : ℚ) ((640:ℕ) : ℚ) := by norm_num
  have h5 : min (((480:ℕ)) : ℚ) (((640:ℕ)) : ℚ) / 5 < maxFaceDim witFaces := by
    rw [hmax]; norm_num
  have hsf : ssScaleFactor ⟨480, 640⟩ witFaces = 12/25 := by
    unfold ssScaleFactor
    rw [hmax]
    norm_num
  obtain ⟨-, hmain, -⟩ := c9_scale_separation_guard ⟨480, 640⟩ witFaces hmin
  obtain ⟨hexact, -, hres⟩ := hmain h5
  have hwv : pyInt (((640:ℕ) : ℚ) * ssScaleFactor ⟨480, 640⟩ witFaces) = 307 := by
    rw [hsf]; norm_num [pyInt]
  have hhv : pyInt (((480:ℕ) : ℚ) * ssScaleFactor ⟨480, 640⟩ witFaces) = 230 := by
    rw [hsf]; norm_num [pyInt]
  refine ⟨?_, ?_⟩
  · have hre := hres (by rw [hwv]; norm_num) (by rw [hhv]; norm_num)
    rw [hre, hwv, hhv]
    simp
  · rw [hexact]
    norm_num

/-- An exponential oracle (homomorphic and positive, as `np.exp` is over
the reals) makes the max-subtracted softmax agree with the textbook
softmax. -/
theorem stableSoftmax3_eq_plain (expO : ℚ → ℚ)
    (hom : ∀ a b, expO (a + b) = expO a * expO b)
    (hpos : ∀ a, 0 < expO a) (l : ℚ × ℚ × ℚ) :
    stableSoftmax3 expO l = plainSoftmax3 expO l := by
  have hek : ∀ x m : ℚ, expO (x - m) = expO x * expO (-m) := by
    intro x m
    rw [sub_eq_add_neg, hom]
  have hkne : expO (-(max l.1 (max l.2.1 l.2.2))) ≠ 0 := ne_of_gt (hpos _)
  unfold stableSoftmax3 plainSoftmax3
  simp only [hek]
  have hsum :
      expO l.1 * expO (-(max l.1 (max l.2.1 l.2.2))) +
        expO l.2.1 * expO (-(max l.1 (max l.2.1 l.2.2))) +
        expO l.2.2 * expO (-(max l.1 (max l.2.1 l.2.2))) =
      (expO l.1 + expO l.2.1 + expO l.2.2) *
        expO (-(max l.1 (max l.2.1 l.2.2))) := by
    ring
  rw [hsum]
  refine Prod.ext ?_ (Prod.ext ?_ ?_) <;>
    simp [mul_div_mul_right _ _ hkne]

/-- C8: per-model score contract.  (1) On a successful inference whose
first logit row is `l`, the result applies the numerically-stable
(max-subtracted) softmax `p = stableSoftmax3 expO l` and sets
`real_score = p₁` (live class), `fake_score = p₀ + p₂` (2D + 3D spoof),
`confidence = max(real, fake)`, with no error marker; when the
exponential oracle is homomorphic and positive this equals the textbook
softmax.  (2) On any inference failure the neutral
`real = fake = confidence = 0.5` result tagged with the error marker is
returned — and `predictSingleModel` is a total function, so no exception
escapes this boundary.  (3) The batch variant postprocesses every
returned row identically, and on failure returns one neutral result per
input. -/
theorem c8_model_score_contract {α β : Type} (expO : ℚ → ℚ)
    (run1 : α → Except String (List (ℚ × ℚ × ℚ)))
    (runB : List β → Except String (List (ℚ × ℚ × ℚ)))
    (input : α) (inputs : List β) :
    (∀ l rest, run1 input = .ok (l :: rest) →
      predictSingleModel expO run1 input = rowResult expO l ∧
      (rowResult expO l).real_score = (stableSoftmax3 expO l).2.1 ∧
      (rowResult expO l).fake_score =
        (stableSoftmax3 expO l).1 + (stableSoftmax3 expO l).2.2 ∧
      (rowResult expO l).confidence =
        max (rowResult expO l).real_score (rowResult expO l).fake_score ∧
      (rowResult expO l).error = none) ∧
    ((∀ a b, expO (a + b) = expO a * expO b) → (∀ a, 0 < expO a) →
      ∀ l, stableSoftmax3 expO l = plainSoftmax3 expO l) ∧
    (∀ e, run1 input = .error e →
      predictSingleModel expO run1 input = neutralPred e ∧
      (neutralPred e).real_score = 1/2 ∧ (neutralPred e).fake_score = 1/2 ∧
      (neutralPred e).confidence = 1/2 ∧ (neutralPred e).error = some e) ∧
    (∀ rows, runB inputs = .ok rows →
      predictSingleModelBatch expO runB inputs = rows.map (rowResult expO)) ∧
    (∀ e, runB inputs = .error e →
      predictSingleModelBatch expO runB inputs =
        inputs.map (fun _ => neutralPred e)) := by
  refine ⟨?_, ?_, ?_, ?_, ?_⟩
  · intro l rest h
    refine ⟨?_, rfl, rfl, ?_, rfl⟩
    · unfold predictSingleModel
      rw [h]
    · rfl
  · intro hom hpos l
    exact stableSoftmax3_eq_plain expO hom hpos l
  · intro e h
    refine ⟨?_, rfl, rfl, rfl, rfl⟩
    unfold predictSingleModel
    rw [h]
  · intro rows h
    unfold predictSingleModelBatch
    rw [h]
  · intro e h
    unfold predictSingleModelBatch
    rw [h]

/-- C8 witness: concrete evaluation with the constant-1 exponential
(homomorphic and positive) and a session returning logits (1, 2, 3):
softmax is (1/3, 1/3, 1/3), so real = 1/3, fake = 2/3,
confidence = 2/3; a failing session yields the neutral result for each
of two inputs. -/
theorem c8_model_score_contract_witness :
    predictSingleModel (fun _ => 1)
      (fun _ : Unit => .ok [((1:ℚ), (2:ℚ), (3:ℚ))]) () =
      rowResult (fun _ => 1) ((1:ℚ), (2:ℚ), (3:ℚ)) ∧
    (rowResult (fun _ => 1) ((1:ℚ), (2:ℚ), (3:ℚ))).real_score = 1/3 ∧
    (rowResult (fun _ => 1) ((1:ℚ), (2:ℚ), (3:ℚ))).fake_score = 2/3 ∧
    stableSoftmax3 (fun _ => 1) ((1:ℚ), (2:ℚ), (3:ℚ)) =
      plainSoftmax3 (fun _ => 1) ((1:ℚ), (2:ℚ), (3:ℚ)) ∧
    predictSingleModelBatch (fun _ => 1)
      (fun _ : List Unit => .error "boom") [(), ()] =
      [neutralPred "boom", neutralPred "boom"] := by
  obtain ⟨h1, h2, h3, h4, h5⟩ :=
    c8_model_score_contract (fun _ => (1:ℚ))
      (fun _ : Unit => .ok [((1:ℚ), (2:ℚ), (3:ℚ))])
      (fun _ : List Unit => .error "boom") () [(), ()]
  refine ⟨(h1 _ [] rfl).1, ?_, ?_, ?_, ?_⟩
  · have := (h1 _ [] rfl).2.1
    rw [this]
    norm_num [stableSoftmax3]
  · have := (h1 _ [] rfl).2.2.1
    rw [this]
    norm_num [stableSoftmax3]
  · exact h2 (fun a b => by norm_num) (fun a => by norm_num) _
  · exact h5 "boom" rfl

/-- Lookup after insert. -/
theorem cLookup_cInsert (m : CacheMap) (k k' : String) (e : CacheEntry) :
    cLookup (cInsert m k e) k' = if k = k' then some e else cLookup m k' := by
  induction m with
  | nil =>
    by_cases hk : k = k' <;> simp [cInsert, cLookup, hk]
  | cons p rest ih =>
    obtain ⟨k0, e0⟩ := p
    by_cases hk : k0 = k
    · subst hk
      by_cases hk' : k0 = k' <;> simp [cInsert, cLookup, hk']
    · by_cases hk' : k0 = k'
      · subst hk'
        simp [cInsert, cLookup, hk, Ne.symm hk]
      · simp [cInsert, cLookup, hk, hk', ih]

/-- C5: cache safety invariant.  (1) With `cache_duration <= 0` the key is
never computed (`_make_cache_key` returns `None` before hashing) and both
lookup and store are no-ops.  (2) A returned cache entry never has status
`error` or `processing_failed`, and a returned "real" verdict is never
below the confidence floor.  (3) A store leaves every existing entry
untouched and only ever adds an entry satisfying the same exclusions.
(4) An entry strictly older than `cache_duration` seconds is treated as
absent and removed by the lookup. -/
theorem c5_cache_safety (cacheDuration floor now : ℚ) (cache : CacheMap)
    (key : Option String) (r : AntiRec) :
    (cacheDuration ≤ 0 →
      (∀ hashO c1 c2, makeCacheKey cacheDuration hashO c1 c2 now = none) ∧
      getCachedResult cacheDuration floor cache key now = (none, cache) ∧
      storeCacheEntry cacheDuration floor cache key r now = cache) ∧
    (∀ res cache',
      getCachedResult cacheDuration floor cache key now = (some res, cache') →
      res.status ≠ "processing_failed" ∧ res.status ≠ "error" ∧
      (res.is_real = true → floor ≤ res.confidence)) ∧
    (∀ k e, cLookup (storeCacheEntry cacheDuration floor cache key r now) k =
        some e →
      cLookup cache k = some e ∨
      (e.antispoofing.status ≠ "processing_failed" ∧
       e.antispoofing.status ≠ "error" ∧
       (e.antispoofing.is_real = true → floor ≤ e.antispoofing.confidence))) ∧
    (∀ k entry, key = some k → k ≠ "" → 0 < cacheDuration →
      cLookup cache k = some entry →
      cacheDuration < now - entry.timestamp →
      getCachedResult cacheDuration floor cache key now =
        (none, cErase cache k)) := by
  refine ⟨?_, ?_, ?_, ?_⟩
  · intro hd
    refine ⟨fun hashO c1 c2 => by simp [makeCacheKey, hd], ?_, ?_⟩
    · cases key with
      | none => rfl
      | some k => simp [getCachedResult, hd]
    · cases key with
      | none => rfl
      | some k => simp [storeCacheEntry, hd]
  · intro res cache' h
    cases key with
    | none => simp [getCachedResult] at h
    | some k =>
      by_cases hk : k = "" ∨ cacheDuration ≤ 0
      · simp [getCachedResult, hk] at h
      · cases hl : cLookup cache k with
        | none => simp [getCachedResult, hk, hl] at h
        | some entry =>
          by_cases hex : cacheDuration < now - entry.timestamp
          · simp [getCachedResult, hk, hl, hex] at h
          · by_cases hst : entry.antispoofing.status = "processing_failed" ∨
                entry.antispoofing.status = "error"
            · simp [getCachedResult, hk, hl, hex, hst] at h
            · by_cases hfl : entry.antispoofing.is_real = true ∧
                  entry.antispoofing.confidence < floor
              · simp [getCachedResult, hk, hl, hex, hst, hfl] at h
              · simp only [getCachedResult, hk, hl, hex, hst, hfl] at h
                push_neg at hst hfl
                have hres : res = { entry.antispoofing with
                    cached := some true
                    processing_time :=
                      some (entry.antispoofing.processing_time.getD 0)
                    model_type :=
                      some (entry.antispoofing.model_type.getD "dual_minifasnet") } := by
                  simp [hk, hex, hst.1, hst.2, hfl] at h
                  exact h.1.symm
                subst hres
                exact ⟨hst.1, hst.2, fun hr => hfl hr⟩
  · intro k e h
    cases key with
    | none => exact Or.inl h
    | some k0 =>
      by_cases hk : k0 = "" ∨ cacheDuration ≤ 0
      · rw [storeCacheEntry] at h
        simp only [hk, if_true] at h
        exact Or.inl h
      · by_cases hst : (sanitizeForStore r).status = "processing_failed" ∨
            (sanitizeForStore r).status = "error"
        · rw [storeCacheEntry] at h
          simp only [hk, if_false, hst, if_true] at h
          exact Or.inl h
        · by_cases hfl : (sanitizeForStore r).is_real = true ∧
              (sanitizeForStore r).confidence < floor
          · rw [storeCacheEntry] at h
            simp only [hk, if_false, hst, if_true, hfl] at h
            exact Or.inl h
          · rw [storeCacheEntry] at h
            simp only [hk, if_false, hst, hfl, if_true] at h
            rw [cLookup_cInsert] at h
            by_cases hkk : k0 = k
            · rw [if_pos hkk] at h
              push_neg at hst hfl
              refine Or.inr ?_
              have he : e = ⟨now, sanitizeForStore r⟩ := by
                injection h with h'
                exact h'.symm
              subst he
              exact ⟨hst.1, hst.2, fun hr => hfl hr⟩
            · rw [if_neg hkk] at h
              exact Or.inl h
  · intro k entry hkey hne hdur hl hex
    subst hkey
    have hk : ¬ (k = "" ∨ cacheDuration ≤ 0) := by
      push_neg
      exact ⟨hne, hdur⟩
    simp [getCachedResult, hk, hl, hex]

/-- C5 witness: at time 100 with duration 5, the entry stored at time 90
is expired — the lookup returns nothing and evicts it; and with duration
0 the key is not computed and the store is a no-op. -/
theorem c5_cache_safety_witness :
    getCachedResult 5 (98/100) witCache (some "kold") 100 =
      (none, cErase witCache "kold") ∧
    makeCacheKey 0 (fun _ _ _ => "k") ⟨32, 32, 0, 0, 0, 0⟩
      ⟨32, 32, 0, 0, 0, 0⟩ 100 = none ∧
    storeCacheEntry 0 (98/100) witCache (some "kold") witAnti 100 =
      witCache := by
  obtain ⟨-, -, -, hexp⟩ :=
    c5_cache_safety 5 (98/100) 100 witCache (some "kold") witAnti
  obtain ⟨hdis0, -, -, -⟩ :=
    c5_cache_safety 0 (98/100) 100 witCache (some "kold") witAnti
  refine ⟨?_, ?_, ?_⟩
  · exact hexp "kold" ⟨90, witAnti⟩ rfl (by simp) (by norm_num)
      (by simp [witCache, cLookup]) (by norm_num)
  · exact (hdis0 (le_refl 0)).1 _ _ _
  · exact (hdis0 (le_refl 0)).2.2

/-- The non-override half of the ensemble only ever produces the error
result or the threshold-compared normal result (by their
`ensemble_method` tags). -/
theorem ensembleTail_method {S : Type} (cfg : DetCfg) (C : Collab S) (s : S)
    (v2 v1se : ModelScore) (trackId : Option ℤ) (quality : Option ℚ)
    (realS fakeS : ℚ) (tv : String) (tc : ℚ) (blob : Option String) :
    (ensembleTail cfg C s v2 v1se trackId quality realS fakeS
        tv tc blob).1.ensemble_method = some "rank1_error" ∨
    (ensembleTail cfg C s v2 v1se trackId quality realS fakeS
        tv tc blob).1.ensemble_method = some "rank1_adaptive_temporal" := by
  unfold ensembleTail
  split
  · split
    · split
      · left; rfl
      · split
        · left; rfl
        · right; rfl
    · split
      · left; rfl
      · right; rfl
  · right; rfl

/-- C3: temporal override conservatism, over the ensemble decision with
temporal analysis enabled, a tracked face, and both temporal-oracle
calls succeeding with verdict `tv`, confidence `tc`.  Writing
`realS`/`fakeS` for the weighted ensemble scores: (1) the decision takes
the temporal-override early return (tagged `rank1_temporal_override`)
exactly when `tv = "SPOOF" ∧ tc ≥ 0.90 ∧ realS < 0.7 ∧ fakeS > 0.6`;
(2) when it fires, the result is the fixed SPOOF (`is_real = false`)
override — temporal analysis never flips a verdict to REAL; (3) under
any other combination the decision is the plain adaptive-threshold tail,
whose normal result decides solely by `is_real = (adjT < realS)` (4);
(5) in particular a clearly-real ensemble (`realS ≥ 0.7`) is never
overridden. -/
theorem c3_temporal_override_conservatism {S : Type} (cfg : DetCfg)
    (C : Collab S) (s : S) (v2 v1se : ModelScore) (tid : ℤ)
    (quality : Option ℚ) (cropV2 : Option CropG)
    (henable : cfg.enable_temporal_analysis = true)
    (s1 : S) (tv : String) (tc : ℚ) (blob : String)
    (hupd : C.updateHistory s tid (weightedReal cfg v2 v1se)
      (weightedFake cfg v2 v1se) (cropV2.map (C.extractTexture s)) = .ok s1)
    (hana : C.analyze s1 tid (weightedReal cfg v2 v1se)
      (weightedFake cfg v2 v1se) = .ok (tv, tc, blob)) :
    ((ensemblePrediction cfg C s v2 v1se (some tid) quality
        cropV2).1.ensemble_method = some "rank1_temporal_override" ↔
      (tv = "SPOOF" ∧ 9/10 ≤ tc ∧ weightedReal cfg v2 v1se < 7/10 ∧
        6/10 < weightedFake cfg v2 v1se)) ∧
    ((tv = "SPOOF" ∧ 9/10 ≤ tc ∧ weightedReal cfg v2 v1se < 7/10 ∧
        6/10 < weightedFake cfg v2 v1se) →
      ensemblePrediction cfg C s v2 v1se (some tid) quality cropV2 =
        (temporalOverrideResult cfg (weightedReal cfg v2 v1se)
          (weightedFake cfg v2 v1se) v2 v1se tv tc blob, s1) ∧
      (temporalOverrideResult cfg (weightedReal cfg v2 v1se)
        (weightedFake cfg v2 v1se) v2 v1se tv tc blob).is_real = false) ∧
    (¬ (tv = "SPOOF" ∧ 9/10 ≤ tc ∧ weightedReal cfg v2 v1se < 7/10 ∧
        6/10 < weightedFake cfg v2 v1se) →
      ensemblePrediction cfg C s v2 v1se (some tid) quality cropV2 =
        ensembleTail cfg C s1 v2 v1se (some tid) quality
          (weightedReal cfg v2 v1se) (weightedFake cfg v2 v1se)
          tv tc (some blob)) ∧
    (∀ realS fakeS adjT v2a v1a tva tca b ti q,
      (ensembleNormalResult cfg realS fakeS adjT v2a v1a tva tca
        b ti q).is_real = decide (adjT < realS)) ∧
    (7/10 ≤ weightedReal cfg v2 v1se →
      (ensemblePrediction cfg C s v2 v1se (some tid) quality
        cropV2).1.ensemble_method ≠ some "rank1_temporal_override") := by
  have hstep : ensemblePrediction cfg C s v2 v1se (some tid) quality cropV2 =
      (if tv = "SPOOF" ∧ 9/10 ≤ tc ∧ weightedReal cfg v2 v1se < 7/10 ∧
          6/10 < weightedFake cfg v2 v1se then
        (temporalOverrideResult cfg (weightedReal cfg v2 v1se)
          (weightedFake cfg v2 v1se) v2 v1se tv tc blob, s1)
      else
        ensembleTail cfg C s1 v2 v1se (some tid) quality
          (weightedReal cfg v2 v1se) (weightedFake cfg v2 v1se)
          tv tc (some blob)) := by
    simp only [ensemblePrediction, henable, hupd, hana]
  by_cases hcond : tv = "SPOOF" ∧ 9/10 ≤ tc ∧
      weightedReal cfg v2 v1se < 7/10 ∧ 6/10 < weightedFake cfg v2 v1se
  · refine ⟨?_, fun _ => ⟨by rw [hstep, if_pos hcond], rfl⟩,
      fun hn => absurd hcond hn, fun realS fakeS adjT v2a v1a tva tca b ti q => rfl, ?_⟩
    · rw [hstep, if_pos hcond]
      simp [temporalOverrideResult, hcond]
    · intro h7
      exact absurd hcond.2.2.1 (not_lt.mpr h7)
  · have htail := ensembleTail_method cfg C s1 v2 v1se (some tid) quality
      (weightedReal cfg v2 v1se) (weightedFake cfg v2 v1se) tv tc (some blob)
    refine ⟨?_, fun hc => absurd hc hcond, fun _ => by rw [hstep, if_neg hcond],
      fun realS fakeS adjT v2a v1a tva tca b ti q => rfl, ?_⟩
    · rw [hstep, if_neg hcond]
      constructor
      · intro hm
        rcases htail with h | h <;> rw [hm] at h <;> simp at h
      · intro hc
        exact absurd hc hcond
    · intro h7
      rw [hstep, if_neg hcond]
      rcases htail with h | h <;> rw [h] <;> simp

/-- C3 witness: with the confident-SPOOF analyzer and the borderline
ensemble (real 0.1 < 0.7, fake 0.9 > 0.6, confidence 0.95 ≥ 0.90) the
override fires, producing the fixed SPOOF result with
`is_real = false`. -/
theorem c3_temporal_override_conservatism_witness :
    ensemblePrediction witCfg witCollab () witScore witScore
        (some 1) none none =
      (temporalOverrideResult witCfg (weightedReal witCfg witScore witScore)
        (weightedFake witCfg witScore witScore) witScore witScore
        "SPOOF" (95/100) "static pattern", ()) ∧
    (temporalOverrideResult witCfg (weightedReal witCfg witScore witScore)
      (weightedFake witCfg witScore witScore) witScore witScore
      "SPOOF" (95/100) "static pattern").is_real = false := by
  obtain ⟨-, hfire, -, -, -⟩ :=
    c3_temporal_override_conservatism witCfg witCollab () witScore witScore
      1 none none rfl () "SPOOF" (95/100) "static pattern" rfl rfl
  exact hfire ⟨rfl, by norm_num,
    by norm_num [weightedReal, witCfg, witScore],
    by norm_num [weightedFake, witCfg, witScore]⟩

/-- The batch-path ensemble (`track_id = None`) is the plain
adaptive-threshold tail: state unchanged, only the threshold manager
consulted (with verdict `"UNCERTAIN"`, confidence 0.5). -/
theorem ensemblePrediction_none {S : Type} (cfg : DetCfg) (C : Collab S)
    (s : S) (v2 v1se : ModelScore) (quality : Option ℚ)
    (cropV2 : Option CropG) :
    ensemblePrediction cfg C s v2 v1se none quality cropV2 =
      ensembleTail cfg C s v2 v1se none quality
        (weightedReal cfg v2 v1se) (weightedFake cfg v2 v1se)
        "UNCERTAIN" (1/2) none := rfl

/-- The tail never mutates the analyzer state. -/
theorem ensembleTail_state {S : Type} (cfg : DetCfg) (C : Collab S) (s : S)
    (v2 v1se : ModelScore) (trackId : Option ℤ) (quality : Option ℚ)
    (realS fakeS : ℚ) (tv : String) (tc : ℚ) (blob : Option String) :
    (ensembleTail cfg C s v2 v1se trackId quality realS fakeS
      tv tc blob).2 = s := by
  unfold ensembleTail
  split
  · split
    · split
      · rfl
      · split <;> rfl
    · split <;> rfl
  · rfl

/-- The tail's result is `EnsOK`. -/
theorem ensembleTail_EnsOK {S : Type} (cfg : DetCfg) (C : Collab S) (s : S)
    (v2 v1se : ModelScore) (trackId : Option ℤ) (quality : Option ℚ)
    (realS fakeS : ℚ) (tv : String) (tc : ℚ) (blob : Option String) :
    EnsOK (ensembleTail cfg C s v2 v1se trackId quality realS fakeS
      tv tc blob).1 := by
  have herr : ∀ e, EnsOK (ensembleErrorResult cfg e) := by
    intro e
    exact ⟨Or.inr (Or.inr ⟨rfl, rfl⟩), Or.inl rfl⟩
  have hnorm : ∀ rS fS adjT tva tca b ti q,
      EnsOK (ensembleNormalResult cfg rS fS adjT v2 v1se tva tca b ti q) := by
    intro rS fS adjT tva tca b ti q
    refine ⟨?_, Or.inr rfl⟩
    by_cases h : adjT < rS
    · exact Or.inl (by simp [ensembleNormalResult, h])
    · exact Or.inr (Or.inl (by simp [ensembleNormalResult, h]))
  unfold ensembleTail
  split
  · split
    · split
      · exact herr _
      · split
        · exact herr _
        · exact hnorm _ _ _ _ _ _ _ _
    · split
      · exact herr _
      · exact hnorm _ _ _ _ _ _ _ _
  · exact hnorm _ _ _ _ _ _ _ _

/-- The tail only consults the threshold manager: two collaborators with
the same `adapt` produce the same untracked tail. -/
theorem ensembleTail_none_congr {S : Type} (cfg : DetCfg) (C C' : Collab S)
    (s : S) (v2 v1se : ModelScore) (quality : Option ℚ)
    (realS fakeS : ℚ) (tv : String) (tc : ℚ) (blob : Option String)
    (hadapt : C.adapt = C'.adapt) :
    ensembleTail cfg C s v2 v1se none quality realS fakeS tv tc blob =
      ensembleTail cfg C' s v2 v1se none quality realS fakeS tv tc blob := by
  unfold ensembleTail
  rw [hadapt]

/-- The batch ensemble loop: state unchanged, one `EnsOK` result per
pair, and dependence on the collaborator only through `adapt`. -/
theorem zipEnsemble_spec {S : Type} (cfg : DetCfg) (C C' : Collab S)
    (hadapt : C.adapt = C'.adapt) :
    ∀ (l : List (PredOut × PredOut)) (s : S),
      (zipEnsemble cfg C s l).2 = s ∧
      (zipEnsemble cfg C s l).1.length = l.length ∧
      (∀ a ∈ (zipEnsemble cfg C s l).1, EnsOK a) ∧
      zipEnsemble cfg C s l = zipEnsemble cfg C' s l := by
  intro l
  induction l with
  | nil => intro s; exact ⟨rfl, rfl, by simp [zipEnsemble], rfl⟩
  | cons pq rest ih =>
    intro s
    obtain ⟨p2, p1se⟩ := pq
    have hpred := ensemblePrediction_none cfg C s (toModelScore p2)
      (toModelScore p1se) none none
    have hpred' := ensemblePrediction_none cfg C' s (toModelScore p2)
      (toModelScore p1se) none none
    have hstate := ensembleTail_state cfg C s (toModelScore p2)
      (toModelScore p1se) none none
      (weightedReal cfg (toModelScore p2) (toModelScore p1se))
      (weightedFake cfg (toModelScore p2) (toModelScore p1se))
      "UNCERTAIN" (1/2) none
    have hok := ensembleTail_EnsOK cfg C s (toModelScore p2)
      (toModelScore p1se) none none
      (weightedReal cfg (toModelScore p2) (toModelScore p1se))
      (weightedFake cfg (toModelScore p2) (toModelScore p1se))
      "UNCERTAIN" (1/2) none
    have hcongr := ensembleTail_none_congr cfg C C' s (toModelScore p2)
      (toModelScore p1se) none
      (weightedReal cfg (toModelScore p2) (toModelScore p1se))
      (weightedFake cfg (toModelScore p2) (toModelScore p1se))
      "UNCERTAIN" (1/2) none hadapt
    obtain ⟨ihs, ihl, ihok, ihc⟩ := ih s
    constructor
    · show (zipEnsemble cfg C s ((p2, p1se) :: rest)).2 = s
      simp only [zipEnsemble, hpred]
      rw [hstate]
      exact (ih s).1
    constructor
    · simp only [zipEnsemble, hpred]
      rw [hstate]
      simp only [List.length_cons]
      rw [(ih s).2.1]
    constructor
    · intro a ha
      simp only [zipEnsemble, hpred] at ha
      rw [hstate] at ha
      rcases List.mem_cons.mp ha with h | h
      · rw [h]; exact hok
      · exact (ih s).2.2.1 a h
    · simp only [zipEnsemble, hpred, hpred']
      rw [hstate, hcongr]
      have hstate' := ensembleTail_state cfg C' s (toModelScore p2)
        (toModelScore p1se) none none
        (weightedReal cfg (toModelScore p2) (toModelScore p1se))
        (weightedFake cfg (toModelScore p2) (toModelScore p1se))
        "UNCERTAIN" (1/2) none
      rw [hstate']
      rw [(ih s).2.2.2]

/-- `_process_faces_batch`: state unchanged; the result count is the
`zip`-truncated count (state-independent); every result is `EnsOK`; the
result depends on the collaborator only through `adapt`. -/
theorem processFacesBatch_spec {S : Type} (cfg : DetCfg) (C C' : Collab S)
    (expO : ℚ → ℚ)
    (runV2 runV1se : List CropG → Except String (List (ℚ × ℚ × ℚ)))
    (hadapt : C.adapt = C'.adapt) (s : S) (cropsV2 cropsV1se : List CropG) :
    (processFacesBatch cfg C expO runV2 runV1se s cropsV2 cropsV1se).2 = s ∧
    (processFacesBatch cfg C expO runV2 runV1se s cropsV2 cropsV1se).1.length =
      batchResultCount expO runV2 runV1se cropsV2 cropsV1se ∧
    (∀ a ∈ (processFacesBatch cfg C expO runV2 runV1se s
        cropsV2 cropsV1se).1, EnsOK a) ∧
    processFacesBatch cfg C expO runV2 runV1se s cropsV2 cropsV1se =
      processFacesBatch cfg C' expO runV2 runV1se s cropsV2 cropsV1se := by
  unfold processFacesBatch batchResultCount
  by_cases hempty : cropsV2.isEmpty ∨ cropsV1se.isEmpty
  · have hempty2 : cropsV2 = [] ∨ cropsV1se = [] := by
      rcases hempty with h | h
      · exact Or.inl (List.isEmpty_iff.mp h)
      · exact Or.inr (List.isEmpty_iff.mp h)
    simp [hempty, hempty2]
  · simp only [hempty, if_false]
    obtain ⟨h1, h2, h3, h4⟩ := zipEnsemble_spec cfg C C' hadapt
      ((predictSingleModelBatch expO runV2 cropsV2).zip
        (predictSingleModelBatch expO runV1se cropsV1se)) s
    refine ⟨h1, ?_, h3, h4⟩
    rw [h2, List.length_zip]

/-- A successful lookup is a membership. -/
theorem cLookup_mem (m : CacheMap) (k : String) (e : CacheEntry)
    (h : cLookup m k = some e) : (k, e) ∈ m := by
  induction m with
  | nil => simp [cLookup] at h
  | cons p rest ih =>
    obtain ⟨k0, e0⟩ := p
    by_cases hk : k0 = k
    · subst hk
      simp [cLookup] at h
      simp [h]
    · simp [cLookup, hk] at h
      exact List.mem_cons_of_mem _ (ih h)

/-- Eviction only removes entries. -/
theorem cErase_subset (m : CacheMap) (k : String) :
    ∀ p ∈ cErase m k, p ∈ m := by
  induction m with
  | nil => simp [cErase]
  | cons q rest ih =>
    obtain ⟨k0, e0⟩ := q
    intro p hp
    by_cases hk : k0 = k
    · subst hk
      simp only [cErase, if_pos rfl] at hp
      exact List.mem_cons_of_mem _ hp
    · simp only [cErase, if_neg hk, List.mem_cons] at hp
      rcases hp with h | h
      · simp [h]
      · exact List.mem_cons_of_mem _ (ih p h)

/-- Insertion adds at most the new pair. -/
theorem cInsert_mem (m : CacheMap) (k : String) (e : CacheEntry) :
    ∀ p ∈ cInsert m k e, p ∈ m ∨ p = (k, e) := by
  induction m with
  | nil =>
    intro p hp
    simp [cInsert] at hp
    exact Or.inr hp
  | cons q rest ih =>
    obtain ⟨k0, e0⟩ := q
    intro p hp
    by_cases hk : k0 = k
    · have hc : cInsert ((k0, e0) :: rest) k e = (k, e) :: rest := by
        simp [cInsert, hk]
      rw [hc] at hp
      rcases List.mem_cons.mp hp with h | h
      · exact Or.inr h
      · exact Or.inl (List.mem_cons_of_mem _ h)
    · have hc : cInsert ((k0, e0) :: rest) k e =
          (k0, e0) :: cInsert rest k e := by
        simp [cInsert, hk]
      rw [hc] at hp
      rcases List.mem_cons.mp hp with h | h
      · exact Or.inl (by simp [h])
      · rcases ih p h with h2 | h2
        · exact Or.inl (List.mem_cons_of_mem _ h2)
        · exact Or.inr h2

/-- The lookup never adds entries to the cache. -/
theorem getCachedResult_cache_subset (d fl : ℚ) (m : CacheMap)
    (key : Option String) (now : ℚ) :
    ∀ p ∈ (getCachedResult d fl m key now).2, p ∈ m := by
  cases key with
  | none => intro p hp; exact hp
  | some k =>
    by_cases hk : k = "" ∨ d ≤ 0
    · simp only [getCachedResult, hk, if_true]
      intro p hp; exact hp
    · cases hl : cLookup m k with
      | none =>
        simp only [getCachedResult, hk, if_false, hl]
        intro p hp; exact hp
      | some entry =>
        by_cases hex : d < now - entry.timestamp
        · simp only [getCachedResult, hk, if_false, hl, hex, if_true]
          exact cErase_subset m k
        · by_cases hst : entry.antispoofing.status = "processing_failed" ∨
              entry.antispoofing.status = "error"
          · simp only [getCachedResult, hk, if_false, hl, hex, hst, if_true]
            intro p hp; exact hp
          · by_cases hfl : entry.antispoofing.is_real = true ∧
                entry.antispoofing.confidence < fl
            · simp only [getCachedResult, hk, if_false, hl, hex, hst, hfl,
                if_true]
              intro p hp; exact hp
            · simp only [getCachedResult, hk, if_false, hl, hex, hst, hfl]
              intro p hp; exact hp

/-- A returned cache hit from a well-formed cache satisfies `AntiOK`. -/
theorem getCachedResult_AntiOK (d fl : ℚ) (m : CacheMap)
    (key : Option String) (now : ℚ) (r : AntiRec) (m' : CacheMap)
    (hwf : CacheWF m)
    (h : getCachedResult d fl m key now = (some r, m')) : AntiOK r := by
  cases key with
  | none => simp [getCachedResult] at h
  | some k =>
    by_cases hk : k = "" ∨ d ≤ 0
    · simp [getCachedResult, hk] at h
    · cases hl : cLookup m k with
      | none => simp [getCachedResult, hk, hl] at h
      | some entry =>
        by_cases hex : d < now - entry.timestamp
        · simp [getCachedResult, hk, hl, hex] at h
        · by_cases hst : entry.antispoofing.status = "processing_failed" ∨
              entry.antispoofing.status = "error"
          · simp [getCachedResult, hk, hl, hex, hst] at h
          · by_cases hfl : entry.antispoofing.is_real = true ∧
                entry.antispoofing.confidence < fl
            · simp [getCachedResult, hk, hl, hex, hst, hfl] at h
            · simp only [getCachedResult, hk, hl, hex, hst, hfl,
                if_false, Prod.mk.injEq, Option.some_inj] at h
              obtain ⟨hwf1, hwf2, hwf3, hwf4, hwf5⟩ :=
                hwf (k, entry) (cLookup_mem m k entry hl)
              rw [← h.1]
              refine ⟨?_, hwf2, hwf3, hwf4, hwf5⟩
              rcases hwf1 with hr | hr
              · exact Or.inl hr
              · exact Or.inr (Or.inl hr)

/-- Storing an emission-loop verdict preserves cache well-formedness. -/
theorem storeCacheEntry_WF (d fl : ℚ) (m : CacheMap) (key : Option String)
    (r : AntiRec) (now : ℚ) (hwf : CacheWF m)
    (hst : r.status = "real" ∨ r.status = "fake" ∨ r.status = "error")
    (htv : r.temporal_verdict = none) (htc : r.temporal_confidence = none)
    (hq : r.quality_score = none)
    (hm : r.ensemble_method ≠ some "rank1_temporal_override") :
    CacheWF (storeCacheEntry d fl m key r now) := by
  cases key with
  | none => exact hwf
  | some k =>
    by_cases hk : k = "" ∨ d ≤ 0
    · rw [storeCacheEntry]
      simp only [hk, if_true]
      exact hwf
    · by_cases hs : (sanitizeForStore r).status = "processing_failed" ∨
          (sanitizeForStore r).status = "error"
      · rw [storeCacheEntry]
        simp only [hk, if_false, hs, if_true]
        exact hwf
      · by_cases hf : (sanitizeForStore r).is_real = true ∧
            (sanitizeForStore r).confidence < fl
        · rw [storeCacheEntry]
          simp only [hk, if_false, hs, hf, if_true]
          exact hwf
        · rw [storeCacheEntry]
          simp only [hk, if_false, hs, hf, if_true]
          intro p hp
          rcases cInsert_mem m k ⟨now, sanitizeForStore r⟩ p hp with h | h
          · exact hwf p h
          · rw [h]
            have hsan : (sanitizeForStore r).status = r.status := rfl
            refine ⟨?_, htv, htc, hq, hm⟩
            rcases hst with h1 | h1 | h1
            · exact Or.inl h1
            · exact Or.inr h1
            · exact absurd (Or.inr (hsan.trans h1)) hs

/-- `_build_error_result` payloads with one of the rejection statuses
satisfy the fail-closed shape. -/
theorem buildErrorAnti_AntiOK (cfg : DetCfg) (st msg lbl : String)
    (h : st = "invalid_bbox" ∨ st = "too_small" ∨ st = "processing_failed") :
    AntiOK (buildErrorAnti cfg st msg lbl) := by
  refine ⟨Or.inr (Or.inr ⟨rfl, ?_⟩), rfl, rfl, rfl, by simp [buildErrorAnti]⟩
  rcases h with h | h | h
  · exact Or.inl h
  · exact Or.inr (Or.inl h)
  · exact Or.inr (Or.inr (Or.inl h))

/-- The cache-lookup tail of the per-face phase: index/face preserved,
any finished result is well-shaped, the cache only shrinks. -/
theorem afterCrops_spec (cfg : DetCfg) (hashO : CropG → CropG → ℤ → String)
    (now : ℚ) (cache : CacheMap) (i : ℕ) (f : Face) (b : PyBBox)
    (c2 c1 : CropG) (hwf : CacheWF cache) :
    outcomeIdx (processOneFace.afterCrops cfg hashO now cache i f b c2 c1).1
      = i ∧
    outcomeFace (processOneFace.afterCrops cfg hashO now cache i f b c2 c1).1
      = f ∧
    (∀ r, (processOneFace.afterCrops cfg hashO now cache i f b c2 c1).1 =
      .fin r → r.face_id = i ∧ AntiOK r.anti) ∧
    (∀ p ∈ (processOneFace.afterCrops cfg hashO now cache i f b c2 c1).2,
      p ∈ cache) := by
  unfold processOneFace.afterCrops
  cases hcr : getCachedResult cfg.cache_duration cfg.cache_confidence_floor
      cache (makeCacheKey cfg.cache_duration hashO c2 c1 now) now with
  | mk o cache' =>
    cases o with
    | none =>
      simp only [hcr]
      refine ⟨rfl, rfl, fun r hr => by simp at hr, fun p hp => ?_⟩
      have := getCachedResult_cache_subset cfg.cache_duration
        cfg.cache_confidence_floor cache
        (makeCacheKey cfg.cache_duration hashO c2 c1 now) now p
      rw [hcr] at this
      exact this hp
    | some cr =>
      simp only [hcr]
      refine ⟨rfl, rfl, fun r hr => ?_, fun p hp => ?_⟩
      · cases hr
        exact ⟨rfl, getCachedResult_AntiOK cfg.cache_duration
          cfg.cache_confidence_floor cache
          (makeCacheKey cfg.cache_duration hashO c2 c1 now) now cr cache'
          hwf hcr⟩
      · have := getCachedResult_cache_subset cfg.cache_duration
          cfg.cache_confidence_floor cache
          (makeCacheKey cfg.cache_duration hashO c2 c1 now) now p
        rw [hcr] at this
        exact this hp

/-- The per-face phase: the outcome carries the face's index and the
face itself; a finished outcome's verdict is well-shaped; the cache only
shrinks. -/
theorem processOneFace_spec (cfg : DetCfg)
    (hashO : CropG → CropG → ℤ → String) (now : ℚ) (img : ImgDims)
    (cache : CacheMap) (i : ℕ) (f : Face) (hwf : CacheWF cache) :
    outcomeIdx (processOneFace cfg hashO now img cache i f).1 = i ∧
    outcomeFace (processOneFace cfg hashO now img cache i f).1 = f ∧
    (∀ r, (processOneFace cfg hashO now img cache i f).1 = .fin r →
      r.face_id = i ∧ AntiOK r.anti) ∧
    (∀ p ∈ (processOneFace cfg hashO now img cache i f).2, p ∈ cache) := by
  unfold processOneFace
  cases hb : faceGetBBox f with
  | none =>
    exact ⟨rfl, rfl,
      fun r hr => by
        cases hr
        exact ⟨rfl, buildErrorAnti_AntiOK cfg _ _ _ (Or.inl rfl)⟩,
      fun p hp => hp⟩
  | some b =>
    by_cases ht : bboxTruthy (some b) = false
    · simp only [ht, if_true]
      exact ⟨rfl, rfl,
        fun r hr => by
          cases hr
          exact ⟨rfl, buildErrorAnti_AntiOK cfg _ _ _ (Or.inl rfl)⟩,
        fun p hp => hp⟩
    · simp only [ht, if_false]
      cases hwh : faceWH b with
      | none =>
        exact ⟨rfl, rfl,
          fun r hr => by
            cases hr
            exact ⟨rfl, buildErrorAnti_AntiOK cfg _ _ _ (Or.inl rfl)⟩,
          fun p hp => hp⟩
      | some wh =>
        obtain ⟨wq, hq⟩ := wh
        by_cases hsize : wq < 24 ∨ hq < 24
        · simp only [hsize, if_true]
          exact ⟨rfl, rfl,
            fun r hr => by
              cases hr
              exact ⟨rfl,
                buildErrorAnti_AntiOK cfg _ _ _ (Or.inr (Or.inl rfl))⟩,
            fun p hp => hp⟩
        · simp only [hsize, if_false]
          cases hc2 : extractFaceCrop img b (27/10) 0 0 with
          | some crop2 =>
            cases hc1 : extractFaceCrop img b 4 0 0 with
            | some crop1 =>
              exact afterCrops_spec cfg hashO now cache i f b crop2 crop1 hwf
            | none =>
              cases hfb : fallbackCrop img b with
              | error msg =>
                exact ⟨rfl, rfl,
                  fun r hr => by
                    cases hr
                    exact ⟨rfl, buildErrorAnti_AntiOK cfg _ _ _
                      (Or.inr (Or.inr rfl))⟩,
                  fun p hp => hp⟩
              | ok fb =>
                exact afterCrops_spec cfg hashO now cache i f b
                  ((some crop2).getD fb) (Option.getD none fb) hwf
          | none =>
            cases hfb : fallbackCrop img b with
            | error msg =>
              exact ⟨rfl, rfl,
                fun r hr => by
                  cases hr
                  exact ⟨rfl, buildErrorAnti_AntiOK cfg _ _ _
                    (Or.inr (Or.inr rfl))⟩,
                fun p hp => hp⟩
            | ok fb =>
              cases hc1 : extractFaceCrop img b 4 0 0 with
              | some crop1 =>
                exact afterCrops_spec cfg hashO now cache i f b
                  (Option.getD none fb) ((some crop1).getD fb) hwf
              | none =>
                exact afterCrops_spec cfg hashO now cache i f b
                  (Option.getD none fb) (Option.getD none fb) hwf

/-- Well-formedness restricts along entry inclusion. -/
theorem CacheWF_of_subset (m m' : CacheMap) (hsub : ∀ p ∈ m', p ∈ m)
    (hwf : CacheWF m) : CacheWF m' :=
  fun p hp => hwf p (hsub p hp)

/-- The validation phase: one outcome per face; the outcome at offset
`j` carries index `i + j` and the `j`-th face; finished outcomes are
well-shaped; the cache only shrinks. -/
theorem phase1_spec (cfg : DetCfg) (hashO : CropG → CropG → ℤ → String)
    (now : ℚ) (img : ImgDims) :
    ∀ (fs : List Face) (i : ℕ) (cache : CacheMap), CacheWF cache →
    (phase1 cfg hashO now img i cache fs).1.length = fs.length ∧
    (∀ j o, ((phase1 cfg hashO now img i cache fs).1).get? j = some o →
      outcomeIdx o = i + j ∧ fs.get? j = some (outcomeFace o) ∧
      (∀ r, o = .fin r → r.face_id = i + j ∧ AntiOK r.anti)) ∧
    (∀ p ∈ (phase1 cfg hashO now img i cache fs).2, p ∈ cache) := by
  intro fs
  induction fs with
  | nil =>
    intro i cache _
    refine ⟨rfl, fun j o hj => by simp [phase1] at hj, fun p hp => hp⟩
  | cons f rest ih =>
    intro i cache hwf
    obtain ⟨hidx, hface, hfin, hsub⟩ :=
      processOneFace_spec cfg hashO now img cache i f hwf
    have hwf2 : CacheWF (processOneFace cfg hashO now img cache i f).2 :=
      CacheWF_of_subset cache _ hsub hwf
    obtain ⟨ihlen, ihget, ihsub⟩ :=
      ih (i + 1) (processOneFace cfg hashO now img cache i f).2 hwf2
    refine ⟨?_, ?_, ?_⟩
    · simp only [phase1, List.length_cons]
      rw [ihlen]
    · intro j o hj
      simp only [phase1] at hj
      cases j with
      | zero =>
        simp only [List.get?] at hj
        cases hj
        refine ⟨by rw [hidx]; omega, by rw [hface]; rfl, fun r hr => ?_⟩
        have h5 := hfin r hr
        exact ⟨by rw [h5.1]; omega, h5.2⟩
      | succ j =>
        simp only [List.get?] at hj
        obtain ⟨h1, h2, h3⟩ := ihget j o hj
        refine ⟨by omega, h2, fun r hr => ?_⟩
        obtain ⟨h4, h5⟩ := h3 r hr
        exact ⟨by omega, h5⟩
    · intro p hp
      simp only [phase1] at hp
      exact hsub p (ihsub p hp)

/-- Chunking partitions the pending list. -/
theorem chunkList_flatten {α : Type} (B : ℕ) :
    ∀ (n : ℕ) (l : List α), l.length ≤ n → (chunkList B l).flatten = l := by
  intro n
  induction n with
  | zero =>
    intro l hl
    have : l = [] := List.length_eq_zero.mp (Nat.le_zero.mp hl)
    subst this
    simp [chunkList]
  | succ n ih =>
    intro l hl
    cases l with
    | nil => simp [chunkList]
    | cons x xs =>
      rw [chunkList]
      simp only [List.flatten_cons]
      rw [ih ((x :: xs).drop (max 1 B))
        (by
          simp only [List.length_drop, List.length_cons]
          have : 1 ≤ max 1 B := le_max_left 1 B
          simp only [List.length_cons] at hl
          omega)]
      exact List.take_append_drop _ _

/-- Chunking partitions the pending list (closed form). -/
theorem chunkList_flatten_eq {α : Type} (B : ℕ) (l : List α) :
    (chunkList B l).flatten = l :=
  chunkList_flatten B l.length l le_rfl

/-- Every pending entry of the validation phase appears at its own index
among the outcomes (so the index determines the entry). -/
theorem phase1_pendingMem (cfg : DetCfg) (hashO : CropG → CropG → ℤ → String)
    (now : ℚ) (img : ImgDims) :
    ∀ (fs : List Face) (i : ℕ) (cache : CacheMap), CacheWF cache →
    ∀ p ∈ (phase1 cfg hashO now img i cache fs).1.filterMap pendOf,
      i ≤ p.index ∧
      (phase1 cfg hashO now img i cache fs).1.get? (p.index - i) =
        some (.pend p) := by
  intro fs
  induction fs with
  | nil =>
    intro i cache _ p hp
    simp [phase1] at hp
  | cons f rest ih =>
    intro i cache hwf p hp
    obtain ⟨hidx, -, -, hsub⟩ :=
      processOneFace_spec cfg hashO now img cache i f hwf
    have hwf2 : CacheWF (processOneFace cfg hashO now img cache i f).2 :=
      CacheWF_of_subset cache _ hsub hwf
    simp only [phase1, List.filterMap_cons] at hp
    cases hoc : pendOf (processOneFace cfg hashO now img cache i f).1 with
    | none =>
      rw [hoc] at hp
      obtain ⟨hle, hget⟩ := ih (i + 1)
        (processOneFace cfg hashO now img cache i f).2 hwf2 p hp
      refine ⟨by omega, ?_⟩
      have hd : p.index - i = (p.index - (i + 1)) + 1 := by omega
      rw [hd]
      simpa [phase1] using hget
    | some p0 =>
      rw [hoc] at hp
      have hp0 : (processOneFace cfg hashO now img cache i f).1 = .pend p0 := by
        cases hoc2 : (processOneFace cfg hashO now img cache i f).1 with
        | fin r => rw [hoc2] at hoc; simp [pendOf] at hoc
        | pend q =>
          rw [hoc2] at hoc
          simp [pendOf] at hoc
          rw [hoc]
      have hidx0 : p0.index = i := by
        rw [hp0] at hidx
        exact hidx
      rcases List.mem_cons.mp hp with h | h
      · subst h
        refine ⟨by omega, ?_⟩
        have hz : p.index - i = 0 := by omega
        rw [hz]
        simp only [phase1, List.get?]
        rw [hp0]
      · obtain ⟨hle, hget⟩ := ih (i + 1)
          (processOneFace cfg hashO now img cache i f).2 hwf2 p h
        refine ⟨by omega, ?_⟩
        have hd : p.index - i = (p.index - (i + 1)) + 1 := by omega
        rw [hd]
        simpa [phase1] using hget

/-- The pending entries carry pairwise strictly increasing indices. -/
theorem phase1_pending_pairwise (cfg : DetCfg)
    (hashO : CropG → CropG → ℤ → String) (now : ℚ) (img : ImgDims) :
    ∀ (fs : List Face) (i : ℕ) (cache : CacheMap), CacheWF cache →
    List.Pairwise (fun p q : PendEntry => p.index < q.index)
      ((phase1 cfg hashO now img i cache fs).1.filterMap pendOf) := by
  intro fs
  induction fs with
  | nil =>
    intro i cache _
    simp [phase1]
  | cons f rest ih =>
    intro i cache hwf
    obtain ⟨hidx, -, -, hsub⟩ :=
      processOneFace_spec cfg hashO now img cache i f hwf
    have hwf2 : CacheWF (processOneFace cfg hashO now img cache i f).2 :=
      CacheWF_of_subset cache _ hsub hwf
    have htail := ih (i + 1) (processOneFace cfg hashO now img cache i f).2 hwf2
    simp only [phase1, List.filterMap_cons]
    cases hoc : pendOf (processOneFace cfg hashO now img cache i f).1 with
    | none => exact htail
    | some p0 =>
      refine List.Pairwise.cons ?_ htail
      intro q hq
      obtain ⟨hle, -⟩ := phase1_pendingMem cfg hashO now img rest (i + 1)
        (processOneFace cfg hashO now img cache i f).2 hwf2 q hq
      have hidx0 : p0.index = i := by
        cases hoc2 : (processOneFace cfg hashO now img cache i f).1 with
        | fin r => rw [hoc2] at hoc; simp [pendOf] at hoc
        | pend q2 =>
          rw [hoc2] at hoc
          simp [pendOf] at hoc
          rw [hoc2] at hidx
          rw [← hoc]
          exact hidx
      omega

/-- The emission loop of one chunk: length preserved; slots whose index
no entry claims are untouched; any filled slot came either from before or
from one of the chunk's own entries (formatted at its own index); the
cache stays well-formed when the chunk's verdicts are `EnsOK`. -/
theorem applyChunkWrites_spec (cfg : DetCfg) (now : ℚ) :
    ∀ (l : List (PendEntry × AntiRec)) (results : List (Option Formatted))
      (cache : CacheMap),
    (applyChunkWrites cfg now l results cache).1.length = results.length ∧
    (∀ j, (∀ pa ∈ l, (pa : PendEntry × AntiRec).1.index ≠ j) →
      ((applyChunkWrites cfg now l results cache).1).get? j =
        results.get? j) ∧
    (∀ j r, ((applyChunkWrites cfg now l results cache).1).get? j =
        some (some r) →
      results.get? j = some (some r) ∨
      ∃ pa ∈ l, (pa : PendEntry × AntiRec).1.index = j ∧
        r = ⟨pa.1.index, some pa.1.bbox, isolateResult cfg pa.2, pa.1.face⟩) ∧
    (CacheWF cache → (∀ pa ∈ l, EnsOK (pa : PendEntry × AntiRec).2) →
      CacheWF (applyChunkWrites cfg now l results cache).2) := by
  intro l
  induction l with
  | nil =>
    intro results cache
    exact ⟨rfl, fun j _ => rfl, fun j r h => Or.inl h, fun hwf _ => hwf⟩
  | cons pa rest ih =>
    intro results cache
    obtain ⟨p, a⟩ := pa
    obtain ⟨ihlen, ihunt, ihprov, ihwf⟩ := ih
      (results.set p.index (some ⟨p.index, some p.bbox, isolateResult cfg a,
        p.face⟩))
      (storeCacheEntry cfg.cache_duration cfg.cache_confidence_floor cache
        p.cacheKey { isolateResult cfg a with cached := none } now)
    refine ⟨?_, ?_, ?_, ?_⟩
    · simp only [applyChunkWrites]
      rw [ihlen, List.length_set]
    · intro j hj
      simp only [applyChunkWrites]
      rw [ihunt j (fun q hq => hj q (List.mem_cons_of_mem _ hq))]
      exact List.get?_set_ne _ _ (hj (p, a) (List.mem_cons_self _ _))
    · intro j r hr
      simp only [applyChunkWrites] at hr
      rcases ihprov j r hr with h | h
      · by_cases hpj : p.index = j
        · subst hpj
          rw [List.get?_set_eq] at h
          cases hget : results.get? p.index with
          | none => rw [hget] at h; simp at h
          | some o =>
            rw [hget] at h
            simp only [Option.map_eq_map, Option.map_some] at h
            refine Or.inr ⟨(p, a), List.mem_cons_self _ _, rfl, ?_⟩
            injection h with h2
            injection h2 with h3
            exact h3.symm
        · rw [List.get?_set_ne _ _ hpj] at h
          exact Or.inl h
      · obtain ⟨qa, hqa, hidx, hshape⟩ := h
        exact Or.inr ⟨qa, List.mem_cons_of_mem _ hqa, hidx, hshape⟩
    · intro hwf hens
      refine ihwf ?_ (fun qa hqa => hens qa (List.mem_cons_of_mem _ hqa))
      obtain ⟨hens1, hens2⟩ := hens (p, a) (List.mem_cons_self _ _)
      refine storeCacheEntry_WF _ _ _ _ _ _ hwf ?_ rfl rfl rfl ?_
      · rcases hens1 with h | h | h
        · exact Or.inl h
        · exact Or.inr (Or.inl h)
        · exact Or.inr (Or.inr h.1)
      · show some ((isolateResult cfg a).ensemble_method.getD
            "weighted_average_apk_replica") ≠ some "rank1_temporal_override"
        have h4 : (isolateResult cfg a).ensemble_method.getD
            "weighted_average_apk_replica" =
            a.ensemble_method.getD "weighted_average_apk_replica" := rfl
        rw [h4]
        rcases hens2 with h | h
        · have h5 : a.ensemble_method = some "rank1_error" := h
          rw [h5]
          simp
        · have h5 : a.ensemble_method = some "rank1_adaptive_temporal" := h
          rw [h5]
          simp

/-- The chunk-draining phase: analyzer state restored; length preserved;
cache stays well-formed; any filled slot came either from before or from
some chunk entry's isolated `EnsOK` verdict formatted at its own index;
and the result depends on the collaborator only through `adapt`. -/
theorem phase2_spec {S : Type} (cfg : DetCfg) (C C' : Collab S)
    (expO : ℚ → ℚ)
    (runV2 runV1se : List CropG → Except String (List (ℚ × ℚ × ℚ)))
    (now : ℚ) (hadapt : C.adapt = C'.adapt) :
    ∀ (chunks : List (List PendEntry)) (s : S) (cache : CacheMap)
      (results : List (Option Formatted)), CacheWF cache →
    (phase2 cfg C expO runV2 runV1se now s cache results chunks).2.2 = s ∧
    (phase2 cfg C expO runV2 runV1se now s cache results chunks).1.length =
      results.length ∧
    CacheWF (phase2 cfg C expO runV2 runV1se now s cache results
      chunks).2.1 ∧
    (∀ j r, ((phase2 cfg C expO runV2 runV1se now s cache results
        chunks).1).get? j = some (some r) →
      results.get? j = some (some r) ∨
      ∃ c ∈ chunks, ∃ p ∈ c, ∃ a, EnsOK a ∧ p.index = j ∧
        r = ⟨p.index, some p.bbox, isolateResult cfg a, p.face⟩) ∧
    phase2 cfg C expO runV2 runV1se now s cache results chunks =
      phase2 cfg C' expO runV2 runV1se now s cache results chunks := by
  intro chunks
  induction chunks with
  | nil =>
    intro s cache results hwf
    exact ⟨rfl, rfl, hwf, fun j r h => Or.inl h, rfl⟩
  | cons c more ih =>
    intro s cache results hwf
    obtain ⟨hstate, hlen, hens, hcongr⟩ :=
      processFacesBatch_spec cfg C C' expO runV2 runV1se hadapt s
        (c.map (·.cropV2)) (c.map (·.cropV1se))
    by_cases hmis :
        (processFacesBatch cfg C expO runV2 runV1se s (c.map (·.cropV2))
          (c.map (·.cropV1se))).1.length ≠ c.length
    · have hrc : runChunk cfg C expO runV2 runV1se now s cache results c =
          (results, cache,
            (processFacesBatch cfg C expO runV2 runV1se s (c.map (·.cropV2))
              (c.map (·.cropV1se))).2) := by
        unfold runChunk
        rw [if_pos hmis]
      obtain ⟨ih1, ih2, ih3, ih4, ih5⟩ := ih s cache results hwf
      have hph : phase2 cfg C expO runV2 runV1se now s cache results
          (c :: more) =
          phase2 cfg C expO runV2 runV1se now s cache results more := by
        show phase2 cfg C expO runV2 runV1se now
            (runChunk cfg C expO runV2 runV1se now s cache results c).2.2
            (runChunk cfg C expO runV2 runV1se now s cache results c).2.1
            (runChunk cfg C expO runV2 runV1se now s cache results c).1
            more = _
        rw [hrc, hstate]
      refine ⟨by rw [hph]; exact ih1, by rw [hph]; exact ih2,
        by rw [hph]; exact ih3, ?_, ?_⟩
      · intro j r h
        rw [hph] at h
        rcases ih4 j r h with h2 | h2
        · exact Or.inl h2
        · obtain ⟨c2, hc2, rest⟩ := h2
          exact Or.inr ⟨c2, List.mem_cons_of_mem _ hc2, rest⟩
      · rw [hph, ih5]
        have hrc' : runChunk cfg C' expO runV2 runV1se now s cache results c =
            (results, cache,
              (processFacesBatch cfg C expO runV2 runV1se s
                (c.map (·.cropV2)) (c.map (·.cropV1se))).2) := by
          unfold runChunk
          rw [← hcongr, if_pos hmis]
        show _ = phase2 cfg C' expO runV2 runV1se now
            (runChunk cfg C' expO runV2 runV1se now s cache results c).2.2
            (runChunk cfg C' expO runV2 runV1se now s cache results c).2.1
            (runChunk cfg C' expO runV2 runV1se now s cache results c).1
            more
        rw [hrc', hstate]
    · have hzip : ∀ pa ∈ c.zip (processFacesBatch cfg C expO runV2 runV1se s
          (c.map (·.cropV2)) (c.map (·.cropV1se))).1,
          EnsOK (pa : PendEntry × AntiRec).2 := by
        intro pa hpa
        exact hens pa.2 (List.mem_zip hpa).2
      obtain ⟨wlen, wunt, wprov, wwf⟩ := applyChunkWrites_spec cfg now
        (c.zip (processFacesBatch cfg C expO runV2 runV1se s
          (c.map (·.cropV2)) (c.map (·.cropV1se))).1) results cache
      have hwf2 := wwf hwf hzip
      have hrc : runChunk cfg C expO runV2 runV1se now s cache results c =
          ((applyChunkWrites cfg now (c.zip (processFacesBatch cfg C expO
              runV2 runV1se s (c.map (·.cropV2)) (c.map (·.cropV1se))).1)
            results cache).1,
           (applyChunkWrites cfg now (c.zip (processFacesBatch cfg C expO
              runV2 runV1se s (c.map (·.cropV2)) (c.map (·.cropV1se))).1)
            results cache).2,
           (processFacesBatch cfg C expO runV2 runV1se s (c.map (·.cropV2))
              (c.map (·.cropV1se))).2) := by
        unfold runChunk
        rw [if_neg hmis]
      obtain ⟨ih1, ih2, ih3, ih4, ih5⟩ := ih s
        ((applyChunkWrites cfg now (c.zip (processFacesBatch cfg C expO
            runV2 runV1se s (c.map (·.cropV2)) (c.map (·.cropV1se))).1)
          results cache).2)
        ((applyChunkWrites cfg now (c.zip (processFacesBatch cfg C expO
            runV2 runV1se s (c.map (·.cropV2)) (c.map (·.cropV1se))).1)
          results cache).1)
        hwf2
      have hph : phase2 cfg C expO runV2 runV1se now s cache results
          (c :: more) =
          phase2 cfg C expO runV2 runV1se now s
            ((applyChunkWrites cfg now (c.zip (processFacesBatch cfg C expO
                runV2 runV1se s (c.map (·.cropV2)) (c.map (·.cropV1se))).1)
              results cache).2)
            ((applyChunkWrites cfg now (c.zip (processFacesBatch cfg C expO
                runV2 runV1se s (c.map (·.cropV2)) (c.map (·.cropV1se))).1)
              results cache).1)
            more := by
        show phase2 cfg C expO runV2 runV1se now
            (runChunk cfg C expO runV2 runV1se now s cache results c).2.2
            (runChunk cfg C expO runV2 runV1se now s cache results c).2.1
            (runChunk cfg C expO runV2 runV1se now s cache results c).1
            more = _
        rw [hrc, hstate]
      refine ⟨by rw [hph]; exact ih1, by rw [hph]; rw [ih2]; exact wlen,
        by rw [hph]; exact ih3, ?_, ?_⟩
      · intro j r h
        rw [hph] at h
        rcases ih4 j r h with h2 | h2
        · rcases wprov j r h2 with h3 | h3
          · exact Or.inl h3
          · obtain ⟨pa, hpa, hidx, hshape⟩ := h3
            exact Or.inr ⟨c, List.mem_cons_self _ _, pa.1,
              (List.mem_zip hpa).1, pa.2, hens pa.2 (List.mem_zip hpa).2,
              hidx, hshape⟩
        · obtain ⟨c2, hc2, rest⟩ := h2
          exact Or.inr ⟨c2, List.mem_cons_of_mem _ hc2, rest⟩
      · have hrc' : runChunk cfg C' expO runV2 runV1se now s cache results c =
            runChunk cfg C expO runV2 runV1se now s cache results c := by
          unfold runChunk
          rw [← hcongr]
        show _ = phase2 cfg C' expO runV2 runV1se now
            (runChunk cfg C' expO runV2 runV1se now s cache results c).2.2
            (runChunk cfg C' expO runV2 runV1se now s cache results c).2.1
            (runChunk cfg C' expO runV2 runV1se now s cache results c).1
            more
        rw [hrc', hrc, hstate]
        show phase2 cfg C expO runV2 runV1se now
            (runChunk cfg C expO runV2 runV1se now s cache results c).2.2
            (runChunk cfg C expO runV2 runV1se now s cache results c).2.1
            (runChunk cfg C expO runV2 runV1se now s cache results c).1
            more = _
        rw [hrc, hstate]
        exact ih5

/-- If every chunk that claims slot `j` has a result-count mismatch
(and is therefore skipped), slot `j` stays unfilled. -/
theorem phase2_none {S : Type} (cfg : DetCfg) (C : Collab S) (expO : ℚ → ℚ)
    (runV2 runV1se : List CropG → Except String (List (ℚ × ℚ × ℚ)))
    (now : ℚ) :
    ∀ (chunks : List (List PendEntry)) (s : S) (cache : CacheMap)
      (results : List (Option Formatted)) (j : ℕ),
    results.get? j = some none →
    (∀ c ∈ chunks, (∃ q ∈ c, q.index = j) →
      batchResultCount expO runV2 runV1se (c.map (·.cropV2))
        (c.map (·.cropV1se)) ≠ c.length) →
    ((phase2 cfg C expO runV2 runV1se now s cache results chunks).1).get? j =
      some none := by
  intro chunks
  induction chunks with
  | nil =>
    intro s cache results j hnone _
    exact hnone
  | cons c more ih =>
    intro s cache results j hnone hmm
    obtain ⟨hstate, hlen, hens, -⟩ :=
      processFacesBatch_spec cfg C C expO runV2 runV1se rfl s
        (c.map (·.cropV2)) (c.map (·.cropV1se))
    show ((phase2 cfg C expO runV2 runV1se now
        (runChunk cfg C expO runV2 runV1se now s cache results c).2.2
        (runChunk cfg C expO runV2 runV1se now s cache results c).2.1
        (runChunk cfg C expO runV2 runV1se now s cache results c).1
        more).1).get? j = some none
    by_cases hmis :
        (processFacesBatch cfg C expO runV2 runV1se s (c.map (·.cropV2))
          (c.map (·.cropV1se))).1.length ≠ c.length
    · have hrc : runChunk cfg C expO runV2 runV1se now s cache results c =
          (results, cache,
            (processFacesBatch cfg C expO runV2 runV1se s (c.map (·.cropV2))
              (c.map (·.cropV1se))).2) := by
        unfold runChunk
        rw [if_pos hmis]
      rw [hrc]
      exact ih _ _ _ j hnone
        (fun c2 hc2 => hmm c2 (List.mem_cons_of_mem _ hc2))
    · have hcj : ¬ ∃ q ∈ c, q.index = j := by
        intro hq
        have := hmm c (List.mem_cons_self _ _) hq
        rw [← hlen] at this
        exact hmis this
      obtain ⟨wlen, wunt, -, -⟩ := applyChunkWrites_spec cfg now
        (c.zip (processFacesBatch cfg C expO runV2 runV1se s
          (c.map (·.cropV2)) (c.map (·.cropV1se))).1) results cache
      have hrc : runChunk cfg C expO runV2 runV1se now s cache results c =
          ((applyChunkWrites cfg now (c.zip (processFacesBatch cfg C expO
              runV2 runV1se s (c.map (·.cropV2)) (c.map (·.cropV1se))).1)
            results cache).1,
           (applyChunkWrites cfg now (c.zip (processFacesBatch cfg C expO
              runV2 runV1se s (c.map (·.cropV2)) (c.map (·.cropV1se))).1)
            results cache).2,
           (processFacesBatch cfg C expO runV2 runV1se s (c.map (·.cropV2))
              (c.map (·.cropV1se))).2) := by
        unfold runChunk
        rw [if_neg hmis]
      rw [hrc]
      refine ih _ _ _ j ?_
        (fun c2 hc2 => hmm c2 (List.mem_cons_of_mem _ hc2))
      rw [wunt j ?_]
      · exact hnone
      · intro pa hpa hidx
        exact hcj ⟨pa.1, (List.of_mem_zip hpa).1, hidx⟩

/-- The fail-closed sweep keeps the length. -/
theorem finalizeResults_length (cfg : DetCfg) (scaled : List Face) :
    ∀ (rs : List (Option Formatted)) (i : ℕ),
    (finalizeResults cfg scaled i rs).length = rs.length := by
  intro rs
  induction rs with
  | nil => intro i; rfl
  | cons o rest ih =>
    intro i
    cases o with
    | none => simp [finalizeResults, ih]
    | some r => simp [finalizeResults, ih]

/-- The fail-closed sweep pointwise: a filled slot passes through, an
unfilled slot becomes the `processing_failed` rejection built at its own
index from the scaled face list. -/
theorem finalizeResults_get? (cfg : DetCfg) (scaled : List Face) :
    ∀ (rs : List (Option Formatted)) (i j : ℕ),
    (finalizeResults cfg scaled i rs).get? j =
      (rs.get? j).map (fun o =>
        match o with
        | some r => r
        | none =>
          ⟨i + j, faceGetBBox (scaled.getD (i + j) ⟨none, none, 0⟩),
            buildErrorAnti cfg "processing_failed"
              "Anti-spoofing result missing; marked as spoof for safety."
              "Spoof Suspected",
            scaled.getD (i + j) ⟨none, none, 0⟩⟩) := by
  intro rs
  induction rs with
  | nil => intro i j; simp [finalizeResults]
  | cons o rest ih =>
    intro i j
    cases o with
    | none =>
      cases j with
      | zero => simp [finalizeResults]
      | succ j =>
        simp only [finalizeResults, List.get?]
        rw [ih (i + 1) j]
        have : i + 1 + j = i + (j + 1) := by omega
        rw [this]
    | some r =>
      cases j with
      | zero => simp [finalizeResults]
      | succ j =>
        simp only [finalizeResults, List.get?]
        rw [ih (i + 1) j]
        have : i + 1 + j = i + (j + 1) := by omega
        rw [this]

/-- A member's image is bounded by the mapped sum. -/
theorem mem_le_mapSum {α : Type} (f : α → ℕ) :
    ∀ (l : List α) (a : α), a ∈ l → f a ≤ (l.map f).sum := by
  intro l
  induction l with
  | nil => intro a ha; simp at ha
  | cons x xs ih =>
    intro a ha
    rcases List.mem_cons.mp ha with h | h
    · subst h
      simp only [List.map_cons, List.sum_cons]
      omega
    · have := ih a h
      simp only [List.map_cons, List.sum_cons]
      omega

/-- Two distinct members contribute separately to the mapped sum. -/
theorem two_mem_le_mapSum {α : Type} [DecidableEq α] (f : α → ℕ) :
    ∀ (l : List α) (a b : α), a ∈ l → b ∈ l → a ≠ b →
    f a + f b ≤ (l.map f).sum := by
  intro l
  induction l with
  | nil => intro a b ha; simp at ha
  | cons x xs ih =>
    intro a b ha hb hne
    simp only [List.map_cons, List.sum_cons]
    rcases List.mem_cons.mp ha with h1 | h1
    · subst h1
      have hbx : b ∈ xs := by
        rcases List.mem_cons.mp hb with h2 | h2
        · exact absurd h2.symm hne
        · exact h2
      have := mem_le_mapSum f xs b hbx
      omega
    · rcases List.mem_cons.mp hb with h2 | h2
      · subst h2
        have := mem_le_mapSum f xs a h1
        omega
      · have := ih a b h1 h2 hne
        omega

/-- `detect_faces_batch` in terms of its two branches. -/
theorem detectFacesBatch_eq {S : Type} (cfg : DetCfg) (C : Collab S)
    (expO : ℚ → ℚ)
    (runV2 runV1se : List CropG → Except String (List (ℚ × ℚ × ℚ)))
    (hashO : CropG → CropG → ℤ → String) (now : ℚ) (s : S)
    (cache : CacheMap) (img : ImgDims) (faces : List Face) :
    detectFacesBatch cfg C expO runV2 runV1se hashO now s cache img faces =
      if faces.isEmpty then ([], cache, s)
      else detectAfterScale cfg C expO runV2 runV1se hashO now s cache
        (ensureScaleSeparation img faces).1
        (ensureScaleSeparation img faces).2 := rfl

/-- The scale-separation guard emits one face per input face. -/
theorem ensureScaleSeparation_length (img : ImgDims) (faces : List Face) :
    ((ensureScaleSeparation img faces).2).length = faces.length := by
  simp only [ensureScaleSeparation]
  split
  · rfl
  · split
    · split
      · rfl
      · simp
    · rfl

/-- In a pairwise-increasing pending list the index determines the
entry. -/
theorem pend_index_unique (l : List PendEntry)
    (hp : List.Pairwise (fun p q : PendEntry => p.index < q.index) l) :
    ∀ p ∈ l, ∀ q ∈ l, p.index = q.index → p = q := by
  intro p hpmem q hqmem heq
  by_contra hne
  have hpw : List.Pairwise (fun p q : PendEntry => p.index ≠ q.index) l :=
    hp.imp (fun h => Nat.ne_of_lt h)
  have hsym : Symmetric (fun p q : PendEntry => p.index ≠ q.index) :=
    fun _ _ h => h.symm
  exact (hpw.forall hsym hpmem hqmem hne) heq

/-- When the flattened chunk list has no duplicates, an entry lies in
only one chunk. -/
theorem chunk_unique {α : Type} [DecidableEq α] (chunks : List (List α))
    (hnd : chunks.flatten.Nodup) (p : α) (c c' : List α)
    (hc : c ∈ chunks) (hc' : c' ∈ chunks) (hpc : p ∈ c) (hpc' : p ∈ c') :
    c = c' := by
  by_contra hne
  have h2 := two_mem_le_mapSum (List.count p) chunks c c' hc hc' hne
  have hflat : chunks.flatten.count p = (chunks.map (List.count p)).sum :=
    List.count_flatten p chunks
  have hle1 : chunks.flatten.count p ≤ 1 :=
    List.nodup_iff_count_le_one.mp hnd p
  have hc1 : 1 ≤ c.count p := List.count_pos_iff.mpr hpc
  have hc2 : 1 ≤ c'.count p := List.count_pos_iff.mpr hpc'
  rw [← hflat] at h2
  omega

/-- Isolating an `EnsOK` ensemble verdict yields an `AntiOK` record. -/
theorem isolateResult_AntiOK (cfg : DetCfg) (a : AntiRec) (h : EnsOK a) :
    AntiOK (isolateResult cfg a) := by
  obtain ⟨h1, h2⟩ := h
  refine ⟨?_, rfl, rfl, rfl, ?_⟩
  · have hst : (isolateResult cfg a).status = a.status := rfl
    have hir : (isolateResult cfg a).is_real = a.is_real := rfl
    rw [hst, hir]
    rcases h1 with h | h | h
    · exact Or.inl h
    · exact Or.inr (Or.inl h)
    · exact Or.inr (Or.inr ⟨h.2, Or.inr (Or.inr (Or.inr h.1))⟩)
  · have hm : (isolateResult cfg a).ensemble_method =
        some (a.ensemble_method.getD "weighted_average_apk_replica") := rfl
    rw [hm]
    rcases h2 with h | h
    · have h5 : a.ensemble_method = some "rank1_error" := h
      rw [h5]
      simp
    · have h5 : a.ensemble_method = some "rank1_adaptive_temporal" := h
      rw [h5]
      simp

/-- Master lemma for the non-empty branch of `detect_faces_batch`: one
output per scaled face, each at its own index carrying its own face and
a fail-closed well-shaped verdict; analyzer state restored; cache kept
well-formed; result depending on the collaborator only through `adapt`;
and every entry of a count-mismatched chunk emitted as the
`processing_failed` rejection. -/
theorem detectAfterScale_spec {S : Type} (cfg : DetCfg) (C C' : Collab S)
    (expO : ℚ → ℚ)
    (runV2 runV1se : List CropG → Except String (List (ℚ × ℚ × ℚ)))
    (hashO : CropG → CropG → ℤ → String) (now : ℚ) (s : S)
    (cache : CacheMap) (simg : ImgDims) (scaled : List Face)
    (hwf : CacheWF cache) (hadapt : C.adapt = C'.adapt) :
    (detectAfterScale cfg C expO runV2 runV1se hashO now s cache simg
        scaled).1.length = scaled.length ∧
    (∀ j r, ((detectAfterScale cfg C expO runV2 runV1se hashO now s cache
        simg scaled).1).get? j = some r →
      r.face_id = j ∧ scaled.get? j = some r.face ∧ AntiOK r.anti) ∧
    (detectAfterScale cfg C expO runV2 runV1se hashO now s cache simg
        scaled).2.2 = s ∧
    CacheWF (detectAfterScale cfg C expO runV2 runV1se hashO now s cache
        simg scaled).2.1 ∧
    detectAfterScale cfg C expO runV2 runV1se hashO now s cache simg
        scaled =
      detectAfterScale cfg C' expO runV2 runV1se hashO now s cache simg
        scaled ∧
    (∀ c ∈ chunkList cfg.max_batch_size
        ((phase1 cfg hashO now simg 0 cache scaled).1.filterMap pendOf),
      batchResultCount expO runV2 runV1se (c.map (·.cropV2))
        (c.map (·.cropV1se)) ≠ c.length →
      ∀ p ∈ c, ∃ r,
        ((detectAfterScale cfg C expO runV2 runV1se hashO now s cache simg
          scaled).1).get? p.index = some r ∧
        r.face_id = p.index ∧
        r.anti = buildErrorAnti cfg "processing_failed"
          "Anti-spoofing result missing; marked as spoof for safety."
          "Spoof Suspected") := by
  obtain ⟨h1len, h1get, h1sub⟩ :=
    phase1_spec cfg hashO now simg scaled 0 cache hwf
  have hwf1 : CacheWF (phase1 cfg hashO now simg 0 cache scaled).2 :=
    CacheWF_of_subset cache _ h1sub hwf
  obtain ⟨h2state, h2len, h2wf, h2prov, h2congr⟩ :=
    phase2_spec cfg C C' expO runV2 runV1se now hadapt
      (chunkList cfg.max_batch_size
        ((phase1 cfg hashO now simg 0 cache scaled).1.filterMap pendOf))
      s (phase1 cfg hashO now simg 0 cache scaled).2
      ((phase1 cfg hashO now simg 0 cache scaled).1.map (fun o =>
        match o with
        | .fin r => some r
        | .pend _ => none))
      hwf1
  have hpw := phase1_pending_pairwise cfg hashO now simg scaled 0 cache hwf
  simp only [detectAfterScale]
  refine ⟨?_, ?_, h2state, h2wf, ?_, ?_⟩
  · rw [finalizeResults_length, h2len, List.length_map, h1len]
  · intro j r hjr
    rw [finalizeResults_get?] at hjr
    cases hopt : (phase2 cfg C expO runV2 runV1se now s
        (phase1 cfg hashO now simg 0 cache scaled).2
        ((phase1 cfg hashO now simg 0 cache scaled).1.map (fun o =>
          match o with
          | .fin r => some r
          | .pend _ => none))
        (chunkList cfg.max_batch_size
          ((phase1 cfg hashO now simg 0 cache scaled).1.filterMap
            pendOf))).1.get? j with
    | none => rw [hopt] at hjr; simp at hjr
    | some o =>
      rw [hopt] at hjr
      simp only [Option.map_some'] at hjr
      cases o with
      | some r0 =>
        have hr0 : r0 = r := Option.some.inj hjr
        rcases h2prov j r0 hopt with hres | hchunk
        · rw [List.get?_map] at hres
          cases hoc : (phase1 cfg hashO now simg 0 cache scaled).1.get? j with
          | none => rw [hoc] at hres; simp at hres
          | some oc =>
            rw [hoc] at hres
            simp only [Option.map_some'] at hres
            cases oc with
            | fin r1 =>
              have hr1 : r1 = r0 := by injection hres with h5; injection h5
              obtain ⟨-, hface, hfin⟩ := h1get j (.fin r1) hoc
              obtain ⟨hid, hok⟩ := hfin r1 rfl
              subst hr1
              subst hr0
              refine ⟨by rw [hid]; omega, ?_, hok⟩
              rw [hface]
              rfl
            | pend q => simp at hres
        · obtain ⟨c, hc, p, hp, a, hens, hpidx, hshape⟩ := hchunk
          have hpend : p ∈ (phase1 cfg hashO now simg 0 cache
              scaled).1.filterMap pendOf := by
            have h6 := List.mem_flatten.mpr ⟨c, hc, hp⟩
            rwa [chunkList_flatten_eq] at h6
          obtain ⟨-, hpg⟩ := phase1_pendingMem cfg hashO now simg scaled 0
            cache hwf p hpend
          rw [Nat.sub_zero] at hpg
          obtain ⟨-, hface, -⟩ := h1get p.index (.pend p) hpg
          subst hr0
          subst hshape
          refine ⟨hpidx, ?_, isolateResult_AntiOK cfg a hens⟩
          rw [← hpidx, hface]
          rfl
      | none =>
        have hrr : r = ⟨0 + j,
            faceGetBBox (scaled.getD (0 + j) ⟨none, none, 0⟩),
            buildErrorAnti cfg "processing_failed"
              "Anti-spoofing result missing; marked as spoof for safety."
              "Spoof Suspected",
            scaled.getD (0 + j) ⟨none, none, 0⟩⟩ :=
          (Option.some.inj hjr).symm
        obtain ⟨hlt, -⟩ := List.get?_eq_some.mp hopt
        rw [h2len, List.length_map, h1len] at hlt
        cases hsj : scaled.get? j with
        | none =>
          exact absurd hlt (Nat.not_lt.mpr (List.get?_eq_none.mp hsj))
        | some fj =>
          have hgd : scaled.getD (0 + j) ⟨none, none, 0⟩ = fj := by
            rw [List.getD_eq_get?, Nat.zero_add, hsj]
            rfl
          refine ⟨by rw [hrr]; show 0 + j = j; omega, ?_, ?_⟩
          · rw [hrr]
            show some fj = some (scaled.getD (0 + j) ⟨none, none, 0⟩)
            rw [hgd]
          · rw [hrr]
            exact buildErrorAnti_AntiOK cfg _ _ _ (Or.inr (Or.inr rfl))
  · rw [h2congr]
  · intro c hc hmis p hp
    have hpend : p ∈ (phase1 cfg hashO now simg 0 cache
        scaled).1.filterMap pendOf := by
      have h6 := List.mem_flatten.mpr ⟨c, hc, hp⟩
      rwa [chunkList_flatten_eq] at h6
    obtain ⟨-, hpg⟩ := phase1_pendingMem cfg hashO now simg scaled 0
      cache hwf p hpend
    rw [Nat.sub_zero] at hpg
    have hr0 : ((phase1 cfg hashO now simg 0 cache scaled).1.map (fun o =>
        match o with
        | FaceOutcome.fin r => some r
        | FaceOutcome.pend _ => none)).get? p.index = some none := by
      rw [List.get?_map, hpg]
      rfl
    have hnd : ((phase1 cfg hashO now simg 0 cache scaled).1.filterMap
        pendOf).Nodup :=
      hpw.imp (fun hlt heq =>
        absurd (congrArg PendEntry.index heq) (Nat.ne_of_lt hlt))
    have hfnd : (chunkList cfg.max_batch_size
        ((phase1 cfg hashO now simg 0 cache scaled).1.filterMap
          pendOf)).flatten.Nodup := by
      rw [chunkList_flatten_eq]
      exact hnd
    have hp2 := phase2_none cfg C expO runV2 runV1se now
      (chunkList cfg.max_batch_size
        ((phase1 cfg hashO now simg 0 cache scaled).1.filterMap pendOf))
      s (phase1 cfg hashO now simg 0 cache scaled).2
      ((phase1 cfg hashO now simg 0 cache scaled).1.map (fun o =>
        match o with
        | .fin r => some r
        | .pend _ => none))
      p.index hr0 ?_
    · refine ⟨⟨0 + p.index,
        faceGetBBox (scaled.getD (0 + p.index) ⟨none, none, 0⟩),
        buildErrorAnti cfg "processing_failed"
          "Anti-spoofing result missing; marked as spoof for safety."
          "Spoof Suspected",
        scaled.getD (0 + p.index) ⟨none, none, 0⟩⟩, ?_, ?_, rfl⟩
      · rw [finalizeResults_get?, hp2]
        rfl
      · show 0 + p.index = p.index
        omega
    · intro c2 hc2 hq2
      obtain ⟨q, hq, hqidx⟩ := hq2
      have hqpend : q ∈ (phase1 cfg hashO now simg 0 cache
          scaled).1.filterMap pendOf := by
        have h6 := List.mem_flatten.mpr ⟨c2, hc2, hq⟩
        rwa [chunkList_flatten_eq] at h6
      have hqp : q = p := pend_index_unique _ hpw q hqpend p hpend hqidx
      subst hqp
      have hcc : c2 = c := chunk_unique _ hfnd q c2 c hc2 hc hq hp
      rw [hcc]
      exact hmis

/-- C2: Order/length invariant — for every image and every input
detection list (including the empty list and lists containing malformed,
too-small, or unprocessable detections), `detect_faces_batch` returns
exactly one verdict per input detection, and the verdict at index `j`
carries `face_id = j` and the (scale-guard-adjusted image of the) input
detection at index `j`. -/
theorem c2_order_length_invariant {S : Type} (cfg : DetCfg) (C : Collab S)
    (expO : ℚ → ℚ)
    (runV2 runV1se : List CropG → Except String (List (ℚ × ℚ × ℚ)))
    (hashO : CropG → CropG → ℤ → String) (now : ℚ) (s : S)
    (cache : CacheMap) (img : ImgDims) (faces : List Face)
    (hwf : CacheWF cache) :
    (detectFacesBatch cfg C expO runV2 runV1se hashO now s cache img
        faces).1.length = faces.length ∧
    (∀ j r, ((detectFacesBatch cfg C expO runV2 runV1se hashO now s cache
        img faces).1).get? j = some r →
      r.face_id = j ∧
      ((ensureScaleSeparation img faces).2).get? j = some r.face) := by
  rw [detectFacesBatch_eq]
  by_cases hfe : faces.isEmpty
  · rw [if_pos hfe]
    have hfaces : faces = [] := List.isEmpty_iff.mp hfe
    subst hfaces
    exact ⟨rfl, fun j r h => by simp at h⟩
  · rw [if_neg hfe]
    obtain ⟨hlen, hget, -, -, -, -⟩ :=
      detectAfterScale_spec cfg C C expO runV2 runV1se hashO now s cache
        (ensureScaleSeparation img faces).1
        (ensureScaleSeparation img faces).2 hwf rfl
    refine ⟨?_, fun j r h => ?_⟩
    · rw [hlen, ensureScaleSeparation_length]
    · obtain ⟨h1, h2, -⟩ := hget j r h
      exact ⟨h1, h2⟩

/-- C1: Fail-closed — every verdict `detect_faces_batch` emits either has
a decided status (`real` / `fake`) or has `is_real = false` with status
among `invalid_bbox` / `too_small` / `processing_failed` / `error`; and
whenever a chunk's dual-model batch call would yield a result count
different from the chunk's face count, every face of that chunk is
emitted at its own index with status `processing_failed` and
`is_real = false` (no alignment by guessing). -/
theorem c1_fail_closed {S : Type} (cfg : DetCfg) (C : Collab S)
    (expO : ℚ → ℚ)
    (runV2 runV1se : List CropG → Except String (List (ℚ × ℚ × ℚ)))
    (hashO : CropG → CropG → ℤ → String) (now : ℚ) (s : S)
    (cache : CacheMap) (img : ImgDims) (faces : List Face)
    (hwf : CacheWF cache) :
    (∀ r ∈ (detectFacesBatch cfg C expO runV2 runV1se hashO now s cache img
        faces).1,
      (r.anti.status = "real" ∨ r.anti.status = "fake") ∨
      (r.anti.is_real = false ∧
        (r.anti.status = "invalid_bbox" ∨ r.anti.status = "too_small" ∨
         r.anti.status = "processing_failed" ∨ r.anti.status = "error"))) ∧
    (∀ c ∈ chunkList cfg.max_batch_size
        (detectPending cfg hashO now cache img faces),
      batchResultCount expO runV2 runV1se (c.map (·.cropV2))
        (c.map (·.cropV1se)) ≠ c.length →
      ∀ p ∈ c, ∃ r,
        ((detectFacesBatch cfg C expO runV2 runV1se hashO now s cache img
          faces).1).get? p.index = some r ∧
        r.anti.status = "processing_failed" ∧ r.anti.is_real = false) := by
  by_cases hfe : faces.isEmpty
  · have hfaces : faces = [] := List.isEmpty_iff.mp hfe
    subst hfaces
    constructor
    · intro r hr
      rw [detectFacesBatch_eq] at hr
      simp at hr
    · intro c hc
      have hdp : detectPending cfg hashO now cache img [] = [] := by
        simp [detectPending, ensureScaleSeparation, maxFaceDim, phase1]
      rw [hdp] at hc
      simp [chunkList] at hc
  · rw [detectFacesBatch_eq, if_neg hfe]
    obtain ⟨-, hget, -, -, -, hchunk⟩ :=
      detectAfterScale_spec cfg C C expO runV2 runV1se hashO now s cache
        (ensureScaleSeparation img faces).1
        (ensureScaleSeparation img faces).2 hwf rfl
    constructor
    · intro r hr
      obtain ⟨j, hj⟩ := List.get?_of_mem hr
      obtain ⟨-, -, hok⟩ := hget j r hj
      rcases hok.1 with h | h | h
      · exact Or.inl (Or.inl h)
      · exact Or.inl (Or.inr h)
      · exact Or.inr h
    · intro c hc hmis p hp
      unfold detectPending at hc
      obtain ⟨r, hgr, -, hanti⟩ := hchunk c hc hmis p hp
      refine ⟨r, hgr, ?_, ?_⟩
      · rw [hanti]
        rfl
      · rw [hanti]
        rfl

/-- C4 (implicit): through the public batch entry point every ensemble
decision is computed with `track_id = None` and `quality_score = None`,
so the temporal analyzer's state is never updated (it is returned
unchanged), the output depends on the collaborators only through the
adaptive threshold manager `adapt` (two collaborators agreeing on
`adapt` but differing arbitrarily in texture extraction, history update,
temporal analysis, and stability produce identical output), no emitted
verdict carries a `temporal_verdict`, `temporal_confidence`, or
`quality_score` field, and none is tagged `rank1_temporal_override` —
even when `enable_temporal_analysis` is true. -/
theorem c4_batch_path_never_temporal {S : Type} (cfg : DetCfg)
    (C C' : Collab S) (expO : ℚ → ℚ)
    (runV2 runV1se : List CropG → Except String (List (ℚ × ℚ × ℚ)))
    (hashO : CropG → CropG → ℤ → String) (now : ℚ) (s : S)
    (cache : CacheMap) (img : ImgDims) (faces : List Face)
    (hwf : CacheWF cache) (hadapt : C.adapt = C'.adapt) :
    (detectFacesBatch cfg C expO runV2 runV1se hashO now s cache img
        faces).2.2 = s ∧
    detectFacesBatch cfg C expO runV2 runV1se hashO now s cache img faces =
      detectFacesBatch cfg C' expO runV2 runV1se hashO now s cache img
        faces ∧
    (∀ r ∈ (detectFacesBatch cfg C expO runV2 runV1se hashO now s cache img
        faces).1,
      r.anti.temporal_verdict = none ∧ r.anti.temporal_confidence = none ∧
      r.anti.quality_score = none ∧
      r.anti.ensemble_method ≠ some "rank1_temporal_override") := by
  rw [detectFacesBatch_eq, detectFacesBatch_eq]
  by_cases hfe : faces.isEmpty
  · rw [if_pos hfe, if_pos hfe]
    exact ⟨rfl, rfl, fun r hr => by simp at hr⟩
  · rw [if_neg hfe, if_neg hfe]
    obtain ⟨-, hget, hstate, -, hcongr, -⟩ :=
      detectAfterScale_spec cfg C C' expO runV2 runV1se hashO now s cache
        (ensureScaleSeparation img faces).1
        (ensureScaleSeparation img faces).2 hwf hadapt
    refine ⟨hstate, hcongr, fun r hr => ?_⟩
    obtain ⟨j, hj⟩ := List.get?_of_mem hr
    obtain ⟨-, -, hok⟩ := hget j r hj
    exact ⟨hok.2.1, hok.2.2.1, hok.2.2.2.1, hok.2.2.2.2⟩

/-- C2 witness: one concrete detection through the concrete pipeline —
the empty cache is well-formed, the output has length 1, and every
output slot is index/face aligned. -/
theorem c2_order_length_invariant_witness :
    CacheWF ([] : CacheMap) ∧
    ((detectFacesBatch witCfg witCollab witExp witRun witRun witHash 0 ()
        [] ⟨480, 640⟩ [witFaceB]).1.length = 1 ∧
     (∀ j r, ((detectFacesBatch witCfg witCollab witExp witRun witRun
         witHash 0 () [] ⟨480, 640⟩ [witFaceB]).1).get? j = some r →
       r.face_id = j ∧
       ((ensureScaleSeparation ⟨480, 640⟩ [witFaceB]).2).get? j =
         some r.face)) :=
  ⟨fun p hp => absurd hp (List.not_mem_nil p),
   c2_order_length_invariant witCfg witCollab witExp witRun witRun witHash
     0 () [] ⟨480, 640⟩ [witFaceB]
     (fun p hp => absurd hp (List.not_mem_nil p))⟩

/-- C1 witness: the fail-closed property and the chunk-mismatch clause
at the concrete instance, with the empty-cache hypothesis discharged. -/
theorem c1_fail_closed_witness :
    CacheWF ([] : CacheMap) ∧
    ((∀ r ∈ (detectFacesBatch witCfg witCollab witExp witRun witRun witHash
        0 () [] ⟨480, 640⟩ [witFaceB]).1,
      (r.anti.status = "real" ∨ r.anti.status = "fake") ∨
      (r.anti.is_real = false ∧
        (r.anti.status = "invalid_bbox" ∨ r.anti.status = "too_small" ∨
         r.anti.status = "processing_failed" ∨ r.anti.status = "error"))) ∧
     (∀ c ∈ chunkList witCfg.max_batch_size
        (detectPending witCfg witHash 0 [] ⟨480, 640⟩ [witFaceB]),
      batchResultCount witExp witRun witRun (c.map (·.cropV2))
        (c.map (·.cropV1se)) ≠ c.length →
      ∀ p ∈ c, ∃ r,
        ((detectFacesBatch witCfg witCollab witExp witRun witRun witHash 0
          () [] ⟨480, 640⟩ [witFaceB]).1).get? p.index = some r ∧
        r.anti.status = "processing_failed" ∧ r.anti.is_real = false)) :=
  ⟨fun p hp => absurd hp (List.not_mem_nil p),
   c1_fail_closed witCfg witCollab witExp witRun witRun witHash 0 () []
     ⟨480, 640⟩ [witFaceB] (fun p hp => absurd hp (List.not_mem_nil p))⟩

/-- C4 witness: at the concrete instance (temporal analysis enabled, two
collaborators sharing only `adapt`) the state is returned untouched, the
outputs coincide, and no output carries temporal/quality fields or the
override tag. -/
theorem c4_batch_path_never_temporal_witness :
    CacheWF ([] : CacheMap) ∧ witCollab.adapt = witCollabB.adapt ∧
    ((detectFacesBatch witCfg witCollab witExp witRun witRun witHash 0 ()
        [] ⟨480, 640⟩ [witFaceB]).2.2 = () ∧
     detectFacesBatch witCfg witCollab witExp witRun witRun witHash 0 ()
        [] ⟨480, 640⟩ [witFaceB] =
       detectFacesBatch witCfg witCollabB witExp witRun witRun witHash 0 ()
        [] ⟨480, 640⟩ [witFaceB] ∧
     (∀ r ∈ (detectFacesBatch witCfg witCollab witExp witRun witRun witHash
        0 () [] ⟨480, 640⟩ [witFaceB]).1,
       r.anti.temporal_verdict = none ∧ r.anti.temporal_confidence = none ∧
       r.anti.quality_score = none ∧
       r.anti.ensemble_method ≠ some "rank1_temporal_override")) :=
  ⟨fun p hp => absurd hp (List.not_mem_nil p), rfl,
   c4_batch_path_never_temporal witCfg witCollab witCollabB witExp witRun
     witRun witHash 0 () [] ⟨480, 640⟩ [witFaceB]
     (fun p hp => absurd hp (List.not_mem_nil p)) rfl⟩

/-- One-step unfolding of an entry-list copy. -/
theorem deepCopyEntries_nil (fuel : ℕ) (h : Heap) :
    deepCopyEntries fuel h [] = some (h, []) := rfl

/-- One-step unfolding of an entry-list copy. -/
theorem deepCopyEntries_cons (fuel : ℕ) (h : Heap) (k : String) (v : HVal)
    (rest : List (String × HVal)) :
    deepCopyEntries fuel h ((k, v) :: rest) =
      match deepCopyV fuel h v with
      | none => none
      | some (h', v') =>
        match deepCopyEntries fuel h' rest with
        | none => none
        | some (h'', rest') => some (h'', (k, v') :: rest') := rfl

/-- One-step unfolding of an item-list copy. -/
theorem deepCopyItems_nil (fuel : ℕ) (h : Heap) :
    deepCopyItems fuel h [] = some (h, []) := rfl

/-- One-step unfolding of an item-list copy. -/
theorem deepCopyItems_cons (fuel : ℕ) (h : Heap) (v : HVal)
    (rest : List HVal) :
    deepCopyItems fuel h (v :: rest) =
      match deepCopyV fuel h v with
      | none => none
      | some (h', v') =>
        match deepCopyItems fuel h' rest with
        | none => none
        | some (h'', rest') => some (h'', v' :: rest') := rfl

/-- One-step unfolding of a reference copy. -/
theorem deepCopyV_ref (fuel : ℕ) (h : Heap) (a : ℕ) :
    deepCopyV (fuel + 1) h (HVal.ref a) =
      match hGet h a with
      | none => none
      | some (.dict es) =>
        match deepCopyEntries fuel h es with
        | none => none
        | some (h', es') =>
          some ((hAlloc h' (.dict es')).1,
            HVal.ref (hAlloc h' (.dict es')).2)
      | some (.arr xs) =>
        match deepCopyItems fuel h xs with
        | none => none
        | some (h', xs') =>
          some ((hAlloc h' (.arr xs')).1,
            HVal.ref (hAlloc h' (.arr xs')).2) := rfl

/-- A successful address lookup is a membership. -/
theorem hFind_mem : ∀ (l : List (ℕ × HObj)) (a : ℕ) (o : HObj),
    hFind l a = some o → (a, o) ∈ l := by
  intro l
  induction l with
  | nil => intro a o h; simp [hFind] at h
  | cons p rest ih =>
    intro a o h
    obtain ⟨b, o0⟩ := p
    simp only [hFind] at h
    by_cases hb : b = a
    · rw [if_pos hb] at h
      cases h
      subst hb
      exact List.mem_cons_self _ _
    · rw [if_neg hb] at h
      exact List.mem_cons_of_mem _ (ih a o h)

/-- In a bounded heap a live address and the addresses its object
references lie below the frontier. -/
theorem hGet_lt (h : Heap) (a : ℕ) (o : HObj) (hb : HeapBounded h)
    (hg : hGet h a = some o) :
    a < h.next ∧ ∀ c ∈ objRefs o, c < h.next :=
  hb (a, o) (hFind_mem h.objs a o hg)

/-- Dereferencing a fresh allocation. -/
theorem hGet_hAlloc_same (h : Heap) (o : HObj) :
    hGet (hAlloc h o).1 h.next = some o := by
  simp [hGet, hAlloc, hFind]

/-- Allocation does not touch other addresses. -/
theorem hGet_hAlloc_other (h : Heap) (o : HObj) (a : ℕ) (ha : a ≠ h.next) :
    hGet (hAlloc h o).1 a = hGet h a := by
  simp only [hGet, hAlloc, hFind]
  rw [if_neg (fun hx => ha hx.symm)]

/-- Allocating an object whose references stay below the frontier keeps
the heap bounded. -/
theorem HeapBounded_hAlloc (h : Heap) (o : HObj) (hb : HeapBounded h)
    (ho : ∀ c ∈ objRefs o, c < h.next) :
    HeapBounded (hAlloc h o).1 := by
  intro p hp
  rcases List.mem_cons.mp hp with hp | hp
  · subst hp
    exact ⟨Nat.lt_succ_self _, fun c hc => Nat.lt_succ_of_lt (ho c hc)⟩
  · obtain ⟨h1, h2⟩ := hb p hp
    exact ⟨Nat.lt_succ_of_lt h1, fun c hc => Nat.lt_succ_of_lt (h2 c hc)⟩

/-- A bounded heap extends itself. -/
theorem copyExtends_refl (h : Heap) (hb : HeapBounded h) :
    CopyExtends h h :=
  ⟨le_rfl, hb, fun _ _ => rfl⟩

/-- Extension composes. -/
theorem copyExtends_trans (h1 h2 h3 : Heap) (h12 : CopyExtends h1 h2)
    (h23 : CopyExtends h2 h3) : CopyExtends h1 h3 := by
  obtain ⟨hle12, -, hpres12⟩ := h12
  obtain ⟨hle23, hb3, hpres23⟩ := h23
  refine ⟨le_trans hle12 hle23, hb3, fun b hb => ?_⟩
  rw [hpres23 b (lt_of_lt_of_le hb hle12), hpres12 b hb]

/-- First-step decomposition of reachability from a live address. -/
theorem reach_decomp (h : Heap) (r : ℕ) (o : HObj)
    (hr : hGet h r = some o) :
    ∀ c, Reach h r c → c = r ∨ ∃ a ∈ objRefs o, Reach h a c := by
  intro c hc
  induction hc with
  | refl => exact Or.inl rfl
  | step b c2 o2 hab hget hmem ih =>
    rcases ih with hbr | ⟨a2, hmem2, hreach⟩
    · subst hbr
      rw [hr] at hget
      cases hget
      exact Or.inr ⟨c2, hmem, Reach.refl⟩
    · exact Or.inr ⟨a2, hmem2, Reach.step _ _ _ hreach hget hmem⟩

/-- In a bounded heap everything reachable is the start or lies below
the frontier. -/
theorem reach_bound (h : Heap) (hb : HeapBounded h) :
    ∀ a c, Reach h a c → c = a ∨ c < h.next := by
  intro a c hc
  induction hc with
  | refl => exact Or.inl rfl
  | step b c2 o hab hget hmem ih =>
    exact Or.inr ((hGet_lt h b o hb hget).2 c2 hmem)

/-- Reachable-set bounds transport along extensions that preserve all
addresses below the bound. -/
theorem segReach_transport (h h' : Heap) (a lo hi : ℕ)
    (hpres : ∀ b, b < hi → hGet h' b = hGet h b)
    (hsr : ∀ c, Reach h a c → lo ≤ c ∧ c < hi) :
    ∀ c, Reach h' a c → lo ≤ c ∧ c < hi := by
  have main : ∀ c, Reach h' a c → (lo ≤ c ∧ c < hi) ∧ Reach h a c := by
    intro c hc
    induction hc with
    | refl => exact ⟨hsr a Reach.refl, Reach.refl⟩
    | step b c2 o hab hget hmem ih =>
      obtain ⟨⟨-, hblt⟩, hreach⟩ := ih
      rw [hpres b hblt] at hget
      have hr2 : Reach h a c2 := Reach.step _ _ _ hreach hget hmem
      exact ⟨hsr c2 hr2, hr2⟩
  exact fun c hc => (main c hc).1

/-- Freshness transports along later extensions. -/
theorem freshReach_mono (h h1 h2 : Heap) (v : HVal)
    (hfr : FreshReach h h1 v) (h12 : CopyExtends h1 h2) :
    FreshReach h h2 v := by
  intro a ha
  obtain ⟨hle, hseg⟩ := hfr a ha
  obtain ⟨hle12, -, hpres⟩ := h12
  have halt : a < h1.next := (hseg a Reach.refl).2
  refine ⟨hle, fun c hc => ?_⟩
  have := segReach_transport h1 h2 a h.next h1.next
    (fun b hb => hpres b hb) hseg c hc
  exact ⟨this.1, lt_of_lt_of_le this.2 hle12⟩

/-- Freshness weakens to an earlier frontier. -/
theorem freshReach_weaken (h h' h'' : Heap) (v : HVal)
    (hle : h.next ≤ h'.next) (hfr : FreshReach h' h'' v) :
    FreshReach h h'' v := by
  intro a ha
  obtain ⟨hle2, hseg⟩ := hfr a ha
  exact ⟨le_trans hle hle2, fun c hc =>
    ⟨le_trans hle (hseg c hc).1, (hseg c hc).2⟩⟩

/-- A scalar is trivially fresh. -/
theorem freshReach_scalar (h h' : Heap) (v : HVal)
    (hv : ∀ a, v ≠ HVal.ref a) : FreshReach h h' v :=
  fun a ha => absurd ha (hv a)

/-- Allocating an object all of whose referenced values are fresh
extends the heap and yields a fresh reference. -/
theorem alloc_freshReach (h0 h : Heap) (o : HObj)
    (hb : HeapBounded h) (hle : h0.next ≤ h.next)
    (hchild : ∀ a ∈ objRefs o, FreshReach h0 h (HVal.ref a)) :
    CopyExtends h (hAlloc h o).1 ∧
    FreshReach h0 (hAlloc h o).1 (HVal.ref (hAlloc h o).2) := by
  have hrefs : ∀ c ∈ objRefs o, c < h.next := fun c hc =>
    ((hchild c hc c rfl).2 c Reach.refl).2
  have hext : CopyExtends h (hAlloc h o).1 :=
    ⟨Nat.le_succ _, HeapBounded_hAlloc h o hb hrefs,
     fun b hblt => hGet_hAlloc_other h o b (Nat.ne_of_lt hblt)⟩
  refine ⟨hext, fun a ha => ?_⟩
  have ha2 : a = h.next := by
    injection ha with h5
    exact h5.symm
  subst ha2
  refine ⟨hle, fun c hc => ?_⟩
  rcases reach_decomp (hAlloc h o).1 h.next o (hGet_hAlloc_same h o) c hc
    with hcr | ⟨a2, hmem, hreach⟩
  · subst hcr
    exact ⟨hle, Nat.lt_succ_self _⟩
  · obtain ⟨hle2, hseg⟩ := hchild a2 hmem a2 rfl
    have := segReach_transport h (hAlloc h o).1 a2 h0.next h.next
      (fun b hblt => hGet_hAlloc_other h o b (Nat.ne_of_lt hblt)) hseg c hreach
    exact ⟨this.1, Nat.lt_succ_of_lt this.2⟩

/-- A dict's referenced address comes from some entry. -/
theorem objRefs_dict_mem (es : List (String × HVal)) (a : ℕ)
    (ha : a ∈ objRefs (HObj.dict es)) : ∃ kv ∈ es, kv.2 = HVal.ref a := by
  simp only [objRefs] at ha
  obtain ⟨kv, hkv, hmatch⟩ := List.mem_filterMap.mp ha
  refine ⟨kv, hkv, ?_⟩
  cases hv : kv.2 with
  | ref b => rw [hv] at hmatch; simp at hmatch; rw [hmatch]
  | num q => rw [hv] at hmatch; simp at hmatch
  | str s => rw [hv] at hmatch; simp at hmatch
  | nil => rw [hv] at hmatch; simp at hmatch
  | bool b => rw [hv] at hmatch; simp at hmatch

/-- A list's referenced address comes from some item. -/
theorem objRefs_arr_mem (xs : List HVal) (a : ℕ)
    (ha : a ∈ objRefs (HObj.arr xs)) : HVal.ref a ∈ xs := by
  simp only [objRefs] at ha
  obtain ⟨v, hv, hmatch⟩ := List.mem_filterMap.mp ha
  cases hveq : v with
  | ref b => rw [hveq] at hmatch; simp at hmatch; rw [← hmatch]; rw [hveq] at hv; exact hv
  | num q => rw [hveq] at hmatch; simp at hmatch
  | str s => rw [hveq] at hmatch; simp at hmatch
  | nil => rw [hveq] at hmatch; simp at hmatch
  | bool b => rw [hveq] at hmatch; simp at hmatch

/-- Copying a scalar is a no-op with a trivially fresh result. -/
theorem copy_scalar_case (h : Heap) (hb : HeapBounded h) (v : HVal)
    (hv : ∀ a, v ≠ HVal.ref a) : CopyExtends h h ∧ FreshReach h h v :=
  ⟨copyExtends_refl h hb, freshReach_scalar h h v hv⟩

/-- Entry-list copies satisfy the extension/freshness spec whenever
value copies at the same fuel do. -/
theorem deepCopyEntries_spec_of (fuel : ℕ) (hV : VSpec fuel) :
    ∀ (es : List (String × HVal)) (h : Heap) (h' : Heap)
      (es' : List (String × HVal)),
    deepCopyEntries fuel h es = some (h', es') → HeapBounded h →
    CopyExtends h h' ∧ ∀ kv ∈ es', FreshReach h h' kv.2 := by
  intro es
  induction es with
  | nil =>
    intro h h' es' heq hb
    rw [deepCopyEntries_nil] at heq
    injection heq with h5
    injection h5 with h6 h7
    subst h6
    subst h7
    exact ⟨copyExtends_refl h hb, fun kv hkv => by simp at hkv⟩
  | cons kv rest ih =>
    intro h h' es' heq hb
    obtain ⟨k, v⟩ := kv
    rw [deepCopyEntries_cons] at heq
    cases hcv : deepCopyV fuel h v with
    | none => simp only [hcv] at heq; exact Option.noConfusion heq
    | some p =>
      obtain ⟨h1, v'⟩ := p
      simp only [hcv] at heq
      cases hce : deepCopyEntries fuel h1 rest with
      | none => simp only [hce] at heq; exact Option.noConfusion heq
      | some q =>
        obtain ⟨h2, rest'⟩ := q
        simp only [hce] at heq
        injection heq with h5
        injection h5 with h6 h7
        subst h6
        subst h7
        obtain ⟨hextV, hfrV⟩ := hV h v h1 v' hcv hb
        obtain ⟨hextE, hfrE⟩ := ih h1 h2 rest' hce hextV.2.1
        refine ⟨copyExtends_trans _ _ _ hextV hextE, ?_⟩
        intro kv2 hkv2
        rcases List.mem_cons.mp hkv2 with h8 | h8
        · subst h8
          exact freshReach_mono h h1 h2 v' hfrV hextE
        · exact freshReach_weaken h h1 h2 kv2.2 hextV.1 (hfrE kv2 h8)

/-- Item-list copies satisfy the extension/freshness spec whenever value
copies at the same fuel do. -/
theorem deepCopyItems_spec_of (fuel : ℕ) (hV : VSpec fuel) :
    ∀ (xs : List HVal) (h : Heap) (h' : Heap) (xs' : List HVal),
    deepCopyItems fuel h xs = some (h', xs') → HeapBounded h →
    CopyExtends h h' ∧ ∀ v ∈ xs', FreshReach h h' v := by
  intro xs
  induction xs with
  | nil =>
    intro h h' xs' heq hb
    rw [deepCopyItems_nil] at heq
    injection heq with h5
    injection h5 with h6 h7
    subst h6
    subst h7
    exact ⟨copyExtends_refl h hb, fun v hv => by simp at hv⟩
  | cons v rest ih =>
    intro h h' xs' heq hb
    rw [deepCopyItems_cons] at heq
    cases hcv : deepCopyV fuel h v with
    | none => simp only [hcv] at heq; exact Option.noConfusion heq
    | some p =>
      obtain ⟨h1, vc⟩ := p
      simp only [hcv] at heq
      cases hce : deepCopyItems fuel h1 rest with
      | none => simp only [hce] at heq; exact Option.noConfusion heq
      | some q =>
        obtain ⟨h2, rest'⟩ := q
        simp only [hce] at heq
        injection heq with h5
        injection h5 with h6 h7
        subst h6
        subst h7
        obtain ⟨hextV, hfrV⟩ := hV h v h1 vc hcv hb
        obtain ⟨hextE, hfrE⟩ := ih h1 h2 rest' hce hextV.2.1
        refine ⟨copyExtends_trans _ _ _ hextV hextE, ?_⟩
        intro v2 hv2
        rcases List.mem_cons.mp hv2 with h8 | h8
        · subst h8
          exact freshReach_mono h h1 h2 v2 hfrV hextE
        · exact freshReach_weaken h h1 h2 v2 hextV.1 (hfrE v2 h8)

/-- `copy.deepcopy` extends the heap and produces an entirely fresh
value, at every fuel. -/
theorem deepCopyV_spec : ∀ fuel, VSpec fuel := by
  intro fuel
  induction fuel with
  | zero =>
    intro h v h' v' heq hb
    cases v with
    | num q =>
      simp only [deepCopyV] at heq
      injection heq with h5
      injection h5 with h6 h7
      subst h6
      subst h7
      exact copy_scalar_case h hb _ (fun a h8 => by simp at h8)
    | str s =>
      simp only [deepCopyV] at heq
      injection heq with h5
      injection h5 with h6 h7
      subst h6
      subst h7
      exact copy_scalar_case h hb _ (fun a h8 => by simp at h8)
    | nil =>
      simp only [deepCopyV] at heq
      injection heq with h5
      injection h5 with h6 h7
      subst h6
      subst h7
      exact copy_scalar_case h hb _ (fun a h8 => by simp at h8)
    | bool b =>
      simp only [deepCopyV] at heq
      injection heq with h5
      injection h5 with h6 h7
      subst h6
      subst h7
      exact copy_scalar_case h hb _ (fun a h8 => by simp at h8)
    | ref a => simp [deepCopyV] at heq
  | succ n ih =>
    intro h v h' v' heq hb
    cases v with
    | num q =>
      simp only [deepCopyV] at heq
      injection heq with h5
      injection h5 with h6 h7
      subst h6
      subst h7
      exact copy_scalar_case h hb _ (fun a h8 => by simp at h8)
    | str s =>
      simp only [deepCopyV] at heq
      injection heq with h5
      injection h5 with h6 h7
      subst h6
      subst h7
      exact copy_scalar_case h hb _ (fun a h8 => by simp at h8)
    | nil =>
      simp only [deepCopyV] at heq
      injection heq with h5
      injection h5 with h6 h7
      subst h6
      subst h7
      exact copy_scalar_case h hb _ (fun a h8 => by simp at h8)
    | bool b =>
      simp only [deepCopyV] at heq
      injection heq with h5
      injection h5 with h6 h7
      subst h6
      subst h7
      exact copy_scalar_case h hb _ (fun a h8 => by simp at h8)
    | ref a =>
      rw [deepCopyV_ref] at heq
      cases hga : hGet h a with
      | none => simp only [hga] at heq; exact Option.noConfusion heq
      | some o =>
        cases o with
        | dict es =>
          simp only [hga] at heq
          cases hce : deepCopyEntries n h es with
          | none => simp only [hce] at heq; exact Option.noConfusion heq
          | some p =>
            obtain ⟨h1, es'⟩ := p
            simp only [hce] at heq
            injection heq with h5
            injection h5 with h6 h7
            subst h6
            subst h7
            obtain ⟨hextE, hfrE⟩ :=
              deepCopyEntries_spec_of n ih es h h1 es' hce hb
            have hchild : ∀ a2 ∈ objRefs (HObj.dict es'),
                FreshReach h h1 (HVal.ref a2) := by
              intro a2 ha2
              obtain ⟨kv, hkv, hkv2⟩ := objRefs_dict_mem es' a2 ha2
              have h9 := hfrE kv hkv
              rw [hkv2] at h9
              exact h9
            obtain ⟨hext2, hfr2⟩ :=
              alloc_freshReach h h1 (HObj.dict es') hextE.2.1 hextE.1 hchild
            exact ⟨copyExtends_trans _ _ _ hextE hext2, hfr2⟩
        | arr xs =>
          simp only [hga] at heq
          cases hce : deepCopyItems n h xs with
          | none => simp only [hce] at heq; exact Option.noConfusion heq
          | some p =>
            obtain ⟨h1, xs'⟩ := p
            simp only [hce] at heq
            injection heq with h5
            injection h5 with h6 h7
            subst h6
            subst h7
            obtain ⟨hextE, hfrE⟩ :=
              deepCopyItems_spec_of n ih xs h h1 xs' hce hb
            have hchild : ∀ a2 ∈ objRefs (HObj.arr xs'),
                FreshReach h h1 (HVal.ref a2) := by
              intro a2 ha2
              exact hfrE (HVal.ref a2) (objRefs_arr_mem xs' a2 ha2)
            obtain ⟨hext2, hfr2⟩ :=
              alloc_freshReach h h1 (HObj.arr xs') hextE.2.1 hextE.1 hchild
            exact ⟨copyExtends_trans _ _ _ hextE hext2, hfr2⟩

/-- `_clone_bbox` on a flat bbox extends the heap and yields a fresh
value. -/
theorem cloneBBox_spec (h : Heap) (bbox : Option HVal)
    (hb : HeapBounded h) (hflat : flatBBoxB h bbox = true) :
    CopyExtends h (cloneBBox h bbox).1 ∧
    ∀ v, (cloneBBox h bbox).2 = some v →
      FreshReach h (cloneBBox h bbox).1 v := by
  cases bbox with
  | none =>
    exact ⟨copyExtends_refl h hb, fun v hv => by simp [cloneBBox] at hv⟩
  | some v0 =>
    cases v0 with
    | ref a =>
      simp only [flatBBoxB] at hflat
      cases hga : hGet h a with
      | none => rw [hga] at hflat; simp at hflat
      | some o =>
        rw [hga] at hflat
        have hrefs : objRefs o = [] := by simpa using hflat
        cases o with
        | dict es =>
          have hcb : cloneBBox h (some (HVal.ref a)) =
              ((hAlloc h (HObj.dict es)).1,
               some (HVal.ref (hAlloc h (HObj.dict es)).2)) := by
            simp [cloneBBox, hga]
          rw [hcb]
          obtain ⟨hext, hfr⟩ := alloc_freshReach h h (HObj.dict es) hb le_rfl
            (fun a2 ha2 => by rw [hrefs] at ha2; simp at ha2)
          refine ⟨hext, fun v hv => ?_⟩
          injection hv with h5
          rw [← h5]
          exact hfr
        | arr xs =>
          have hcb : cloneBBox h (some (HVal.ref a)) =
              ((hAlloc h (HObj.arr xs)).1,
               some (HVal.ref (hAlloc h (HObj.arr xs)).2)) := by
            simp [cloneBBox, hga]
          rw [hcb]
          obtain ⟨hext, hfr⟩ := alloc_freshReach h h (HObj.arr xs) hb le_rfl
            (fun a2 ha2 => by rw [hrefs] at ha2; simp at ha2)
          refine ⟨hext, fun v hv => ?_⟩
          injection hv with h5
          rw [← h5]
          exact hfr
    | num q =>
      exact ⟨copyExtends_refl h hb, fun v hv => by
        injection hv with h5
        rw [← h5]
        exact freshReach_scalar h h _ (fun a h6 => by simp at h6)⟩
    | str s =>
      exact ⟨copyExtends_refl h hb, fun v hv => by
        injection hv with h5
        rw [← h5]
        exact freshReach_scalar h h _ (fun a h6 => by simp at h6)⟩
    | nil =>
      exact ⟨copyExtends_refl h hb, fun v hv => by
        injection hv with h5
        rw [← h5]
        exact freshReach_scalar h h _ (fun a h6 => by simp at h6)⟩
    | bool b =>
      exact ⟨copyExtends_refl h hb, fun v hv => by
        injection hv with h5
        rw [← h5]
        exact freshReach_scalar h h _ (fun a h6 => by simp at h6)⟩

/-- Flatness of a bbox is preserved by heap extension. -/
theorem flatBBox_mono (h h' : Heap) (bbox : Option HVal)
    (hb : HeapBounded h) (hext : CopyExtends h h')
    (hflat : flatBBoxB h bbox = true) : flatBBoxB h' bbox = true := by
  cases bbox with
  | none => rfl
  | some v =>
    cases v with
    | ref a =>
      simp only [flatBBoxB] at hflat ⊢
      cases hga : hGet h a with
      | none => rw [hga] at hflat; simp at hflat
      | some o =>
        have halt : a < h.next := (hGet_lt h a o hb hga).1
        rw [hext.2.2 a halt, hga]
        rw [hga] at hflat
        exact hflat
    | num q => rfl
    | str s => rfl
    | nil => rfl
    | bool b => rfl

/-- The metadata loop extends the heap; every produced entry is either
one of the seed entries or fresh. -/
theorem addMeta_spec (fuel : ℕ) :
    ∀ (fes : List (String × HVal)) (h : Heap) (acc : List (String × HVal))
      (h' : Heap) (acc' : List (String × HVal)),
    addMeta fuel h acc fes = some (h', acc') → HeapBounded h →
    CopyExtends h h' ∧ ∀ kv ∈ acc', kv ∈ acc ∨ FreshReach h h' kv.2 := by
  intro fes
  induction fes with
  | nil =>
    intro h acc h' acc' heq hb
    simp only [addMeta] at heq
    injection heq with h5
    injection h5 with h6 h7
    subst h6
    subst h7
    exact ⟨copyExtends_refl h hb, fun kv hkv => Or.inl hkv⟩
  | cons kv0 rest ih =>
    intro h acc h' acc' heq hb
    obtain ⟨k, v⟩ := kv0
    simp only [addMeta] at heq
    by_cases hmem : (acc.map Prod.fst).contains k = true
    · rw [if_pos hmem] at heq
      exact ih h acc h' acc' heq hb
    · rw [if_neg hmem] at heq
      cases hcv : deepCopyV fuel h v with
      | none => simp only [hcv] at heq; exact Option.noConfusion heq
      | some p =>
        obtain ⟨h1, v'⟩ := p
        simp only [hcv] at heq
        obtain ⟨hextV, hfrV⟩ := deepCopyV_spec fuel h v h1 v' hcv hb
        obtain ⟨hextR, hr⟩ := ih h1 (acc ++ [(k, v')]) h' acc' heq hextV.2.1
        refine ⟨copyExtends_trans _ _ _ hextV hextR, ?_⟩
        intro kv2 hkv2
        rcases hr kv2 hkv2 with h8 | h8
        · rcases List.mem_append.mp h8 with h9 | h9
          · exact Or.inl h9
          · have h10 : kv2 = (k, v') := by simpa using h9
            subst h10
            exact Or.inr (freshReach_mono h h1 h' v' hfrV hextR)
        · exact Or.inr (freshReach_weaken h h1 h' kv2.2 hextV.1 h8)

/-- `_format_result` extends the heap and the produced result dict is
entirely fresh, provided the bbox is flat (absent, scalar, or a
reference-free dict/list). -/
theorem formatResultH_spec (fuel : ℕ) (h : Heap) (i : ℕ)
    (faceEs : List (String × HVal)) (bbox : Option HVal)
    (antiEs : List (String × HVal)) (h' : Heap) (r : ℕ)
    (heq : formatResultH fuel h i faceEs bbox antiEs = some (h', r))
    (hb : HeapBounded h) (hflat : flatBBoxB h bbox = true) :
    CopyExtends h h' ∧ h.next ≤ r ∧
    ∀ c, Reach h' r c → h.next ≤ c ∧ c < h'.next := by
  obtain ⟨hextC, hfrC⟩ := cloneBBox_spec h bbox hb hflat
  simp only [formatResultH] at heq
  cases hce : deepCopyEntries fuel (cloneBBox h bbox).1 antiEs with
  | none => simp only [hce] at heq; exact Option.noConfusion heq
  | some p =>
    obtain ⟨h1, antiEs'⟩ := p
    simp only [hce] at heq
    obtain ⟨hextA, hfrA⟩ := deepCopyEntries_spec_of fuel (deepCopyV_spec fuel)
      antiEs (cloneBBox h bbox).1 h1 antiEs' hce hextC.2.1
    have hchildA : ∀ a2 ∈ objRefs (HObj.dict antiEs'),
        FreshReach (cloneBBox h bbox).1 h1 (HVal.ref a2) := by
      intro a2 ha2
      obtain ⟨kv, hkv, hkv2⟩ := objRefs_dict_mem antiEs' a2 ha2
      have h9 := hfrA kv hkv
      rw [hkv2] at h9
      exact h9
    obtain ⟨hextAl, hfrAl⟩ := alloc_freshReach (cloneBBox h bbox).1 h1
      (HObj.dict antiEs') hextA.2.1 hextA.1 hchildA
    cases ham : addMeta fuel (hAlloc h1 (HObj.dict antiEs')).1
        [("face_id", HVal.num (i : ℚ)),
         ("bbox", (cloneBBox h bbox).2.getD HVal.nil),
         ("antispoofing", HVal.ref (hAlloc h1 (HObj.dict antiEs')).2)]
        faceEs with
    | none => simp only [ham] at heq; exact Option.noConfusion heq
    | some q =>
      obtain ⟨h3, es⟩ := q
      simp only [ham] at heq
      injection heq with h5
      injection h5 with h6 h7
      subst h6
      subst h7
      obtain ⟨hextM, hrM⟩ := addMeta_spec fuel faceEs _ _ h3 es ham hextAl.2.1
      have hcb3 : CopyExtends (cloneBBox h bbox).1 h3 :=
        copyExtends_trans _ _ _ hextA (copyExtends_trans _ _ _ hextAl hextM)
      have hSext : CopyExtends h h3 := copyExtends_trans _ _ _ hextC hcb3
      have hchildR : ∀ a2 ∈ objRefs (HObj.dict es),
          FreshReach h h3 (HVal.ref a2) := by
        intro a2 ha2
        obtain ⟨kv, hkv, hkv2⟩ := objRefs_dict_mem es a2 ha2
        rcases hrM kv hkv with hbase | hfr
        · rcases List.mem_cons.mp hbase with h8 | h8
          · subst h8
            simp at hkv2
          · rcases List.mem_cons.mp h8 with h9 | h9
            · subst h9
              cases hcb2 : (cloneBBox h bbox).2 with
              | none =>
                rw [hcb2] at hkv2
                simp at hkv2
              | some v =>
                rw [hcb2] at hkv2
                simp only [Option.getD_some] at hkv2
                have h10 := hfrC v hcb2
                rw [hkv2] at h10
                exact freshReach_mono h (cloneBBox h bbox).1 h3 _ h10 hcb3
            · rcases List.mem_cons.mp h9 with h10 | h10
              · subst h10
                have h11 : a2 = (hAlloc h1 (HObj.dict antiEs')).2 := by
                  injection hkv2.symm with h12
                subst h11
                exact freshReach_mono h (hAlloc h1 (HObj.dict antiEs')).1 h3 _
                  (freshReach_weaken h (cloneBBox h bbox).1 _ _ hextC.1 hfrAl)
                  hextM
              · simp at h10
        · have h12 : h.next ≤ (hAlloc h1 (HObj.dict antiEs')).1.next :=
            le_trans hextC.1 (le_trans hextA.1 hextAl.1)
          have h13 := freshReach_weaken h _ h3 kv.2 h12 hfr
          rw [hkv2] at h13
          exact h13
      obtain ⟨hextF, hfrF⟩ := alloc_freshReach h h3 (HObj.dict es)
        hextM.2.1 hSext.1 hchildR
      exact ⟨copyExtends_trans _ _ _ hSext hextF, (hfrF _ rfl).1,
        fun c hc => (hfrF _ rfl).2 c hc⟩

/-- Segment layout implies the window is ordered. -/
theorem segsOK_le (h' : Heap) :
    ∀ (rs : List ℕ) (lo hi : ℕ), SegsOK h' lo hi rs → lo ≤ hi := by
  intro rs
  induction rs with
  | nil => intro lo hi hs; exact hs
  | cons r rest ih =>
    intro lo hi hs
    obtain ⟨mid, hle, -, hrest⟩ := hs
    exact le_trans hle (ih mid hi hrest)

/-- Every listed result's reachable set lies inside the window. -/
theorem segsOK_bounds (h' : Heap) :
    ∀ (rs : List ℕ) (lo hi : ℕ), SegsOK h' lo hi rs →
    ∀ k r, rs.get? k = some r → ∀ c, Reach h' r c → lo ≤ c ∧ c < hi := by
  intro rs
  induction rs with
  | nil => intro lo hi _ k r hk; simp at hk
  | cons r0 rest ih =>
    intro lo hi hs k r hk c hc
    obtain ⟨mid, hle, hseg, hrest⟩ := hs
    cases k with
    | zero =>
      simp only [List.get?] at hk
      cases hk
      obtain ⟨h1, h2⟩ := hseg c hc
      exact ⟨h1, lt_of_lt_of_le h2 (segsOK_le h' rest mid hi hrest)⟩
    | succ k =>
      simp only [List.get?] at hk
      obtain ⟨h1, h2⟩ := ih mid hi hrest k r hk c hc
      exact ⟨le_trans hle h1, h2⟩

/-- Distinct listed results reach no common address. -/
theorem segsOK_disjoint (h' : Heap) :
    ∀ (rs : List ℕ) (lo hi : ℕ), SegsOK h' lo hi rs →
    ∀ i j ri rj, i < j → rs.get? i = some ri → rs.get? j = some rj →
    ∀ c, Reach h' ri c → Reach h' rj c → False := by
  intro rs
  induction rs with
  | nil => intro lo hi _ i j ri rj _ hgi; simp at hgi
  | cons r0 rest ih =>
    intro lo hi hs i j ri rj hij hgi hgj c hci hcj
    obtain ⟨mid, hle, hseg, hrest⟩ := hs
    cases i with
    | zero =>
      simp only [List.get?] at hgi
      cases hgi
      cases j with
      | zero => omega
      | succ j =>
        simp only [List.get?] at hgj
        have h1 := (hseg c hci).2
        have h2 := (segsOK_bounds h' rest mid hi hrest j rj hgj c hcj).1
        omega
    | succ i =>
      cases j with
      | zero => omega
      | succ j =>
        simp only [List.get?] at hgi hgj
        exact ih mid hi hrest i j ri rj (by omega) hgi hgj c hci hcj

/-- Formatting a batch with flat bboxes lays the results out in
consecutive fresh segments. -/
theorem formatBatchH_spec (fuel : ℕ) :
    ∀ (inputs : List FmtIn) (h : Heap) (h' : Heap) (rs : List ℕ),
    formatBatchH fuel h inputs = some (h', rs) → HeapBounded h →
    (∀ inp ∈ inputs, flatBBoxB h inp.bbox = true) →
    CopyExtends h h' ∧ SegsOK h' h.next h'.next rs := by
  intro inputs
  induction inputs with
  | nil =>
    intro h h' rs heq hb _
    simp only [formatBatchH] at heq
    injection heq with h5
    injection h5 with h6 h7
    subst h6
    subst h7
    exact ⟨copyExtends_refl h hb, le_rfl⟩
  | cons inp rest ih =>
    intro h h' rs heq hb hflat
    simp only [formatBatchH] at heq
    cases hfr : formatResultH fuel h inp.idx inp.faceEs inp.bbox
        inp.antiEs with
    | none => simp only [hfr] at heq; exact Option.noConfusion heq
    | some p =>
      obtain ⟨h1, r⟩ := p
      simp only [hfr] at heq
      cases hfb : formatBatchH fuel h1 rest with
      | none => simp only [hfb] at heq; exact Option.noConfusion heq
      | some q =>
        obtain ⟨h2, rs'⟩ := q
        simp only [hfb] at heq
        injection heq with h5
        injection h5 with h6 h7
        subst h6
        subst h7
        obtain ⟨hext1, -, hseg1⟩ := formatResultH_spec fuel h inp.idx
          inp.faceEs inp.bbox inp.antiEs h1 r hfr hb
          (hflat inp (List.mem_cons_self _ _))
        obtain ⟨hext2, hsegs⟩ := ih h1 h2 rs' hfb hext1.2.1
          (fun inp2 hinp2 => flatBBox_mono h h1 inp2.bbox hb hext1
            (hflat inp2 (List.mem_cons_of_mem _ hinp2)))
        refine ⟨copyExtends_trans _ _ _ hext1 hext2, h1.next, hext1.1,
          ?_, hsegs⟩
        intro c hc
        exact segReach_transport h1 h2 r h.next h1.next
          (fun b hb2 => hext2.2.2 b hb2) hseg1 c hc

/-- A successful key lookup is a membership. -/
theorem eLookup_mem : ∀ (es : List (String × HVal)) (k : String) (v : HVal),
    eLookup es k = some v → (k, v) ∈ es := by
  intro es
  induction es with
  | nil => intro k v h; simp [eLookup] at h
  | cons kv rest ih =>
    intro k v h
    obtain ⟨k0, v0⟩ := kv
    simp only [eLookup] at h
    by_cases hk : k0 = k
    · rw [if_pos hk] at h
      cases h
      subst hk
      exact List.mem_cons_self _ _
    · rw [if_neg hk] at h
      exact List.mem_cons_of_mem _ (ih k v h)

/-- Following a dict field extends a reachability path. -/
theorem reach_read (h : Heap) (x a b : ℕ) (k : String)
    (hx : Reach h x a) (hr : hReadKey h a k = some (HVal.ref b)) :
    Reach h x b := by
  unfold hReadKey at hr
  cases hg : hGet h a with
  | none => rw [hg] at hr; simp at hr
  | some o =>
    rw [hg] at hr
    cases o with
    | arr xs => simp at hr
    | dict es =>
      refine Reach.step a b _ hx hg ?_
      have hmem : (k, HVal.ref b) ∈ es := eLookup_mem es k _ hr
      simp only [objRefs]
      exact List.mem_filterMap.mpr ⟨(k, HVal.ref b), hmem, rfl⟩

/-- C10 (amended): every batch output is built by `_format_result`,
which deep-copies the antispoofing dict and all face metadata but clones
the bbox only one level deep (`dict(bbox)` / `list(bbox)`); hence, when
every input bbox is flat (absent, a scalar, or a dict/list holding no
nested mutable objects), no two output results of a batch reach a
common heap object, so mutating one output's nested fields cannot
change another output's. -/
theorem c10_amended (fuel : ℕ) (h h' : Heap) (inputs : List FmtIn)
    (rs : List ℕ)
    (hb : HeapBounded h)
    (hflat : ∀ inp ∈ inputs, flatBBoxB h inp.bbox = true)
    (hrun : formatBatchH fuel h inputs = some (h', rs)) :
    ∀ i j ri rj, i < j → rs.get? i = some ri → rs.get? j = some rj →
      ¬ ∃ c, Reach h' ri c ∧ Reach h' rj c := by
  obtain ⟨-, hsegs⟩ := formatBatchH_spec fuel inputs h h' rs hrun hb hflat
  intro i j ri rj hij hgi hgj hex
  obtain ⟨c, hci, hcj⟩ := hex
  exact segsOK_disjoint h' rs h.next h'.next hsegs i j ri rj hij hgi hgj
    c hci hcj

/-- C10 witness: a batch of three faces sharing one flat bbox object and
one mutable landmarks list formats successfully, and no two of the three
results reach a common heap object. -/
theorem c10_amended_witness :
    (HeapBounded c10wHeap ∧
     (∀ inp ∈ c10wInputs, flatBBoxB c10wHeap inp.bbox = true) ∧
     formatBatchH 8 c10wHeap c10wInputs = some (c10wOut.1, c10wOut.2)) ∧
    (∀ i j ri rj, i < j → c10wOut.2.get? i = some ri →
      c10wOut.2.get? j = some rj →
      ¬ ∃ c, Reach c10wOut.1 ri c ∧ Reach c10wOut.1 rj c) :=
  ⟨⟨by unfold HeapBounded; decide, by decide, by rfl⟩,
   c10_amended 8 c10wHeap c10wOut.1 c10wInputs c10wOut.2
     (by unfold HeapBounded; decide) (by decide) (by rfl)⟩

/-- C10 counterexample: because `_clone_bbox` copies only the top level
(`dict(bbox)`), two results whose input bbox dicts share a nested list
both reach that same list — the bbox written into a result is not a
deep, independent copy, and mutating the shared list through one
output's `bbox.corners` path changes what the other output's
`bbox.corners` path reads. -/
theorem c10_no_aliasing_counterexample :
    formatBatchH 8 cxHeap cxInputs = some (cxOut.1, cxOut.2) ∧
    cxOut.2 = [5, 8] ∧
    hReadKey cxOut.1 5 "bbox" = some (HVal.ref 3) ∧
    hReadKey cxOut.1 8 "bbox" = some (HVal.ref 6) ∧
    hReadKey cxOut.1 3 "corners" = some (HVal.ref 0) ∧
    hReadKey cxOut.1 6 "corners" = some (HVal.ref 0) ∧
    Reach cxOut.1 5 0 ∧ Reach cxOut.1 8 0 ∧
    hGet cxOut.1 0 = some (HObj.arr [HVal.num 5, HVal.num 6]) ∧
    hGet (hSet cxOut.1 0 (HObj.arr [HVal.num 9, HVal.num 6])) 0 =
      some (HObj.arr [HVal.num 9, HVal.num 6]) ∧
    hReadKey (hSet cxOut.1 0 (HObj.arr [HVal.num 9, HVal.num 6])) 3
      "corners" = some (HVal.ref 0) ∧
    hReadKey (hSet cxOut.1 0 (HObj.arr [HVal.num 9, HVal.num 6])) 6
      "corners" = some (HVal.ref 0) := by
  refine ⟨by rfl, by rfl, by rfl, by rfl, by rfl, by rfl, ?_, ?_,
    by rfl, by rfl, by rfl, by rfl⟩
  · exact reach_read cxOut.1 5 3 0 "corners"
      (reach_read cxOut.1 5 5 3 "bbox" Reach.refl (by rfl)) (by rfl)
  · exact reach_read cxOut.1 8 6 0 "corners"
      (reach_read cxOut.1 8 8 6 "bbox" Reach.refl (by rfl)) (by rfl)
